import Mathlib

/-!
B-tree with pluggable allocator: a verification development

Shallow embedding of `src/btree.hpp`, `src/btree_node.hpp`,
`src/example/custom_list_allocator.hpp` and `src/example/smpl_alloc.hpp`.

Conventions of the B-tree embedding:

* A node is a value: its key array (capacity `2*ORDER-1`, every slot holding a
  value, live or stale), its child array (capacity `2*ORDER`, a slot is `none`
  while the pointer stored there has never been written), its key count and
  its leaf flag.  A mutation made through a child pointer is written back
  into the slot the pointer was read from.
* A dereference of a never-written child pointer, and the exhaustion of the
  recursion budget, make an operation return `none`.
* Recursion down the tree is bounded by a budget that the tree-level
  operations compute from the height of the tree.
* The visitor passed to `traverse` is modelled by the list of the keys it is
  called with, in call order.
* The `int` loop indices of `insertNonFull` and `splitChild` are natural
  numbers here, shifted by one where the source index can reach `-1`; the
  casts between `size_t` and `int` are exact for every key count that fits
  an `int`.
* Keys are values of a linearly ordered type `T`; `default` is the value a
  value-initialised key slot holds (`T()`).
-/

set_option linter.unusedSectionVars false
set_option linter.unusedVariables false

namespace btree

/-- The node record of `btree_node.hpp`: `keys_`, `childs_`, `keys_count_`, `leaf_`. -/
inductive BTreeNode (T : Type) where
  | mk (keys_ : List T) (childs_ : List (Option (BTreeNode T))) (keys_count_ : Nat) (leaf_ : Bool)

namespace BTreeNode

variable {T : Type}

def keys_ : BTreeNode T → List T
  | mk k _ _ _ => k

def childs_ : BTreeNode T → List (Option (BTreeNode T))
  | mk _ c _ _ => c

def keys_count_ : BTreeNode T → Nat
  | mk _ _ n _ => n

def leaf_ : BTreeNode T → Bool
  | mk _ _ _ l => l

/-- Accessor `isLeaf()`. -/
def isLeaf (n : BTreeNode T) : Bool := n.leaf_

/-- Accessor `size()`. -/
def size (n : BTreeNode T) : Nat := n.keys_count_

mutual
/-- Number of node levels below and including this node, following every
written child pointer. -/
def height : BTreeNode T → Nat
  | mk _ c _ _ => heightList c + 1
/-- Largest height among the nodes a child array points to. -/
def heightList : List (Option (BTreeNode T)) → Nat
  | [] => 0
  | none :: cs => heightList cs
  | some c :: cs => max (height c) (heightList cs)
end

end BTreeNode

section Algorithms

variable {T : Type} [LinearOrder T] [Inhabited T]

/-- The word read from `keys_[i]`; an index inside the array yields the slot. -/
def readKey (keys : List T) (i : Nat) : T := keys.getD i default

/-- The loop `for (j = hi; j > lo; j--) a[j] = a[j - 1];` on an array.  The
child loop `for (j = n; j >= i + 1; j--) c[j + 1] = c[j];` is this loop with
`hi = n + 1` and `lo = i + 1`. -/
def shiftRight {α : Type} (d : α) (lo : Nat) : Nat → List α → List α
  | 0, a => a
  | j + 1, a => if lo < j + 1 then shiftRight d lo j (a.set (j + 1) (a.getD j d)) else a

/-- The loop `for (j = 0; j < n; j++) dst[j] = src[j + off];`. -/
def copyFrom {α : Type} (d : α) (src : List α) (off : Nat) : Nat → List α → List α
  | 0, dst => dst
  | n + 1, dst => (copyFrom d src off n dst).set n (src.getD (n + off) d)

/-- Embeds `createNode(isLeaf)`: a key array of `2*ORDER-1` value-initialised
slots, a child array of `2*ORDER` unwritten slots, key count 0. -/
def createNode (ORDER : Nat) (isLeaf : Bool) : BTreeNode T :=
  .mk (List.replicate (2 * ORDER - 1) default) (List.replicate (2 * ORDER) none) 0 isLeaf

/-- Embeds `splitChild(node, i, y)` where `y` is the node that
`node.childs_[i]` points to.  Returns the parent after the call; the truncated
`y` is stored back at child slot `i`. -/
def splitChild (ORDER : Nat) (node : BTreeNode T) (i : Nat) (y : BTreeNode T) : BTreeNode T :=
  let z0 : BTreeNode T := createNode ORDER y.leaf_
  let zkeys := copyFrom default y.keys_ ORDER (ORDER - 1) z0.keys_
  let zchilds := if y.leaf_ then z0.childs_ else copyFrom none y.childs_ ORDER ORDER z0.childs_
  let z : BTreeNode T := .mk zkeys zchilds (ORDER - 1) y.leaf_
  let y1 : BTreeNode T := .mk y.keys_ y.childs_ (ORDER - 1) y.leaf_
  let childs1 := shiftRight none (i + 1) (node.keys_count_ + 1) (node.childs_.set i (some y1))
  let childs2 := childs1.set (i + 1) (some z)
  let keys1 := shiftRight default i node.keys_count_ node.keys_
  let keys2 := keys1.set i (readKey y.keys_ (ORDER - 1))
  .mk keys2 childs2 (node.keys_count_ + 1) node.leaf_

/-- The leaf loop of `insertNonFull`, with `p = i + 1`:
`while (i >= 0 && keys[i] > key) { keys[i + 1] = keys[i]; --i; }`.
Returns the final `i + 1` and the key array. -/
def leafShift (key : T) : Nat → List T → Nat × List T
  | 0, ks => (0, ks)
  | p + 1, ks =>
    if readKey ks p > key then leafShift key p (ks.set (p + 1) (readKey ks p)) else (p + 1, ks)

/-- The internal-node loop of `insertNonFull`, with `p = i + 1`:
`while (i >= 0 && keys[i] > key) --i;`.  Returns the final `i + 1`. -/
def scanDown (key : T) (ks : List T) : Nat → Nat
  | 0 => 0
  | p + 1 => if readKey ks p > key then scanDown key ks p else p + 1

/-- Embeds `insertNonFull(node, key)`; the first argument bounds the recursion depth. -/
def insertNonFull (ORDER : Nat) : Nat → BTreeNode T → T → Option (BTreeNode T)
  | 0, _, _ => none
  | fuel + 1, node, key =>
    if node.leaf_ then
      let r := leafShift key node.keys_count_ node.keys_
      some (.mk (r.2.set r.1 key) node.childs_ (node.keys_count_ + 1) node.leaf_)
    else
      let p := scanDown key node.keys_ node.keys_count_
      match node.childs_.getD p none with
      | none => none
      | some c =>
        let node1 := if c.keys_count_ = 2 * ORDER - 1 then splitChild ORDER node p c else node
        let p1 :=
          if c.keys_count_ = 2 * ORDER - 1 then (if readKey node1.keys_ p < key then p + 1 else p)
          else p
        match node1.childs_.getD p1 none with
        | none => none
        | some c1 =>
          match insertNonFull ORDER fuel c1 key with
          | none => none
          | some c2 =>
            some (.mk node1.keys_ (node1.childs_.set p1 (some c2)) node1.keys_count_ node1.leaf_)

/-- The visitor calls made by iterations `0 .. n-1` of the loop of
`BTreeNode::traverse`, given what the traversal of child `i` presents. -/
def traverseLoop (visitChild : Nat → Option (List T)) (keys : List T) : Nat → Option (List T)
  | 0 => some []
  | n + 1 =>
    match traverseLoop visitChild keys n, visitChild n with
    | some acc, some l => some (acc ++ l ++ [readKey keys n])
    | _, _ => none

/-- Embeds `BTreeNode::traverse(u)`: the keys presented to `u`, in order; the first
argument bounds the recursion depth. -/
def BTreeNode.traverse : Nat → BTreeNode T → Option (List T)
  | 0, _ => none
  | fuel + 1, node =>
    let visitChild : Nat → Option (List T) := fun i =>
      if node.leaf_ = false then
        match node.childs_.getD i none with
        | none => none
        | some c => BTreeNode.traverse fuel c
      else some []
    match traverseLoop visitChild node.keys_ node.keys_count_, visitChild node.keys_count_ with
    | some acc, some l => some (acc ++ l)
    | _, _ => none

/-- The loop `while (i < keys_count_ && k > keys_[i]) ++i;` of
`BTreeNode::search`; the first argument is `keys_count_ - i`. -/
def scanUp (k : T) (ks : List T) : Nat → Nat → Nat
  | 0, i => i
  | rem + 1, i => if k > readKey ks i then scanUp k ks rem (i + 1) else i

/-- Embeds `BTreeNode::search(k)`.  The outer option is the recursion budget and
pointer validity, the inner one is the returned pointer (`none` for
`nullptr`).  The test `keys_[i] == k` reads slot `i` whatever the key count
is; when `i` is past the end of the key array the word read is `junk node`. -/
def BTreeNode.search (junk : BTreeNode T → T) :
    Nat → BTreeNode T → T → Option (Option (BTreeNode T))
  | 0, _, _ => none
  | fuel + 1, node, k =>
    let i := scanUp k node.keys_ node.keys_count_ 0
    let ki := match node.keys_[i]? with
      | some v => v
      | none => junk node
    if ki = k then some (some node)
    else if node.leaf_ then some none
    else
      match node.childs_.getD i none with
      | none => none
      | some c => BTreeNode.search junk fuel c k

/-- The tree object of `btree.hpp`: the root pointer. -/
structure BTree (T : Type) where
  root_ : Option (BTreeNode T)

/-- Constructor `BTree(alloc)`: the root is a fresh empty leaf. -/
def BTree.new (ORDER : Nat) : BTree T := ⟨some (createNode ORDER true)⟩

/-- Height of the tree under the root pointer. -/
def BTree.height (t : BTree T) : Nat :=
  match t.root_ with
  | none => 0
  | some r => r.height

/-- Embeds `BTree::traverse(u)`. -/
def BTree.traverse (t : BTree T) : Option (List T) :=
  match t.root_ with
  | none => some []
  | some r => r.traverse r.height

/-- Embeds `BTree::search(key)`. -/
def BTree.search (junk : BTreeNode T → T) (t : BTree T) (key : T) :
    Option (Option (BTreeNode T)) :=
  match t.root_ with
  | none => some none
  | some r => r.search junk r.height key

/-- Embeds `BTree::insert(key)`. -/
def BTree.insert (ORDER : Nat) (t : BTree T) (key : T) : Option (BTree T) :=
  match t.root_ with
  | none =>
    let r : BTreeNode T := createNode ORDER true
    some ⟨some (.mk (r.keys_.set 0 key) r.childs_ 1 r.leaf_)⟩
  | some root =>
    if root.keys_count_ = 2 * ORDER - 1 then
      let s0 : BTreeNode T := createNode ORDER false
      let s1 : BTreeNode T := .mk s0.keys_ (s0.childs_.set 0 (some root)) s0.keys_count_ s0.leaf_
      let s2 := splitChild ORDER s1 0 root
      let i := if readKey s2.keys_ 0 < key then 1 else 0
      match s2.childs_.getD i none with
      | none => none
      | some c =>
        match insertNonFull ORDER root.height c key with
        | none => none
        | some c1 => some ⟨some (.mk s2.keys_ (s2.childs_.set i (some c1)) s2.keys_count_ s2.leaf_)⟩
    else
      match insertNonFull ORDER root.height root key with
      | none => none
      | some r1 => some ⟨some r1⟩

/-- A run of `insert` calls, in order, starting from a tree. -/
def BTree.insertAll (ORDER : Nat) (t : BTree T) : List T → Option (BTree T)
  | [] => some t
  | k :: ks =>
    match BTree.insert ORDER t k with
    | none => none
    | some t1 => BTree.insertAll ORDER t1 ks

/-! ### Specification vocabulary for the tree -/

/-- The live keys of a node: slots `0 .. keys_count_-1`. -/
def liveKeys (n : BTreeNode T) : List T := n.keys_.take n.keys_count_

/-- The live child slots of a node: slots `0 .. keys_count_`. -/
def liveChilds (n : BTreeNode T) : List (Option (BTreeNode T)) :=
  n.childs_.take (n.keys_count_ + 1)

/-- Interleaving `s0, k0, s1, k1, ..., sn` of child sequences and keys. -/
def inter : List (List T) → List T → List T
  | [], _ => []
  | s :: _, [] => s
  | s :: segs, k :: ks => s ++ k :: inter segs ks

/-- The part `s0, k0, ..., s(i-1), k(i-1)` of an interleaving. -/
def preI : List (List T) → List T → List T
  | s :: segs, k :: ks => s ++ k :: preI segs ks
  | _, _ => []

/-- The part `ki, s(i+1), ..., sn` of an interleaving that follows `si`. -/
def postI (segs : List (List T)) : List T → List T
  | [] => []
  | k :: ks => k :: inter segs ks

/-- In-order key sequence of what a child slot points to. -/
def slotKeys (f : BTreeNode T → List T) : Option (BTreeNode T) → List T
  | none => []
  | some c => f c

/-- In-order key sequence of the subtree of depth `d` under a node. -/
def inorder : Nat → BTreeNode T → List T
  | 0, _ => []
  | d + 1, n =>
    if n.leaf_ then liveKeys n
    else inter ((liveChilds n).map (slotKeys (inorder d))) (liveKeys n)

/-- The child `y` as `splitChild` leaves it: the key count cut to `ORDER-1`. -/
def splitLeft (ORDER : Nat) (y : BTreeNode T) : BTreeNode T :=
  .mk y.keys_ y.childs_ (ORDER - 1) y.leaf_

/-- The sibling `z` that `splitChild` creates from `y`. -/
def splitRight (ORDER : Nat) (y : BTreeNode T) : BTreeNode T :=
  .mk (copyFrom default y.keys_ ORDER (ORDER - 1) (createNode ORDER y.leaf_ : BTreeNode T).keys_)
    (if y.leaf_ then (createNode ORDER y.leaf_ : BTreeNode T).childs_
      else copyFrom none y.childs_ ORDER ORDER (createNode ORDER y.leaf_ : BTreeNode T).childs_)
    (ORDER - 1) y.leaf_

/-- Shape invariant of a subtree whose leaves are all `d` levels down
(`d = 1` for a leaf): array capacities, at most `2*ORDER-1` keys, at least
`ORDER-1` keys unless the node is the root, leaves exactly at the last level,
and an internal node with `k` keys has valid children in slots `0 .. k`, each
of them well shaped one level down. -/
def WellShaped (ORDER : Nat) : Nat → Bool → BTreeNode T → Prop
  | 0, _, _ => False
  | d + 1, isRoot, n =>
    n.keys_.length = 2 * ORDER - 1 ∧ n.childs_.length = 2 * ORDER ∧
    n.keys_count_ ≤ 2 * ORDER - 1 ∧ (isRoot = false → ORDER - 1 ≤ n.keys_count_) ∧
    (n.leaf_ = true ↔ d = 0) ∧
    (n.leaf_ = false → ∀ j, j ≤ n.keys_count_ →
      ∃ c, n.childs_[j]? = some (some c) ∧ WellShaped ORDER d false c)

/-- The statement proved for `insertNonFull` on subtrees of depth `d`. -/
def InsertOK (ORDER d : Nat) : Prop :=
  ∀ (fuel : Nat) (b : Bool) (n : BTreeNode T) (key : T),
    WellShaped ORDER d b n → n.keys_count_ < 2 * ORDER - 1 → d ≤ fuel →
    (inorder d n).Sorted (· ≤ ·) →
    ∃ n', insertNonFull ORDER fuel n key = some n' ∧ WellShaped ORDER d b n' ∧
      (inorder d n').Perm (key :: inorder d n) ∧ (inorder d n').Sorted (· ≤ ·)

end Algorithms

section AllocFailure
variable {T : Type} [LinearOrder T] [Inhabited T]

/-- Outcome of a call during which `createNode` may throw `std::bad_alloc`.
`done v n`: the call returned and left the object as `v`, and `n` further
`createNode` calls will still succeed.  `oom v`: the exception left the
call, and the object is as `v`. -/
inductive Outcome (α : Type) where
  | done (v : α) (allocs : Nat)
  | oom (v : α)

/-- Embeds `insertNonFull(node, key)` when only the next `allocs` calls of
`createNode` succeed.  `splitChild` calls `createNode` before it writes
anything, so a failure there leaves `node` as it is at that moment; a failure
further down leaves `node` with the child as the interrupted call left it. -/
def insertNonFullA (ORDER : Nat) :
    Nat → Nat → BTreeNode T → T → Option (Outcome (BTreeNode T))
  | 0, _, _, _ => none
  | fuel + 1, allocs, node, key =>
    if node.leaf_ then
      let r := leafShift key node.keys_count_ node.keys_
      some (.done (.mk (r.2.set r.1 key) node.childs_ (node.keys_count_ + 1) node.leaf_) allocs)
    else
      let p := scanDown key node.keys_ node.keys_count_
      match node.childs_.getD p none with
      | none => none
      | some c =>
        if c.keys_count_ = 2 * ORDER - 1 ∧ allocs = 0 then some (.oom node)
        else
          let node1 := if c.keys_count_ = 2 * ORDER - 1 then splitChild ORDER node p c else node
          let allocs1 := if c.keys_count_ = 2 * ORDER - 1 then allocs - 1 else allocs
          let p1 :=
            if c.keys_count_ = 2 * ORDER - 1 then
              (if readKey node1.keys_ p < key then p + 1 else p)
            else p
          match node1.childs_.getD p1 none with
          | none => none
          | some c1 =>
            match insertNonFullA ORDER fuel allocs1 c1 key with
            | none => none
            | some (.done c2 n) =>
              some (.done
                (.mk node1.keys_ (node1.childs_.set p1 (some c2)) node1.keys_count_ node1.leaf_) n)
            | some (.oom c2) =>
              some (.oom
                (.mk node1.keys_ (node1.childs_.set p1 (some c2)) node1.keys_count_ node1.leaf_))

/-- Embeds `BTree::insert(key)` when only the next `allocs` calls of `createNode`
succeed.  With a full root, `root_ = s` is the last statement: when the
exception leaves the call after the root split, `root_` still points to the
old root node, which is child 0 of `s`. -/
def BTree.insertA (ORDER : Nat) (allocs : Nat) (t : BTree T) (key : T) :
    Option (Outcome (BTree T)) :=
  match t.root_ with
  | none =>
    if allocs = 0 then some (.oom t)
    else
      let r : BTreeNode T := createNode ORDER true
      some (.done ⟨some (.mk (r.keys_.set 0 key) r.childs_ 1 r.leaf_)⟩ (allocs - 1))
  | some root =>
    if root.keys_count_ = 2 * ORDER - 1 then
      if allocs = 0 then some (.oom t)
      else if allocs = 1 then some (.oom t)
      else
        let s0 : BTreeNode T := createNode ORDER false
        let s1 : BTreeNode T :=
          .mk s0.keys_ (s0.childs_.set 0 (some root)) s0.keys_count_ s0.leaf_
        let s2 := splitChild ORDER s1 0 root
        let i := if readKey s2.keys_ 0 < key then 1 else 0
        match s2.childs_.getD i none with
        | none => none
        | some c =>
          match insertNonFullA ORDER root.height (allocs - 2) c key with
          | none => none
          | some (.done c1 n) =>
            some (.done
              ⟨some (.mk s2.keys_ (s2.childs_.set i (some c1)) s2.keys_count_ s2.leaf_)⟩ n)
          | some (.oom c1) => some (.oom ⟨(s2.childs_.set i (some c1)).getD 0 none⟩)
    else
      match insertNonFullA ORDER root.height allocs root key with
      | none => none
      | some (.done r1 n) => some (.done ⟨some r1⟩ n)
      | some (.oom r1) => some (.oom ⟨some r1⟩)

/-- The statement proved for `insertNonFullA` on subtrees of depth `d`: the
call yields an outcome, and when the exception leaves it the subtree is
still well shaped, has the in-order key sequence it had, and is unchanged if
no `createNode` call succeeded. -/
def InsertAOK (ORDER d : Nat) : Prop :=
  ∀ (fuel allocs : Nat) (b : Bool) (n : BTreeNode T) (key : T),
    WellShaped ORDER d b n → n.keys_count_ < 2 * ORDER - 1 → d ≤ fuel →
    ∃ o, insertNonFullA ORDER fuel allocs n key = some o ∧
      ∀ n', o = .oom n' →
        WellShaped ORDER d b n' ∧ inorder d n' = inorder d n ∧ (allocs = 0 → n' = n)

end AllocFailure

section AllocFailureRuns
variable {T : Type} [LinearOrder T] [Inhabited T]

/-- Whether the call was left by the exception. -/
def Outcome.failed {α : Type} : Outcome α → Bool
  | .done _ _ => false
  | .oom _ => true

/-- The object as the call left it. -/
def Outcome.value {α : Type} : Outcome α → α
  | .done v _ => v
  | .oom v => v

/-- The live keys of the root node. -/
def BTree.rootKeys (t : BTree T) : Option (List T) := t.root_.map liveKeys

/-- A tree of `ORDER = 2` with a non-full root `[40]`, a full internal node
`[60, 80, 100]` below it and the full leaf `[50, 51, 52]` below that. -/
def failTree : Option (BTree Nat) :=
  BTree.insertAll 2 (BTree.new 2) [10, 20, 30, 40, 50, 60, 70, 80, 90, 100, 51, 52, 110, 120]

/-- Inserting 53 into `failTree` when the second `createNode` call fails. -/
def failRun : Option (Outcome (BTree Nat)) := failTree.bind (fun t => BTree.insertA 2 1 t 53)

/-- A tree of `ORDER = 2` with the full root `[3, 7, 11]` and the full leaf
`[14, 15, 16]`. -/
def lossTree : Option (BTree Nat) :=
  BTree.insertAll 2 (BTree.new 2) [0, 1, 2, 3, 4, 5, 6, 7, 8, 9, 10, 11, 12, 13, 14, 15, 16]

/-- Inserting 17 into `lossTree` when the third `createNode` call fails. -/
def lossRun : Option (Outcome (BTree Nat)) := lossTree.bind (fun t => BTree.insertA 2 2 t 17)

end AllocFailureRuns

section NodeOrder
variable {T : Type} [LinearOrder T] [Inhabited T]

/-- Every node of the subtree of depth `d + 1` under `n` satisfies `P`: the
node itself, and every node below a valid child in the slots
`0 .. keys_count_` of an internal node.  `P` also receives the depth of the
node's children. -/
def AllNodes (P : Nat → BTreeNode T → Prop) : Nat → BTreeNode T → Prop
  | 0, _ => True
  | d + 1, n =>
    P d n ∧ (n.leaf_ = false → ∀ j, j ≤ n.keys_count_ →
      ∀ c, n.childs_[j]? = some (some c) → AllNodes P d c)

/-- The live keys of a node are in the order `R`, each before all later ones. -/
def KeysOrdered (R : T → T → Prop) (n : BTreeNode T) : Prop := (liveKeys n).Pairwise R

/-- For every live key `k_i` of the internal node `n`, each key `x` in the
subtree (of depth `d`) of child `i` has `R x k_i`, and each key `x` in the
subtree of child `i + 1` has `R k_i x`. -/
def ChildrenBounded (R : T → T → Prop) (d : Nat) (n : BTreeNode T) : Prop :=
  n.leaf_ = false → ∀ i, i < n.keys_count_ →
    (∀ c, n.childs_[i]? = some (some c) → ∀ x ∈ inorder d c, R x (readKey n.keys_ i)) ∧
    (∀ c, n.childs_[i + 1]? = some (some c) → ∀ x ∈ inorder d c, R (readKey n.keys_ i) x)

end NodeOrder

section Scenarios

/-- The number of live keys of the root node. -/
def BTree.rootKeyCount {T : Type} (t : BTree T) : Option Nat := t.root_.map (fun r => r.keys_count_)

/-- The live keys of each node in the child slots `0 .. keys_count_` of the
root, slot by slot (an invalid slot yields no keys). -/
def BTree.rootChildKeys {T : Type} (t : BTree T) : Option (List (List T)) :=
  t.root_.map (fun r => (liveChilds r).map (slotKeys liveKeys))

/-- The number of valid children in the child slots `0 .. keys_count_` of the
root. -/
def BTree.rootChildCount {T : Type} (t : BTree T) : Option Nat :=
  t.root_.map (fun r => ((liveChilds r).filter Option.isSome).length)

/-- Scenario A: `BTree<int, 2>` after inserting 10, 20, 5, 6, 12, 30, 7, 17. -/
def scenarioA : Option (BTree Nat) := BTree.insertAll 2 (BTree.new 2) [10, 20, 5, 6, 12, 30, 7, 17]

/-- The same keys inserted with `ORDER = 3`. -/
def scenarioA3 : Option (BTree Nat) :=
  BTree.insertAll 3 (BTree.new 3) [10, 20, 5, 6, 12, 30, 7, 17]

/-- The root that `BTree<int, 2>` has after inserting 5, 5: a leaf with the
live keys `[5, 5]`. -/
def dupLeaf : BTreeNode Nat := .mk [5, 5, 0] [none, none, none, none] 2 true

/-- The root that `BTree<int, 2>` has after inserting 5, 5, 5, 5: the key 5
with the leaves `[5, 5]` and `[5]` below it. -/
def dupRoot : BTreeNode Nat :=
  .mk [5, 0, 0]
    [some (.mk [5, 5, 5] [none, none, none, none] 2 true),
      some (.mk [5, 0, 0] [none, none, none, none] 1 true), none, none] 1 false

/-- A full leaf of `ORDER = 2` with the keys 1, 2, 3. -/
def fullLeaf : BTreeNode Nat := .mk [1, 2, 3] [none, none, none, none] 3 true

/-- The new root that `insert` builds over the full root `fullLeaf` before it
calls `splitChild`. -/
def freshParent : BTreeNode Nat :=
  .mk (createNode 2 false : BTreeNode Nat).keys_
    ((createNode 2 false : BTreeNode Nat).childs_.set 0 (some fullLeaf))
    (createNode 2 false : BTreeNode Nat).keys_count_ (createNode 2 false : BTreeNode Nat).leaf_

end Scenarios

section SearchReads
variable {T : Type} [LinearOrder T] [Inhabited T]

/-- One read of a key slot by `search`: the index of the slot, and the key
count and the capacity of the key array of the node visited. -/
structure key_read where
  index : Nat
  keys_count : Nat
  capacity : Nat
  deriving DecidableEq, Repr

/-- The slot indices that the loop `while (i < keys_count_ && k > keys_[i]) ++i;`
of `BTreeNode::search` reads, in order; the first argument is
`keys_count_ - i`.  The test `i < keys_count_` comes first, so the loop reads
`keys_[i]` only when it holds. -/
def scanUpReads (k : T) (ks : List T) : Nat → Nat → List Nat
  | 0, _ => []
  | rem + 1, i => i :: (if k > readKey ks i then scanUpReads k ks rem (i + 1) else [])

/-- The key slots that `BTreeNode::search(k)` reads, in order: in every node
visited the reads of the loop, then the read of `keys_[i]` by the test
`keys_[i] == k`, which follows the loop without a test of `i`.  Control flow
and the role of `junk` are those of `BTreeNode.search`. -/
def BTreeNode.searchReads (junk : BTreeNode T → T) :
    Nat → BTreeNode T → T → Option (List key_read)
  | 0, _, _ => none
  | fuel + 1, node, k =>
    let i := scanUp k node.keys_ node.keys_count_ 0
    let here : List key_read :=
      (scanUpReads k node.keys_ node.keys_count_ 0 ++ [i]).map
        (fun j => ⟨j, node.keys_count_, node.keys_.length⟩)
    let ki := match node.keys_[i]? with
      | some v => v
      | none => junk node
    if ki = k then some here
    else if node.leaf_ then some here
    else
      match node.childs_.getD i none with
      | none => none
      | some c =>
        match BTreeNode.searchReads junk fuel c k with
        | none => none
        | some l => some (here ++ l)

/-- The key slots that `BTree::search(key)` reads. -/
def BTree.searchReads (junk : BTreeNode T → T) (t : BTree T) (key : T) :
    Option (List key_read) :=
  match t.root_ with
  | none => some []
  | some r => r.searchReads junk r.height key

/-- A leaf of `ORDER = 2` that holds the single key 1. -/
def oneKeyLeaf : BTreeNode Nat := .mk [1, 0, 0] [none, none, none, none] 1 true

end SearchReads

end btree

/-!
The free-list allocator of `custom_list_allocator.hpp`.

Conventions of the embedding:

* `size_t` is 64 bits wide; `size_t` arithmetic is taken modulo `2^64`.
* An address is the byte offset from `heap_memory`; a pointer is an
  `Option Nat`, `none` standing for `NULL`.
* The intrusive free list is the list of its nodes in link order, each node
  given by its address and its `size` field; `next` is the list order and a
  pointer to a node is the node found at that address.
* `header` is the `size_t` word stored at the start of each block that has
  been handed out.  The first word of a block that sits in the free list
  holds the list link and is not tracked.
-/

namespace custom_list

/-- Value of `SIZE_MAX + 1`. -/
def SIZE_MOD : Nat := 2 ^ 64

/-- Value of `SIZE_MAX` of `<stdint.h>`. -/
def SIZE_MAX : Nat := 2 ^ 64 - 1

/-- Value of `PTRDIFF_MAX` of `<stdint.h>`: no object is larger. -/
def PTRDIFF_MAX : Nat := 2 ^ 63 - 1

/-- Value of `sizeof(size_t)`. -/
def sizeof_size_t : Nat := 8

/-- Value of `sizeof(void*)`. -/
def sizeof_ptr : Nat := 8

/-- Value of `sizeof(free_node_t)`: a pointer and a `size_t`. -/
def sizeof_free_node_t : Nat := 16

/-- The enumeration `alloc_policy_t`. -/
inductive alloc_policy_t where
  | ALLOC_POLICY_FIRST_FIT
  | ALLOC_POLICY_BEST_FIT
  deriving DecidableEq, Repr

/-- A node of the free list: where it lies and its `size` field. -/
structure free_node_t where
  addr : Nat
  size : Nat
  deriving DecidableEq, Repr

/-- The record `struct custom_list_allocator_s`; `free_list` is the chain that starts at
`free_list_head`. -/
structure custom_list_allocator_s where
  free_list : List free_node_t
  total_size : Nat
  used_size : Nat
  policy : alloc_policy_t
  header : Nat → Nat

/-- Embeds `align_size(size)`: `(size + alignment - 1) & ~(alignment - 1)`. -/
def align_size (size : Nat) : Nat :=
  ((size + sizeof_ptr - 1) % SIZE_MOD) &&& (SIZE_MAX - (sizeof_ptr - 1))

/-- The loop of `node_find_first`, at `prev`, with the chain from `cur` on. -/
def node_find_first_loop (size : Nat) :
    Option free_node_t → List free_node_t → Option free_node_t × Option free_node_t
  | _, [] => (none, none)
  | prev, cur :: rest =>
    if cur.size ≥ size then (prev, some cur) else node_find_first_loop size (some cur) rest

/-- Embeds `node_find_first`: the pair `(*out_prev, *out_cur)`. -/
def node_find_first (alloc : custom_list_allocator_s) (size : Nat) :
    Option free_node_t × Option free_node_t :=
  node_find_first_loop size none alloc.free_list

/-- The loop of `node_find_best`, at `prev`, with the chain from `cur` on and
the current `best_prev`, `best_cur`, `min_diff`. -/
def node_find_best_loop (size : Nat) :
    Option free_node_t → List free_node_t → Option free_node_t → Option free_node_t → Nat →
      Option free_node_t × Option free_node_t
  | _, [], best_prev, best_cur, _ => (best_prev, best_cur)
  | prev, cur :: rest, best_prev, best_cur, min_diff =>
    if cur.size ≥ size then
      if cur.size - size < min_diff then
        if cur.size - size = 0 then (prev, some cur)
        else node_find_best_loop size (some cur) rest prev (some cur) (cur.size - size)
      else node_find_best_loop size (some cur) rest best_prev best_cur min_diff
    else node_find_best_loop size (some cur) rest best_prev best_cur min_diff

/-- Embeds `node_find_best`: the pair `(*out_prev, *out_cur)`. -/
def node_find_best (alloc : custom_list_allocator_s) (size : Nat) :
    Option free_node_t × Option free_node_t :=
  node_find_best_loop size none alloc.free_list none none SIZE_MAX

/-- Embeds `node_find`: dispatch on the policy. -/
def node_find (alloc : custom_list_allocator_s) (size : Nat) :
    Option free_node_t × Option free_node_t :=
  match alloc.policy with
  | .ALLOC_POLICY_FIRST_FIT => node_find_first alloc size
  | .ALLOC_POLICY_BEST_FIT => node_find_best alloc size

/-- The walk and the relinking of `insert_free_node` on a chain. -/
def insert_into_chain (node_to_insert : free_node_t) : List free_node_t → List free_node_t
  | [] => [node_to_insert]
  | curr :: rest =>
    if curr.addr < node_to_insert.addr then curr :: insert_into_chain node_to_insert rest
    else node_to_insert :: curr :: rest

/-- Embeds `insert_free_node`. -/
def insert_free_node (alloc : custom_list_allocator_s) (node_to_insert : free_node_t) :
    custom_list_allocator_s :=
  { alloc with free_list := insert_into_chain node_to_insert alloc.free_list }

/-- The chain `p->next` for the node `p` at address `a`. -/
def chain_after (l : List free_node_t) (a : Nat) : List free_node_t :=
  (l.dropWhile (fun n => n.addr != a)).drop 1

/-- The chain up to and including the node at address `a`. -/
def chain_upto (l : List free_node_t) (a : Nat) : List free_node_t :=
  l.takeWhile (fun n => n.addr != a) ++ (l.dropWhile (fun n => n.addr != a)).take 1

/-- Embeds `remove_free_node`: `free_list_head = node_to_remove->next` when `prev`
is `NULL`, else `prev->next = node_to_remove->next`. -/
def remove_free_node (alloc : custom_list_allocator_s) (prev : Option free_node_t)
    (node_to_remove : free_node_t) : custom_list_allocator_s :=
  match prev with
  | none => { alloc with free_list := chain_after alloc.free_list node_to_remove.addr }
  | some p =>
    { alloc with
      free_list := chain_upto alloc.free_list p.addr ++
        chain_after alloc.free_list node_to_remove.addr }

/-- The loop of `coalesce_free_nodes` standing at `curr`, with `curr->next`
and what follows. -/
def coalesce_from (curr : free_node_t) : List free_node_t → List free_node_t
  | [] => [curr]
  | next :: rest =>
    if curr.addr + curr.size = next.addr then
      coalesce_from ⟨curr.addr, (curr.size + next.size) % SIZE_MOD⟩ rest
    else curr :: coalesce_from next rest

/-- The loop of `coalesce_free_nodes` started at the head of a chain. -/
def coalesce_chain : List free_node_t → List free_node_t
  | [] => []
  | curr :: rest => coalesce_from curr rest

/-- Embeds `coalesce_free_nodes`. -/
def coalesce_free_nodes (alloc : custom_list_allocator_s) : custom_list_allocator_s :=
  { alloc with free_list := coalesce_chain alloc.free_list }

/-- Embeds `custom_list_alloc_create(heap_size, policy)`.  `heap_memory` is what the
two calls of the C library `malloc` deliver: `none` when one of them fails,
else the initial content of the heap region. -/
def custom_list_alloc_create (heap_size : Nat) (policy : alloc_policy_t)
    (heap_memory : Option (Nat → Nat)) : Option custom_list_allocator_s :=
  if heap_size < sizeof_free_node_t + sizeof_size_t then none
  else
    match heap_memory with
    | none => none
    | some mem =>
      some
        { free_list := [⟨0, heap_size⟩]
          total_size := heap_size
          used_size := 0
          policy := policy
          header := mem }

/-- Embeds `custom_list_malloc(alloc, user_size)` on a non-null `alloc`: the new
state and the returned pointer. -/
def custom_list_malloc (alloc : custom_list_allocator_s) (user_size : Nat) :
    custom_list_allocator_s × Option Nat :=
  if user_size = 0 then (alloc, none)
  else
    let aligned := align_size ((user_size + sizeof_size_t) % SIZE_MOD)
    let actual_requested_size :=
      if aligned < sizeof_free_node_t then sizeof_free_node_t else aligned
    match node_find alloc actual_requested_size with
    | (_, none) => (alloc, none)
    | (prev_found, some found_node) =>
      if found_node.size ≥ (actual_requested_size + sizeof_free_node_t) % SIZE_MOD then
        let new_free_node : free_node_t :=
          ⟨found_node.addr + actual_requested_size,
            (found_node.size + SIZE_MOD - actual_requested_size) % SIZE_MOD⟩
        let a1 := remove_free_node alloc prev_found found_node
        let a2 := insert_free_node a1 new_free_node
        ({ a2 with
            header := Function.update a2.header found_node.addr actual_requested_size
            used_size := (a2.used_size + actual_requested_size) % SIZE_MOD },
          some (found_node.addr + sizeof_size_t))
      else
        let a1 := remove_free_node alloc prev_found found_node
        ({ a1 with
            header := Function.update a1.header found_node.addr found_node.size
            used_size := (a1.used_size + found_node.size) % SIZE_MOD },
          some (found_node.addr + sizeof_size_t))

/-- Embeds `custom_list_free(alloc, ptr)` on a non-null `alloc`. -/
def custom_list_free (alloc : custom_list_allocator_s) (ptr : Option Nat) :
    custom_list_allocator_s :=
  match ptr with
  | none => alloc
  | some p =>
    let block_start := p - sizeof_size_t
    let node_to_free : free_node_t := ⟨block_start, alloc.header block_start⟩
    let a1 : custom_list_allocator_s :=
      { alloc with used_size := (alloc.used_size + SIZE_MOD - node_to_free.size) % SIZE_MOD }
    coalesce_free_nodes (insert_free_node a1 node_to_free)

/-- The allocator states a program can reach, together with the addresses
handed out and not yet freed: creation (the C library delivers no region
above `PTRDIFF_MAX` bytes), a `custom_list_malloc` that returns an address,
a `custom_list_free` of an outstanding address. -/
inductive Reachable : custom_list_allocator_s → List Nat → Prop
  | create (heap_size : Nat) (policy : alloc_policy_t) (mem : Nat → Nat)
      (a : custom_list_allocator_s) :
      heap_size ≤ PTRDIFF_MAX →
      custom_list_alloc_create heap_size policy (some mem) = some a → Reachable a []
  | malloc (a : custom_list_allocator_s) (out : List Nat) (n : Nat)
      (a1 : custom_list_allocator_s) (p : Nat) :
      Reachable a out → n ≤ SIZE_MAX → custom_list_malloc a n = (a1, some p) →
      Reachable a1 (p :: out)
  | free (a : custom_list_allocator_s) (out : List Nat) (p : Nat) :
      Reachable a out → p ∈ out → Reachable (custom_list_free a (some p)) (out.erase p)

/-- The block behind an outstanding address: it starts at the header, one
`size_t` below the address, and has the size the header records. -/
def block_of (alloc : custom_list_allocator_s) (p : Nat) : free_node_t :=
  ⟨p - sizeof_size_t, alloc.header (p - sizeof_size_t)⟩

/-- The free blocks followed by the outstanding allocated blocks. -/
def all_blocks (alloc : custom_list_allocator_s) (out : List Nat) : List free_node_t :=
  alloc.free_list ++ out.map (block_of alloc)

/-- Sum of the `size` fields of a list of blocks. -/
def sum_sizes (l : List free_node_t) : Nat := (l.map (fun b => b.size)).sum


/-! ### Specification vocabulary for the allocator: the heap layout -/

/-- One block of a heap layout: where it starts, how many bytes it spans
(header included) and whether it is free. -/
structure layout_block where
  addr : Nat
  size : Nat
  free : Bool

/-- The blocks of `L`, in order, tile the byte range `[lo, hi)`: each block is
non-empty and starts where the previous one ends. -/
def Tiles : Nat → List layout_block → Nat → Prop
  | lo, [], hi => lo = hi
  | lo, b :: bs, hi => b.addr = lo ∧ 0 < b.size ∧ Tiles (lo + b.size) bs hi

/-- The free blocks of a layout, in address order. -/
def free_of (L : List layout_block) : List free_node_t :=
  L.filterMap (fun b => if b.free then some ⟨b.addr, b.size⟩ else none)

/-- The allocated blocks of a layout, in address order. -/
def used_of (L : List layout_block) : List free_node_t :=
  L.filterMap (fun b => if b.free then none else some ⟨b.addr, b.size⟩)

/-- The address and size of a layout block. -/
def node_of (b : layout_block) : free_node_t := ⟨b.addr, b.size⟩

/-- Two blocks share no byte. -/
def Disjoint (x y : free_node_t) : Prop :=
  x.addr + x.size ≤ y.addr ∨ y.addr + y.size ≤ x.addr

/-- No two consecutive blocks of the layout are both free. -/
def NoAdjFree (L : List layout_block) : Prop :=
  L.Chain' (fun x y => ¬ (x.free = true ∧ y.free = true))

/-- Merging every run of consecutive free blocks, standing at `cur`. -/
def merge_from (cur : layout_block) : List layout_block → List layout_block
  | [] => [cur]
  | x :: rest =>
    if cur.free = true ∧ x.free = true then merge_from ⟨cur.addr, cur.size + x.size, true⟩ rest
    else cur :: merge_from x rest

/-- Merging every run of consecutive free blocks of a layout. -/
def merge_layout : List layout_block → List layout_block
  | [] => []
  | b :: rest => merge_from b rest

/-- The allocator state `a` with outstanding addresses `out` realises the
heap layout `L`. -/
structure Inv (a : custom_list_allocator_s) (out : List Nat) (L : List layout_block) :
    Prop where
  tiles : Tiles 0 L a.total_size
  free_eq : a.free_list = free_of L
  used_perm : out.Perm ((used_of L).map (fun b => b.addr + sizeof_size_t))
  header_eq : ∀ b ∈ used_of L, a.header b.addr = b.size
  no_adj : NoAdjFree L
  used_sum : a.used_size = sum_sizes (used_of L)
  bound : a.total_size ≤ PTRDIFF_MAX
  pos : 0 < a.total_size

/-- The pair `(prev, cur)` points at a node of the chain `l` and at its
predecessor (`none` when `cur` is the head). -/
def FoundAt (l : List free_node_t) (prev : Option free_node_t) (cur : free_node_t) : Prop :=
  ∃ l1 l2, l = l1 ++ cur :: l2 ∧ prev = l1.getLast?

/-! ### Concrete runs used as instances -/

/-- A first-fit allocator created with a heap of 1024 bytes. -/
def run_created : custom_list_allocator_s :=
  { free_list := [⟨0, 1024⟩], total_size := 1024, used_size := 0,
    policy := .ALLOC_POLICY_FIRST_FIT, header := fun _ => 0 }

/-- After `p1 = malloc(100)`; `p1` is address 8. -/
def run_m1 : custom_list_allocator_s := (custom_list_malloc run_created 100).1

/-- After `p2 = malloc(100)`; `p2` is address 120. -/
def run_m2 : custom_list_allocator_s := (custom_list_malloc run_m1 100).1

/-- After `free(p2)`. -/
def run_f2 : custom_list_allocator_s := custom_list_free run_m2 (some 120)

/-- After `free(p2)` and `free(p1)`. -/
def run_f2_f1 : custom_list_allocator_s := custom_list_free run_f2 (some 8)

/-- After `free(p1)` with `p2` still outstanding. -/
def run_f1 : custom_list_allocator_s := custom_list_free run_m2 (some 8)

/-- A best-fit allocator created with a heap of 1024 bytes. -/
def best_created : custom_list_allocator_s :=
  { free_list := [⟨0, 1024⟩], total_size := 1024, used_size := 0,
    policy := .ALLOC_POLICY_BEST_FIT, header := fun _ => 0 }

/-- The best-fit allocator after `malloc(100)`, which returns address 8. -/
def best_m1 : custom_list_allocator_s := (custom_list_malloc best_created 100).1

/-- The best-fit allocator after a second `malloc(100)`, which returns
address 120. -/
def best_m2 : custom_list_allocator_s := (custom_list_malloc best_m1 100).1

/-- The best-fit allocator after the release of the first block. -/
def best_f1 : custom_list_allocator_s := custom_list_free best_m2 (some 8)

/-- The `actual_requested_size` that `custom_list_malloc` computes from
`user_size`: the aligned size of the request plus its header, and at least
`sizeof(free_node_t)`. -/
def required_size (user_size : Nat) : Nat :=
  if align_size ((user_size + sizeof_size_t) % SIZE_MOD) < sizeof_free_node_t then
    sizeof_free_node_t
  else align_size ((user_size + sizeof_size_t) % SIZE_MOD)

/-- The exceptions that `smpl_alloc::allocate` throws: `std::bad_alloc` and
`std::runtime_error`. -/
inductive alloc_exception where
  | bad_alloc
  | runtime_error
  deriving DecidableEq, Repr

/-- Embeds `smpl_alloc<T>::allocate(n)` of `smpl_alloc.hpp` in the
`USE_CUSTOM_LIST_ALLOCATOR` configuration.  `sizeof_T` is
`sizeof(value_type)` and `custom_alloc_instance_` is `none` for `nullptr`.
The result is the arena after the call with the returned pointer, or the
exception thrown; `custom_list_malloc` leaves the arena as it was when it
returns `NULL`. -/
def smpl_alloc_allocate (sizeof_T : Nat) (custom_alloc_instance_ : Option custom_list_allocator_s)
    (n : Nat) : Except alloc_exception (custom_list_allocator_s × Nat) :=
  if n > SIZE_MAX / sizeof_T then .error .bad_alloc
  else
    match custom_alloc_instance_ with
    | none => .error .runtime_error
    | some a =>
      match custom_list_malloc a ((n * sizeof_T) % SIZE_MOD) with
      | (_, none) => .error .bad_alloc
      | (a1, some p) => .ok (a1, p)

/-- Embeds `smpl_alloc<T>::deallocate(p, n)` in the same configuration: nothing
happens without an arena, else `custom_list_free(arena, p)`. -/
def smpl_alloc_deallocate (custom_alloc_instance_ : Option custom_list_allocator_s)
    (p : Option Nat) : Option custom_list_allocator_s :=
  match custom_alloc_instance_ with
  | none => none
  | some a => some (custom_list_free a p)

/-- The result of the request `custom_list_malloc(alloc, SIZE_MAX)` on the
freshly created heap of 1024 bytes. -/
def run_overflow : custom_list_allocator_s × Option Nat := custom_list_malloc run_created SIZE_MAX

/-- Scenario B: `malloc(50)` after `p1 = malloc(100)`, `p2 = malloc(100)`,
`free(p1)` on the first-fit heap of 1024 bytes. -/
def run_reuse : custom_list_allocator_s × Option Nat := custom_list_malloc run_f1 50

end custom_list

/-!
Section: the tree on the arena.

`BTree<T, ORDER, smpl_alloc<T>>` keeps every node in three storage blocks
that `createNode` obtains from the allocators `node_alloc_`, `keys_alloc_`
and `childs_alloc_`; the three are rebound copies of one `smpl_alloc` and
share its `custom_alloc_instance_`.  The definitions below run the tree
algorithms of `btree.hpp` on nodes that remember the addresses of their
blocks, and thread the arena through every `allocate` and `deallocate`.
-/

namespace btree

open custom_list

/-- The addresses of the three storage blocks of a node, as the `allocate`
calls of `createNode` returned them: the node record, the key array, the
child array. -/
structure node_storage where
  node : Nat
  keys : Nat
  childs : Nat

/-- A node record together with the addresses of its storage blocks. -/
inductive MNode (T : Type) where
  | mk (storage : node_storage) (keys_ : List T) (childs_ : List (Option (MNode T)))
      (keys_count_ : Nat) (leaf_ : Bool)

namespace MNode

variable {T : Type}

def storage : MNode T → node_storage
  | mk s _ _ _ _ => s

def keys_ : MNode T → List T
  | mk _ k _ _ _ => k

def childs_ : MNode T → List (Option (MNode T))
  | mk _ _ c _ _ => c

def keys_count_ : MNode T → Nat
  | mk _ _ _ n _ => n

def leaf_ : MNode T → Bool
  | mk _ _ _ _ l => l

mutual
/-- The node record without the addresses. -/
def erase : MNode T → BTreeNode T
  | mk _ k c n l => .mk k (eraseList c) n l
/-- A child array without the addresses. -/
def eraseList : List (Option (MNode T)) → List (Option (BTreeNode T))
  | [] => []
  | none :: cs => none :: eraseList cs
  | some c :: cs => some (erase c) :: eraseList cs
end

mutual
/-- The addresses that `clear(node)` passes to `deallocate`, in call order:
for an internal node first those of `clear(childs_[i])` for
`i = 0 .. size()`, then the key array, the child array and the node record
(`deleteNode`). -/
def blocks : MNode T → List Nat
  | mk s _ c n l => (if l then [] else blocksList (n + 1) c) ++ [s.keys, s.childs, s.node]
/-- The addresses released by `clear` on the first `k` slots of a child
array (`clear(nullptr)` releases nothing). -/
def blocksList : Nat → List (Option (MNode T)) → List Nat
  | 0, _ => []
  | _ + 1, [] => []
  | k + 1, none :: cs => blocksList k cs
  | k + 1, some c :: cs => blocks c ++ blocksList k cs
end

/-- The addresses that `clear` releases for the nodes a list of child slots
points to. -/
def sumBlocks : List (Option (MNode T)) → List Nat
  | [] => []
  | none :: cs => sumBlocks cs
  | some c :: cs => blocks c ++ sumBlocks cs

/-- The child slots `0 .. keys_count_` of a node. -/
def liveChilds (n : MNode T) : List (Option (MNode T)) := n.childs_.take (n.keys_count_ + 1)

/-- The three storage blocks of the node itself, in the order in which
`deleteNode` releases them. -/
def own (n : MNode T) : List Nat := [n.storage.keys, n.storage.childs, n.storage.node]

end MNode

/-- How a call ends: it returns (`ok`), an exception of `allocate` leaves it
(`thrown`), or it dereferences an invalid child pointer or exhausts the
recursion budget of the model (`stuck`). -/
inductive Run (α : Type) where
  | ok (v : α)
  | thrown (e : alloc_exception)
  | stuck

/-- The value a call returned, `d` if it did not return. -/
def Run.get {α : Type} (d : α) : Run α → α
  | .ok v => v
  | _ => d

section MemAlgorithms

variable {T : Type} [LinearOrder T] [Inhabited T]

/-- Embeds `deleteNode(node)`: `deallocate` of the key array, of the child
array and of the node record; with the arena set, `smpl_alloc::deallocate` is
`custom_list_free` on the arena (the keys have a trivial destructor). -/
def deleteNodeM (a : custom_list_allocator_s) (s : node_storage) : custom_list_allocator_s :=
  custom_list_free (custom_list_free (custom_list_free a (some s.keys)) (some s.childs))
    (some s.node)

mutual
/-- Embeds `clear(node)` for a valid node pointer. -/
def clearM (a : custom_list_allocator_s) : MNode T → custom_list_allocator_s
  | .mk s _ c n l => deleteNodeM (if l then a else clearChilds a (n + 1) c) s
/-- The loop `for (i = 0; i <= size(); ++i) clear(childs_[i]);` on the first
`k` slots of the child array. -/
def clearChilds (a : custom_list_allocator_s) :
    Nat → List (Option (MNode T)) → custom_list_allocator_s
  | 0, _ => a
  | _ + 1, [] => a
  | k + 1, none :: cs => clearChilds a k cs
  | k + 1, some c :: cs => clearChilds (clearM a c) k cs
end

/-- Calling `custom_list_free` on each address of a list, in order. -/
def freeAll (a : custom_list_allocator_s) : List Nat → custom_list_allocator_s
  | [] => a
  | p :: ps => freeAll (custom_list_free a (some p)) ps

/-- Embeds `createNode(isLeaf)` on the arena `a`: `allocate(1)` of the node
allocator, `allocate(2*ORDER-1)` of the key allocator, `allocate(2*ORDER)` of
the child-pointer allocator, in this order.  `sizeof_BNode` and `sizeof_T`
are `sizeof(BNode)` and `sizeof(T)`. -/
def createNodeM (ORDER sizeof_BNode sizeof_T : Nat) (a : custom_list_allocator_s)
    (isLeaf : Bool) : Run (custom_list_allocator_s × MNode T) :=
  match smpl_alloc_allocate sizeof_BNode (some a) 1 with
  | .error e => .thrown e
  | .ok (a1, pn) =>
    match smpl_alloc_allocate sizeof_T (some a1) (2 * ORDER - 1) with
    | .error e => .thrown e
    | .ok (a2, pk) =>
      match smpl_alloc_allocate sizeof_ptr (some a2) (2 * ORDER) with
      | .error e => .thrown e
      | .ok (a3, pc) =>
        .ok (a3, .mk ⟨pn, pk, pc⟩ (List.replicate (2 * ORDER - 1) default)
          (List.replicate (2 * ORDER) none) 0 isLeaf)

/-- The writes of `splitChild(node, i, y)` after `createNode` returned `z0`. -/
def splitChildWith (ORDER : Nat) (z0 node : MNode T) (i : Nat) (y : MNode T) : MNode T :=
  let zkeys := copyFrom default y.keys_ ORDER (ORDER - 1) z0.keys_
  let zchilds := if y.leaf_ then z0.childs_ else copyFrom none y.childs_ ORDER ORDER z0.childs_
  let z : MNode T := .mk z0.storage zkeys zchilds (ORDER - 1) z0.leaf_
  let y1 : MNode T := .mk y.storage y.keys_ y.childs_ (ORDER - 1) y.leaf_
  let childs1 := shiftRight none (i + 1) (node.keys_count_ + 1) (node.childs_.set i (some y1))
  let childs2 := childs1.set (i + 1) (some z)
  let keys1 := shiftRight default i node.keys_count_ node.keys_
  let keys2 := keys1.set i (readKey y.keys_ (ORDER - 1))
  .mk node.storage keys2 childs2 (node.keys_count_ + 1) node.leaf_

/-- Embeds `splitChild(node, i, y)` on the arena. -/
def splitChildM (ORDER sizeof_BNode sizeof_T : Nat) (a : custom_list_allocator_s)
    (node : MNode T) (i : Nat) (y : MNode T) : Run (custom_list_allocator_s × MNode T) :=
  match (createNodeM ORDER sizeof_BNode sizeof_T a y.leaf_ : Run (_ × MNode T)) with
  | .ok (a1, z0) => .ok (a1, splitChildWith ORDER z0 node i y)
  | .thrown e => .thrown e
  | .stuck => .stuck

/-- Embeds `insertNonFull(node, key)` on the arena; the first argument bounds
the recursion depth. -/
def insertNonFullM (ORDER sizeof_BNode sizeof_T : Nat) :
    Nat → custom_list_allocator_s → MNode T → T → Run (custom_list_allocator_s × MNode T)
  | 0, _, _, _ => .stuck
  | fuel + 1, a, node, key =>
    if node.leaf_ then
      let r := leafShift key node.keys_count_ node.keys_
      .ok (a, .mk node.storage (r.2.set r.1 key) node.childs_ (node.keys_count_ + 1) node.leaf_)
    else
      let p := scanDown key node.keys_ node.keys_count_
      match node.childs_.getD p none with
      | none => .stuck
      | some c =>
        match (if c.keys_count_ = 2 * ORDER - 1 then
            splitChildM ORDER sizeof_BNode sizeof_T a node p c else .ok (a, node)) with
        | .thrown e => .thrown e
        | .stuck => .stuck
        | .ok (a1, node1) =>
          let p1 :=
            if c.keys_count_ = 2 * ORDER - 1 then
              (if readKey node1.keys_ p < key then p + 1 else p)
            else p
          match node1.childs_.getD p1 none with
          | none => .stuck
          | some c1 =>
            match insertNonFullM ORDER sizeof_BNode sizeof_T fuel a1 c1 key with
            | .thrown e => .thrown e
            | .stuck => .stuck
            | .ok (a2, c2) =>
              .ok (a2, .mk node1.storage node1.keys_ (node1.childs_.set p1 (some c2))
                node1.keys_count_ node1.leaf_)

/-- The tree object of `btree.hpp` with the arena that its three allocators
point to. -/
structure MTree (T : Type) where
  arena : custom_list_allocator_s
  root_ : Option (MNode T)

/-- Constructor `BTree(alloc)` for an allocator bound to the arena `a`:
`root_(createNode(true))`. -/
def MTree.new (ORDER sizeof_BNode sizeof_T : Nat) (a : custom_list_allocator_s) :
    Run (MTree T) :=
  match (createNodeM ORDER sizeof_BNode sizeof_T a true : Run (_ × MNode T)) with
  | .ok (a1, r) => .ok ⟨a1, some r⟩
  | .thrown e => .thrown e
  | .stuck => .stuck

/-- Embeds `BTree::insert(key)` on the arena. -/
def MTree.insert (ORDER sizeof_BNode sizeof_T : Nat) (t : MTree T) (key : T) : Run (MTree T) :=
  match t.root_ with
  | none =>
    match (createNodeM ORDER sizeof_BNode sizeof_T t.arena true : Run (_ × MNode T)) with
    | .ok (a1, r) => .ok ⟨a1, some (.mk r.storage (r.keys_.set 0 key) r.childs_ 1 r.leaf_)⟩
    | .thrown e => .thrown e
    | .stuck => .stuck
  | some root =>
    if root.keys_count_ = 2 * ORDER - 1 then
      match (createNodeM ORDER sizeof_BNode sizeof_T t.arena false : Run (_ × MNode T)) with
      | .thrown e => .thrown e
      | .stuck => .stuck
      | .ok (a1, s0) =>
        let s1 : MNode T :=
          .mk s0.storage s0.keys_ (s0.childs_.set 0 (some root)) s0.keys_count_ s0.leaf_
        match splitChildM ORDER sizeof_BNode sizeof_T a1 s1 0 root with
        | .thrown e => .thrown e
        | .stuck => .stuck
        | .ok (a2, s2) =>
          let i := if readKey s2.keys_ 0 < key then 1 else 0
          match s2.childs_.getD i none with
          | none => .stuck
          | some c =>
            match insertNonFullM ORDER sizeof_BNode sizeof_T root.erase.height a2 c key with
            | .thrown e => .thrown e
            | .stuck => .stuck
            | .ok (a3, c1) =>
              .ok ⟨a3, some (.mk s2.storage s2.keys_ (s2.childs_.set i (some c1))
                s2.keys_count_ s2.leaf_)⟩
    else
      match insertNonFullM ORDER sizeof_BNode sizeof_T root.erase.height t.arena root key with
      | .thrown e => .thrown e
      | .stuck => .stuck
      | .ok (a1, r1) => .ok ⟨a1, some r1⟩

/-- A run of `insert` calls, in order. -/
def MTree.insertAll (ORDER sizeof_BNode sizeof_T : Nat) (t : MTree T) : List T → Run (MTree T)
  | [] => .ok t
  | k :: ks =>
    match MTree.insert ORDER sizeof_BNode sizeof_T t k with
    | .ok t1 => MTree.insertAll ORDER sizeof_BNode sizeof_T t1 ks
    | .thrown e => .thrown e
    | .stuck => .stuck

/-- Destructor `~BTree()`: `clear(root_)`; returns the arena afterwards. -/
def MTree.destroy (t : MTree T) : custom_list_allocator_s :=
  match t.root_ with
  | none => t.arena
  | some r => clearM t.arena r

/-- The tree without the arena and the addresses. -/
def MTree.erase (t : MTree T) : BTree T := ⟨t.root_.map MNode.erase⟩

/-- The storage blocks of all nodes of the tree. -/
def MTree.blocks (t : MTree T) : List Nat :=
  match t.root_ with
  | none => []
  | some r => r.blocks

end MemAlgorithms

section MemRuns

/-- `BTree<uint32_t, 2, smpl_alloc<uint32_t>>` constructed on the freshly
created first-fit heap of 1024 bytes (`sizeof(BNode)` is 32). -/
def memTree0 : MTree Nat := (MTree.new 2 32 4 run_created).get ⟨run_created, none⟩

/-- The tree `memTree0` after inserting 1, 2, 3, 4: a root and two leaves. -/
def memTree4 : MTree Nat := (MTree.insertAll 2 32 4 memTree0 [1, 2, 3, 4]).get memTree0

end MemRuns

end btree
namespace btree

section ArrayLemmas

theorem shiftRight_length {α : Type} (d : α) (lo : Nat) (j : Nat) (a : List α) :
    (shiftRight d lo j a).length = a.length := by
  induction j generalizing a with
  | zero => rfl
  | succ j ih =>
    unfold shiftRight
    split
    · rw [ih]; simp
    · rfl

theorem shiftRight_getElem? {α : Type} (d : α) (lo : Nat) (j : Nat) (a : List α) (idx : Nat)
    (hj : j < a.length) :
    (shiftRight d lo j a)[idx]? = if lo < idx ∧ idx ≤ j then a[idx - 1]? else a[idx]? := by
  induction j generalizing a with
  | zero =>
    have : ¬ (lo < idx ∧ idx ≤ 0) := by omega
    rw [if_neg this]; rfl
  | succ j ih =>
    unfold shiftRight
    by_cases h : lo < j + 1
    · rw [if_pos h, ih _ (by simp; omega)]
      rw [List.getElem?_set, List.getElem?_set, List.getD_eq_getElem?_getD,
        List.getElem?_eq_getElem (show j < a.length by omega)]
      by_cases h1 : lo < idx ∧ idx ≤ j
      · have h2 : lo < idx ∧ idx ≤ j + 1 := by omega
        have h3 : ¬ (j + 1 = idx - 1) := by omega
        simp [h1, h2, h3]
      · by_cases h4 : idx = j + 1
        · subst h4
          simp [h, hj]
        · have h2 : ¬ (lo < idx ∧ idx ≤ j + 1) := by omega
          have h3 : ¬ (j + 1 = idx) := by omega
          simp [h1, h2, h3]
    · rw [if_neg h]
      have h2 : ¬ (lo < idx ∧ idx ≤ j + 1) := by omega
      simp [h2]

/-- View of the first `hi + 1` slots after the shift and the store at `lo`. -/
theorem take_set_shiftRight {α : Type} (d : α) (lo hi : Nat) (a : List α) (v : α)
    (hlo : lo ≤ hi) (hhi : hi < a.length) :
    ((shiftRight d lo hi a).set lo v).take (hi + 1) = a.take lo ++ v :: (a.take hi).drop lo := by
  apply List.ext_getElem?
  intro n
  rw [List.getElem?_take, List.getElem?_set, shiftRight_length, shiftRight_getElem? d lo hi a n hhi,
    List.getElem?_append, List.length_take]
  have hmin : min lo a.length = lo := by omega
  rw [hmin]
  by_cases h1 : n < lo
  · have : ¬ (lo < n ∧ n ≤ hi) := by omega
    have h3 : ¬ (lo = n) := by omega
    have h4 : n < hi + 1 := by omega
    simp [h1, this, h3, h4, List.getElem?_take]
  · by_cases h2 : n = lo
    · subst h2
      have h4 : n < hi + 1 := by omega
      have h5 : n < a.length := by omega
      simp [h4, h5]
    · have h3 : ¬ (lo = n) := by omega
      obtain ⟨k, hk⟩ : ∃ k, n = lo + 1 + k := ⟨n - lo - 1, by omega⟩
      subst hk
      have h6 : lo + 1 + k - lo = k + 1 := by omega
      rw [if_neg h1, h6, List.getElem?_cons_succ, List.getElem?_drop, List.getElem?_take]
      by_cases h7 : lo + 1 + k < hi + 1
      · have h8 : lo < lo + 1 + k ∧ lo + 1 + k ≤ hi := by omega
        have h9 : lo + k < hi := by omega
        have h10 : lo + 1 + k - 1 = lo + k := by omega
        simp [h7, h3, h8, h9, h10]
      · have h9 : ¬ (lo + k < hi) := by omega
        simp [h7, h9]

theorem copyFrom_length {α : Type} (d : α) (src : List α) (off n : Nat) (dst : List α) :
    (copyFrom d src off n dst).length = dst.length := by
  induction n with
  | zero => rfl
  | succ n ih => simp [copyFrom, ih]

theorem copyFrom_getElem? {α : Type} (d : α) (src : List α) (off n : Nat) (dst : List α) (idx : Nat)
    (hn : n ≤ dst.length) (hs : n + off ≤ src.length) :
    (copyFrom d src off n dst)[idx]? = if idx < n then src[idx + off]? else dst[idx]? := by
  induction n with
  | zero => simp [copyFrom]
  | succ n ih =>
    unfold copyFrom
    rw [List.getElem?_set, copyFrom_length, ih (by omega) (by omega)]
    by_cases h : n = idx
    · subst h
      have h1 : n < dst.length := by omega
      have h2 : n + off < src.length := by omega
      simp [h1, List.getD_eq_getElem?_getD, List.getElem?_eq_getElem h2]
    · by_cases h1 : idx < n
      · have h2 : idx < n + 1 := by omega
        simp [h, h1, h2]
      · have h2 : ¬ idx < n + 1 := by omega
        simp [h, h1, h2]

theorem take_copyFrom {α : Type} (d : α) (src : List α) (off n : Nat) (dst : List α)
    (hn : n ≤ dst.length) (hs : n + off ≤ src.length) :
    (copyFrom d src off n dst).take n = (src.drop off).take n := by
  apply List.ext_getElem?
  intro i
  rw [List.getElem?_take, List.getElem?_take, copyFrom_getElem? d src off n dst i hn hs,
    List.getElem?_drop]
  by_cases h : i < n
  · simp [h, Nat.add_comm]
  · simp [h]

end ArrayLemmas

section InterLemmas
variable {T : Type}

theorem inter_cons (s : List T) (segs : List (List T)) (ks : List T) :
    inter (s :: segs) ks = s ++ postI segs ks := by
  cases ks <;> simp [inter, postI]

theorem inter_append (A : List (List T)) (s : List T) (B : List (List T)) (ks : List T)
    (h : A.length ≤ ks.length) :
    inter (A ++ s :: B) ks = preI A (ks.take A.length) ++ s ++ postI B (ks.drop A.length) := by
  induction A generalizing ks with
  | nil => simp [preI, inter_cons]
  | cons a A ih =>
    cases ks with
    | nil => simp at h
    | cons k ks =>
      simp only [List.length_cons, Nat.add_le_add_iff_right] at h
      simp [inter, preI, ih ks h]

theorem inter_split (L R : List (List T)) (kl : List T) (m : T) (kr : List T)
    (h : L.length = kl.length + 1) :
    inter (L ++ R) (kl ++ m :: kr) = inter L kl ++ m :: inter R kr := by
  induction L generalizing kl with
  | nil => simp at h
  | cons a L ih =>
    cases kl with
    | nil =>
      have : L = [] := by
        simp at h; exact h
      subst this
      simp [inter]
    | cons k kl =>
      simp only [List.length_cons, Nat.add_right_cancel_iff] at h
      simp [inter, ih kl h]

theorem preI_getLast (A : List (List T)) (ks : List T) (h : A.length = ks.length)
    (hne : ks ≠ []) : ∃ X, preI A ks = X ++ [ks.getLast hne] := by
  induction A generalizing ks with
  | nil => cases ks <;> simp at h hne
  | cons a A ih =>
    cases ks with
    | nil => simp at hne
    | cons k ks =>
      simp only [List.length_cons, Nat.add_right_cancel_iff] at h
      by_cases hk : ks = []
      · subst hk
        have : A = [] := by simpa using h
        subst this
        exact ⟨a, by simp [preI]⟩
      · obtain ⟨X, hX⟩ := ih ks h hk
        refine ⟨a ++ k :: X, ?_⟩
        simp [preI, hX, List.getLast_cons hk]


theorem preI_snoc (A : List (List T)) (ks : List T) (s : List T) (x : T)
    (h : A.length = ks.length) :
    preI (A ++ [s]) (ks ++ [x]) = preI A ks ++ s ++ [x] := by
  induction A generalizing ks with
  | nil =>
    cases ks with
    | nil => simp [preI]
    | cons k ks => simp at h
  | cons a A ih =>
    cases ks with
    | nil => simp at h
    | cons k ks =>
      simp only [List.length_cons, Nat.add_right_cancel_iff] at h
      simp [preI, ih ks h]

theorem preI_replicate_nil (m : Nat) (ks : List T) :
    preI (List.replicate m ([] : List T)) ks = ks.take m := by
  induction m generalizing ks with
  | zero => cases ks <;> simp [preI]
  | succ m ih =>
    cases ks with
    | nil => simp [List.replicate_succ, preI]
    | cons k ks => simp [List.replicate_succ, preI, ih ks]

end InterLemmas

section TraverseLemmas
variable {T : Type} [LinearOrder T] [Inhabited T]

theorem traverseLoop_eq (visit : Nat → Option (List T)) (keys : List T) (S : List (List T))
    (n : Nat) (hS : n ≤ S.length) (hk : n ≤ keys.length)
    (hv : ∀ i, i < n → visit i = S[i]?) :
    traverseLoop visit keys n = some (preI (S.take n) (keys.take n)) := by
  induction n with
  | zero => simp [traverseLoop, preI]
  | succ n ih =>
    have h1 := ih (by omega) (by omega) (fun i hi => hv i (by omega))
    have h2 := hv n (by omega)
    rw [List.getElem?_eq_getElem (show n < S.length by omega)] at h2
    unfold traverseLoop
    rw [h1, h2]
    simp only
    rw [List.take_succ, List.take_succ, List.getElem?_eq_getElem (show n < S.length by omega),
      List.getElem?_eq_getElem (show n < keys.length by omega)]
    simp only [Option.toList]
    rw [preI_snoc _ _ _ _ (by simp; omega)]
    simp [readKey, List.getD_eq_getElem?_getD, List.getElem?_eq_getElem (show n < keys.length by omega)]

theorem WellShaped.child {ORDER d : Nat} {b : Bool} {n : BTreeNode T}
    (h : WellShaped ORDER (d + 1) b n) (hl : n.leaf_ = false) (j : Nat) (hj : j ≤ n.keys_count_) :
    ∃ c, n.childs_[j]? = some (some c) ∧ WellShaped ORDER d false c :=
  h.2.2.2.2.2 hl j hj

theorem WellShaped.leaf_iff {ORDER d : Nat} {b : Bool} {n : BTreeNode T}
    (h : WellShaped ORDER (d + 1) b n) : n.leaf_ = true ↔ d = 0 := h.2.2.2.2.1

theorem WellShaped.count_le {ORDER d : Nat} {b : Bool} {n : BTreeNode T}
    (h : WellShaped ORDER d b n) : n.keys_count_ ≤ 2 * ORDER - 1 := by
  cases d with
  | zero => exact h.elim
  | succ d => exact h.2.2.1

theorem WellShaped.keys_length {ORDER d : Nat} {b : Bool} {n : BTreeNode T}
    (h : WellShaped ORDER d b n) : n.keys_.length = 2 * ORDER - 1 := by
  cases d with
  | zero => exact h.elim
  | succ d => exact h.1

theorem WellShaped.childs_length {ORDER d : Nat} {b : Bool} {n : BTreeNode T}
    (h : WellShaped ORDER d b n) : n.childs_.length = 2 * ORDER := by
  cases d with
  | zero => exact h.elim
  | succ d => exact h.2.1

theorem WellShaped.min_count {ORDER d : Nat} {n : BTreeNode T}
    (h : WellShaped ORDER d false n) : ORDER - 1 ≤ n.keys_count_ := by
  cases d with
  | zero => exact h.elim
  | succ d => exact h.2.2.2.1 rfl

theorem WellShaped.toRoot {ORDER d : Nat} {b : Bool} {n : BTreeNode T}
    (h : WellShaped ORDER d b n) : WellShaped ORDER d true n := by
  cases d with
  | zero => exact h.elim
  | succ d => exact ⟨h.1, h.2.1, h.2.2.1, fun hb => by simp at hb, h.2.2.2.2.1, h.2.2.2.2.2⟩

theorem liveChilds_getElem? (n : BTreeNode T) (j : Nat) (hj : j ≤ n.keys_count_) :
    (liveChilds n)[j]? = n.childs_[j]? := by
  unfold liveChilds
  rw [List.getElem?_take, if_pos (by omega)]

theorem liveChilds_length {ORDER d : Nat} {b : Bool} {n : BTreeNode T}
    (h : WellShaped ORDER d b n) (hlt : n.keys_count_ < 2 * ORDER) :
    (liveChilds n).length = n.keys_count_ + 1 := by
  unfold liveChilds
  rw [List.length_take, h.childs_length]
  omega

theorem liveKeys_length {ORDER d : Nat} {b : Bool} {n : BTreeNode T}
    (h : WellShaped ORDER d b n) : (liveKeys n).length = n.keys_count_ := by
  unfold liveKeys
  rw [List.length_take, h.keys_length]
  have := h.count_le
  omega

theorem traverse_eq_inorder (ORDER : Nat) (hO : 1 ≤ ORDER) (d : Nat) :
    ∀ (fuel : Nat) (b : Bool) (n : BTreeNode T), WellShaped ORDER d b n → d ≤ fuel →
      n.traverse fuel = some (inorder d n) := by
  induction d with
  | zero => intro fuel b n h; exact h.elim
  | succ d ih =>
    intro fuel b n h hf
    obtain ⟨fuel, rfl⟩ : ∃ f, fuel = f + 1 := ⟨fuel - 1, by omega⟩
    have hcnt := h.count_le
    have hkl := h.keys_length
    unfold BTreeNode.traverse inorder
    cases hl : n.leaf_ with
    | true =>
      simp only [Bool.true_eq_false, if_false, if_true]
      rw [traverseLoop_eq (fun _ => some []) n.keys_ (List.replicate n.keys_count_ [])
        n.keys_count_ (by simp) (by omega) (fun i hi => by simp [hi])]
      simp only [List.append_nil]
      rw [List.take_replicate, Nat.min_self, preI_replicate_nil]
      simp [liveKeys]
    | false =>
      simp only [if_true, Bool.false_eq_true, if_false]
      have hcl := liveChilds_length h (by omega)
      have hv : ∀ i, i ≤ n.keys_count_ →
          (match n.childs_.getD i none with
            | none => none
            | some c => BTreeNode.traverse fuel c) =
          ((liveChilds n).map (slotKeys (inorder d)))[i]? := by
        intro i hi
        obtain ⟨c, hc, hwc⟩ := h.child hl i hi
        rw [List.getElem?_map, liveChilds_getElem? n i hi, hc, List.getD_eq_getElem?_getD, hc]
        simp only [Option.getD_some, Option.map_some', slotKeys]
        exact ih fuel false c hwc (by omega)
      rw [traverseLoop_eq _ n.keys_ ((liveChilds n).map (slotKeys (inorder d))) n.keys_count_
        (by simp [hcl]) (by omega) (fun i hi => hv i (by omega))]
      rw [hv n.keys_count_ (Nat.le_refl _)]
      have hlen : ((liveChilds n).map (slotKeys (inorder d))).length = n.keys_count_ + 1 := by
        simp [hcl]
      rw [List.getElem?_eq_getElem (by omega)]
      simp only
      congr 1
      have hdecomp : (liveChilds n).map (slotKeys (inorder d)) =
          ((liveChilds n).map (slotKeys (inorder d))).take n.keys_count_ ++
            ((liveChilds n).map (slotKeys (inorder d)))[n.keys_count_] :: [] := by
        conv_lhs => rw [← List.take_append_drop n.keys_count_ ((liveChilds n).map (slotKeys (inorder d)))]
        rw [List.drop_eq_getElem_cons (by omega)]
        congr 2
        apply List.drop_of_length_le
        omega
      conv_rhs => rw [hdecomp]
      rw [inter_append _ _ _ _ (by simp [liveKeys, hcl, hkl]; omega)]
      have h3 : (List.take n.keys_count_ ((liveChilds n).map (slotKeys (inorder d)))).length
          = n.keys_count_ := by
        rw [List.length_take]; omega
      rw [h3]
      have h4 : (liveKeys n).drop n.keys_count_ = [] := by
        apply List.drop_of_length_le
        simp [liveKeys]
      have h5 : (liveKeys n).take n.keys_count_ = n.keys_.take n.keys_count_ := by
        simp [liveKeys]
      rw [h4, h5]
      simp [postI]

end TraverseLemmas

section SplitLemmas
variable {T : Type} [LinearOrder T] [Inhabited T]

theorem list_split_at {α : Type} (l : List α) (i : Nat) (x : α) (h : l[i]? = some x) :
    l = l.take i ++ x :: l.drop (i + 1) := by
  have hi : i < l.length := by
    by_contra hc
    rw [List.getElem?_eq_none (by omega)] at h
    simp at h
  rw [List.getElem?_eq_getElem hi] at h
  injection h with h
  rw [← h, List.getElem_cons_drop, List.take_append_drop]

theorem splitChild_keys_count (ORDER : Nat) (n : BTreeNode T) (p : Nat) (y : BTreeNode T) :
    (splitChild ORDER n p y).keys_count_ = n.keys_count_ + 1 := rfl

theorem splitChild_leaf (ORDER : Nat) (n : BTreeNode T) (p : Nat) (y : BTreeNode T) :
    (splitChild ORDER n p y).leaf_ = n.leaf_ := rfl

theorem splitChild_keys (ORDER : Nat) (n : BTreeNode T) (p : Nat) (y : BTreeNode T) :
    (splitChild ORDER n p y).keys_ =
      (shiftRight default p n.keys_count_ n.keys_).set p (readKey y.keys_ (ORDER - 1)) := rfl

theorem splitChild_childs (ORDER : Nat) (n : BTreeNode T) (p : Nat) (y : BTreeNode T) :
    (splitChild ORDER n p y).childs_ =
      (shiftRight none (p + 1) (n.keys_count_ + 1) (n.childs_.set p (some (splitLeft ORDER y)))).set
        (p + 1) (some (splitRight ORDER y)) := rfl

theorem splitChild_keys_length (ORDER : Nat) (n : BTreeNode T) (p : Nat) (y : BTreeNode T) :
    (splitChild ORDER n p y).keys_.length = n.keys_.length := by
  simp [splitChild_keys, shiftRight_length]

theorem splitChild_childs_length (ORDER : Nat) (n : BTreeNode T) (p : Nat) (y : BTreeNode T) :
    (splitChild ORDER n p y).childs_.length = n.childs_.length := by
  simp [splitChild_childs, shiftRight_length]

theorem liveKeys_split (ORDER : Nat) (n : BTreeNode T) (p : Nat) (y : BTreeNode T)
    (hp : p ≤ n.keys_count_) (hlt : n.keys_count_ < n.keys_.length) :
    liveKeys (splitChild ORDER n p y) =
      (liveKeys n).take p ++ readKey y.keys_ (ORDER - 1) :: (liveKeys n).drop p := by
  unfold liveKeys
  rw [splitChild_keys, splitChild_keys_count, take_set_shiftRight _ _ _ _ _ hp hlt,
    List.take_take, Nat.min_eq_left hp]

theorem liveChilds_split (ORDER : Nat) (n : BTreeNode T) (p : Nat) (y : BTreeNode T)
    (hp : p ≤ n.keys_count_) (hlt : n.keys_count_ + 1 < n.childs_.length) :
    liveChilds (splitChild ORDER n p y) =
      (liveChilds n).take p ++ some (splitLeft ORDER y) :: some (splitRight ORDER y) ::
        (liveChilds n).drop (p + 1) := by
  unfold liveChilds
  rw [splitChild_childs, splitChild_keys_count,
    take_set_shiftRight _ _ _ _ _ (by omega) (by simpa using hlt)]
  have h1 : List.take (p + 1) (n.childs_.set p (some (splitLeft ORDER y))) =
      List.take p n.childs_ ++ [some (splitLeft ORDER y)] := by
    rw [List.take_succ, List.getElem?_set_self (by omega), List.set_take,
      List.set_eq_of_length_le (by simp)]
    rfl
  have h2 : List.drop (p + 1) (List.take (n.keys_count_ + 1)
      (n.childs_.set p (some (splitLeft ORDER y)))) =
      List.drop (p + 1) (List.take (n.keys_count_ + 1) n.childs_) := by
    rw [List.set_take, List.drop_set, if_pos (Nat.lt_succ_self p)]
  rw [h1, h2, List.take_take, Nat.min_eq_left (by omega)]
  simp

theorem inorder_succ (d : Nat) (n : BTreeNode T) :
    inorder (d + 1) n =
      if n.leaf_ then liveKeys n
      else inter ((liveChilds n).map (slotKeys (inorder d))) (liveKeys n) := rfl

theorem inorder_of_views (d : Nat) (n : BTreeNode T) (hl : n.leaf_ = false)
    (A B : List (Option (BTreeNode T))) (c : BTreeNode T)
    (hc : liveChilds n = A ++ some c :: B) (hA : A.length ≤ (liveKeys n).length) :
    inorder (d + 1) n =
      preI (A.map (slotKeys (inorder d))) ((liveKeys n).take A.length) ++ inorder d c ++
        postI (B.map (slotKeys (inorder d))) ((liveKeys n).drop A.length) := by
  rw [inorder_succ, hl, hc, List.map_append, List.map_cons, inter_append _ _ _ _ (by simpa using hA)]
  simp [slotKeys]

theorem liveChilds_at {ORDER d : Nat} {b : Bool} {n : BTreeNode T}
    (h : WellShaped ORDER (d + 1) b n) (p : Nat) (hp : p ≤ n.keys_count_) (c : BTreeNode T)
    (hc : n.childs_[p]? = some (some c)) :
    liveChilds n = (liveChilds n).take p ++ some c :: (liveChilds n).drop (p + 1) :=
  list_split_at _ _ _ (by rw [liveChilds_getElem? n p hp, hc])

end SplitLemmas

section SplitHalves
variable {T : Type} [LinearOrder T] [Inhabited T]

theorem splitLeft_shaped {ORDER d : Nat} {y : BTreeNode T} (hO : 1 ≤ ORDER)
    (h : WellShaped ORDER d false y) (hfull : y.keys_count_ = 2 * ORDER - 1) :
    WellShaped ORDER d false (splitLeft ORDER y) := by
  cases d with
  | zero => exact h.elim
  | succ d =>
    refine ⟨h.1, h.2.1, ?_, ?_, h.2.2.2.2.1, ?_⟩
    · show ORDER - 1 ≤ 2 * ORDER - 1
      omega
    · intro _
      exact Nat.le_refl _
    · intro hl j hj
      have hj' : j ≤ ORDER - 1 := hj
      exact h.child hl j (by omega)

theorem splitRight_keys_length (ORDER : Nat) (y : BTreeNode T) :
    (splitRight ORDER y).keys_.length = 2 * ORDER - 1 := by
  simp [splitRight, BTreeNode.keys_, copyFrom_length, createNode]

theorem splitRight_childs_length (ORDER : Nat) (y : BTreeNode T) :
    (splitRight ORDER y).childs_.length = 2 * ORDER := by
  unfold splitRight
  simp only [BTreeNode.childs_]
  split <;> simp [copyFrom_length, createNode, BTreeNode.childs_]

theorem splitRight_shaped {ORDER d : Nat} {y : BTreeNode T} (hO : 1 ≤ ORDER)
    (h : WellShaped ORDER d false y) (hfull : y.keys_count_ = 2 * ORDER - 1) :
    WellShaped ORDER d false (splitRight ORDER y) := by
  cases d with
  | zero => exact h.elim
  | succ d =>
    refine ⟨splitRight_keys_length ORDER y, splitRight_childs_length ORDER y, ?_, ?_,
      h.2.2.2.2.1, ?_⟩
    · show ORDER - 1 ≤ 2 * ORDER - 1
      omega
    · intro _
      exact Nat.le_refl _
    · intro hl j hj
      have hl' : y.leaf_ = false := hl
      have hj' : j ≤ ORDER - 1 := hj
      obtain ⟨c, hc, hwc⟩ := h.child hl' (j + ORDER) (by omega)
      refine ⟨c, ?_, hwc⟩
      have hcl := h.childs_length
      show (if y.leaf_ then (createNode ORDER y.leaf_ : BTreeNode T).childs_
        else copyFrom none y.childs_ ORDER ORDER
          (createNode ORDER y.leaf_ : BTreeNode T).childs_)[j]? = some (some c)
      rw [hl']
      simp only [Bool.false_eq_true, if_false]
      rw [copyFrom_getElem? _ _ _ _ _ _ (by simp [createNode, BTreeNode.childs_]; omega)
        (by omega), if_pos (by omega), hc]

theorem liveKeys_splitLeft (ORDER : Nat) (y : BTreeNode T) :
    liveKeys (splitLeft ORDER y) = y.keys_.take (ORDER - 1) := rfl

theorem liveChilds_splitLeft (ORDER : Nat) (hO : 1 ≤ ORDER) (y : BTreeNode T) :
    liveChilds (splitLeft ORDER y) = y.childs_.take ORDER := by
  show y.childs_.take (ORDER - 1 + 1) = _
  rw [Nat.sub_add_cancel hO]

theorem liveKeys_splitRight (ORDER : Nat) (hO : 1 ≤ ORDER) (y : BTreeNode T)
    (hkl : y.keys_.length = 2 * ORDER - 1) :
    liveKeys (splitRight ORDER y) = y.keys_.drop ORDER := by
  show (copyFrom default y.keys_ ORDER (ORDER - 1)
    (createNode ORDER y.leaf_ : BTreeNode T).keys_).take (ORDER - 1) = _
  rw [take_copyFrom _ _ _ _ _ (by simp [createNode, BTreeNode.keys_]; omega) (by omega)]
  apply List.take_of_length_le
  rw [List.length_drop]
  omega

theorem liveChilds_splitRight (ORDER : Nat) (hO : 1 ≤ ORDER) (y : BTreeNode T)
    (hl : y.leaf_ = false) (hcl : y.childs_.length = 2 * ORDER) :
    liveChilds (splitRight ORDER y) = y.childs_.drop ORDER := by
  show (if y.leaf_ then (createNode ORDER y.leaf_ : BTreeNode T).childs_
        else copyFrom none y.childs_ ORDER ORDER
          (createNode ORDER y.leaf_ : BTreeNode T).childs_).take (ORDER - 1 + 1) = _
  rw [hl, Nat.sub_add_cancel hO]
  simp only [Bool.false_eq_true, if_false]
  rw [take_copyFrom _ _ _ _ _ (by simp [createNode, BTreeNode.childs_]; omega) (by omega)]
  apply List.take_of_length_le
  rw [List.length_drop]
  omega

theorem inorder_split_halves {ORDER d : Nat} {y : BTreeNode T} (hO : 1 ≤ ORDER)
    (h : WellShaped ORDER d false y) (hfull : y.keys_count_ = 2 * ORDER - 1) :
    inorder d y = inorder d (splitLeft ORDER y) ++
      readKey y.keys_ (ORDER - 1) :: inorder d (splitRight ORDER y) := by
  cases d with
  | zero => exact h.elim
  | succ d =>
    have hkl := h.keys_length
    have hcl := h.childs_length
    have hkeys : y.keys_ = y.keys_.take (ORDER - 1) ++
        readKey y.keys_ (ORDER - 1) :: y.keys_.drop ORDER := by
      have := list_split_at y.keys_ (ORDER - 1) (readKey y.keys_ (ORDER - 1))
        (by rw [readKey, List.getD_eq_getElem?_getD,
              List.getElem?_eq_getElem (show ORDER - 1 < y.keys_.length by omega)]; rfl)
      rw [Nat.sub_add_cancel hO] at this
      exact this
    have hlk : liveKeys y = y.keys_ := by
      unfold liveKeys
      rw [hfull]
      exact List.take_of_length_le (by omega)
    rw [inorder_succ, inorder_succ, inorder_succ]
    have e1 : (splitLeft ORDER y).leaf_ = y.leaf_ := rfl
    have e2 : (splitRight ORDER y).leaf_ = y.leaf_ := rfl
    rw [e1, e2, liveKeys_splitLeft, liveKeys_splitRight ORDER hO y hkl, hlk]
    cases hl : y.leaf_ with
    | true =>
      simp only [if_true]
      exact hkeys
    | false =>
      simp only [Bool.false_eq_true, if_false]
      rw [liveChilds_splitLeft ORDER hO, liveChilds_splitRight ORDER hO y hl hcl]
      have hlc : liveChilds y = y.childs_.take ORDER ++ y.childs_.drop ORDER := by
        unfold liveChilds
        rw [List.take_append_drop]
        exact List.take_of_length_le (by omega)
      rw [hlc, List.map_append]
      conv_lhs => rw [hkeys]
      exact inter_split _ _ _ _ _ (by simp [hcl, hkl]; omega)

end SplitHalves

section SplitMain
variable {T : Type} [LinearOrder T] [Inhabited T]

theorem shaped_children_mem {ORDER d : Nat} {b : Bool} {n : BTreeNode T}
    (h : WellShaped ORDER (d + 1) b n) (hl : n.leaf_ = false) :
    ∀ oc ∈ liveChilds n, ∃ c, oc = some c ∧ WellShaped ORDER d false c := by
  intro oc hoc
  obtain ⟨j, hj⟩ := List.mem_iff_getElem?.1 hoc
  have hjlt : j < n.keys_count_ + 1 := by
    by_contra hc
    unfold liveChilds at hj
    rw [List.getElem?_take, if_neg hc] at hj
    simp at hj
  rw [liveChilds_getElem? n j (by omega)] at hj
  obtain ⟨c, hc, hwc⟩ := h.child hl j (by omega)
  rw [hc] at hj
  injection hj with hj
  exact ⟨c, hj.symm, hwc⟩

theorem shaped_of_views {ORDER d : Nat} {b : Bool} {n : BTreeNode T}
    (hk : n.keys_.length = 2 * ORDER - 1) (hc : n.childs_.length = 2 * ORDER)
    (hcnt : n.keys_count_ ≤ 2 * ORDER - 1) (hmin : b = false → ORDER - 1 ≤ n.keys_count_)
    (hl : n.leaf_ = false) (hO : 1 ≤ ORDER)
    (hch : ∀ oc ∈ liveChilds n, ∃ c, oc = some c ∧ WellShaped ORDER d false c) :
    WellShaped ORDER (d + 1) b n := by
  have hget : ∀ j, j ≤ n.keys_count_ →
      ∃ c, n.childs_[j]? = some (some c) ∧ WellShaped ORDER d false c := by
    intro j hj
    have hlt : j < (liveChilds n).length := by
      unfold liveChilds
      rw [List.length_take]
      omega
    have hmem : (liveChilds n)[j] ∈ liveChilds n := List.getElem_mem hlt
    obtain ⟨c, hc1, hc2⟩ := hch _ hmem
    refine ⟨c, ?_, hc2⟩
    rw [← liveChilds_getElem? n j hj, List.getElem?_eq_getElem hlt, hc1]
  refine ⟨hk, hc, hcnt, hmin, ?_, fun _ => hget⟩
  constructor
  · intro h
    rw [hl] at h
    exact absurd h (by simp)
  · intro h0
    subst h0
    obtain ⟨c, _, hw⟩ := hget 0 (Nat.zero_le _)
    exact hw.elim

theorem splitChild_spec {ORDER d : Nat} {b : Bool} {n y : BTreeNode T} {p : Nat} (hO : 1 ≤ ORDER)
    (h : WellShaped ORDER (d + 1) b n) (hl : n.leaf_ = false)
    (hnf : n.keys_count_ < 2 * ORDER - 1) (hp : p ≤ n.keys_count_)
    (hy : n.childs_[p]? = some (some y)) (hfull : y.keys_count_ = 2 * ORDER - 1) :
    WellShaped ORDER (d + 1) b (splitChild ORDER n p y) ∧
      inorder (d + 1) (splitChild ORDER n p y) = inorder (d + 1) n := by
  have hkl := h.keys_length
  have hcl := h.childs_length
  obtain ⟨y', hy', hwy⟩ := h.child hl p hp
  rw [hy] at hy'
  injection hy' with hy'
  injection hy' with hy'
  subst hy'
  have hlc := liveChilds_at h p hp y hy
  have hlcs := liveChilds_split ORDER n p y hp (by omega)
  have hlks := liveKeys_split ORDER n p y hp (by omega)
  have hlkl := liveKeys_length h
  have hlcl := liveChilds_length h (by omega)
  constructor
  · apply shaped_of_views
    · rw [splitChild_keys_length, hkl]
    · rw [splitChild_childs_length, hcl]
    · rw [splitChild_keys_count]; omega
    · intro hb
      rw [splitChild_keys_count]
      have := h.2.2.2.1 hb
      omega
    · rw [splitChild_leaf, hl]
    · exact hO
    · intro oc hoc
      rw [hlcs] at hoc
      rcases List.mem_append.1 hoc with h1 | h1
      · exact shaped_children_mem h hl oc (List.mem_of_mem_take h1)
      · rcases List.mem_cons.1 h1 with h2 | h2
        · exact ⟨_, h2, splitLeft_shaped hO hwy hfull⟩
        · rcases List.mem_cons.1 h2 with h3 | h3
          · exact ⟨_, h3, splitRight_shaped hO hwy hfull⟩
          · exact shaped_children_mem h hl oc (List.mem_of_mem_drop h3)
  · have hA : ((liveChilds n).take p).length = p := by
      rw [List.length_take]; omega
    rw [inorder_of_views d n hl _ _ y hlc (by rw [hA]; omega), hA]
    have hl' : (splitChild ORDER n p y).leaf_ = false := by rw [splitChild_leaf, hl]
    rw [inorder_of_views d (splitChild ORDER n p y) hl' _ _ (splitLeft ORDER y) hlcs
      (by rw [hA, hlks]; simp; omega), hA, hlks]
    have e1 : List.take p (List.take p (liveKeys n) ++
        readKey y.keys_ (ORDER - 1) :: List.drop p (liveKeys n)) = List.take p (liveKeys n) := by
      rw [List.take_append_eq_append_take, List.length_take, Nat.min_eq_left (by omega)]
      simp
    have e2 : List.drop p (List.take p (liveKeys n) ++
        readKey y.keys_ (ORDER - 1) :: List.drop p (liveKeys n)) =
        readKey y.keys_ (ORDER - 1) :: List.drop p (liveKeys n) := by
      rw [List.drop_append_eq_append_drop, List.length_take, Nat.min_eq_left (by omega)]
      simp
    rw [e1, e2, inorder_split_halves hO hwy hfull]
    simp [postI, inter_cons, slotKeys]

end SplitMain

section InsertLemmas
variable {T : Type} [LinearOrder T] [Inhabited T]

theorem scanDown_le (key : T) (ks : List T) (n : Nat) : scanDown key ks n ≤ n := by
  induction n with
  | zero => simp [scanDown]
  | succ n ih =>
    unfold scanDown
    split
    · omega
    · exact Nat.le_refl _

theorem scanDown_gt (key : T) (ks : List T) (n : Nat) :
    ∀ j, scanDown key ks n ≤ j → j < n → key < readKey ks j := by
  induction n with
  | zero => intro j _ hj; omega
  | succ n ih =>
    intro j h1 h2
    unfold scanDown at h1
    by_cases hgt : readKey ks n > key
    · rw [if_pos hgt] at h1
      by_cases hjn : j = n
      · subst hjn; exact hgt
      · exact ih j h1 (by omega)
    · rw [if_neg hgt] at h1
      omega

theorem scanDown_le_key (key : T) (ks : List T) (n : Nat) (h : 0 < scanDown key ks n) :
    readKey ks (scanDown key ks n - 1) ≤ key := by
  induction n with
  | zero => simp [scanDown] at h
  | succ n ih =>
    unfold scanDown at h ⊢
    by_cases hgt : readKey ks n > key
    · rw [if_pos hgt] at h ⊢
      exact ih h
    · rw [if_neg hgt]
      simpa using hgt

theorem scanDown_congr (key : T) (ks ks' : List T) (n : Nat)
    (h : ∀ j, j < n → readKey ks j = readKey ks' j) :
    scanDown key ks n = scanDown key ks' n := by
  induction n with
  | zero => rfl
  | succ n ih =>
    unfold scanDown
    rw [h n (Nat.lt_succ_self n), ih (fun j hj => h j (by omega))]

theorem readKey_set_ne (ks : List T) (i j : Nat) (v : T) (h : i ≠ j) :
    readKey (ks.set i v) j = readKey ks j := by
  unfold readKey
  rw [List.getD_eq_getElem?_getD, List.getD_eq_getElem?_getD, List.getElem?_set_ne h]

theorem leafShift_eq (key : T) (n : Nat) (ks : List T) :
    leafShift key n ks = (scanDown key ks n, shiftRight default (scanDown key ks n) n ks) := by
  induction n generalizing ks with
  | zero => rfl
  | succ n ih =>
    unfold leafShift scanDown
    by_cases hgt : readKey ks n > key
    · rw [if_pos hgt, if_pos hgt, ih]
      have hc : scanDown key (ks.set (n + 1) (readKey ks n)) n = scanDown key ks n :=
        scanDown_congr _ _ _ _ (fun j hj => readKey_set_ne ks (n + 1) j _ (by omega))
      rw [hc]
      have hle := scanDown_le key ks n
      conv_rhs => rw [shiftRight, if_pos (show scanDown key ks n < n + 1 by omega)]
      rfl
    · rw [if_neg hgt, if_neg hgt]
      conv_rhs => rw [shiftRight, if_neg (Nat.lt_irrefl _)]

theorem liveKeys_getElem? (n : BTreeNode T) (j : Nat) (hj : j < n.keys_count_)
    (hc : n.keys_count_ ≤ n.keys_.length) :
    (liveKeys n)[j]? = some (readKey n.keys_ j) := by
  unfold liveKeys readKey
  rw [List.getElem?_take, if_pos hj, List.getD_eq_getElem?_getD,
    List.getElem?_eq_getElem (show j < n.keys_.length by omega)]
  rfl

theorem sorted_replace (pre mid mid' post : List T) (key : T)
    (hs : (pre ++ mid ++ post).Sorted (· ≤ ·)) (hperm : mid'.Perm (key :: mid))
    (hs' : mid'.Sorted (· ≤ ·)) (hpre : ∀ x ∈ pre, x ≤ key) (hpost : ∀ x ∈ post, key ≤ x) :
    (pre ++ mid' ++ post).Perm (key :: (pre ++ mid ++ post)) ∧
      (pre ++ mid' ++ post).Sorted (· ≤ ·) := by
  constructor
  · have h1 : (pre ++ mid' ++ post).Perm (pre ++ (key :: mid) ++ post) :=
      (List.Perm.append_left pre hperm).append_right post
    refine h1.trans ?_
    simp only [List.append_assoc, List.cons_append]
    exact List.perm_middle
  · unfold List.Sorted at hs hs' ⊢
    rw [List.pairwise_append, List.pairwise_append] at hs ⊢
    obtain ⟨⟨hpp, hmm, hpm⟩, hpo, hall⟩ := hs
    refine ⟨⟨hpp, hs', ?_⟩, hpo, ?_⟩
    · intro a ha b hb
      rcases List.mem_cons.1 (hperm.subset hb) with h | h
      · subst h; exact hpre a ha
      · exact hpm a ha b h
    · intro a ha b hb
      rcases List.mem_append.1 ha with h | h
      · exact hall a (List.mem_append_left _ h) b hb
      · rcases List.mem_cons.1 (hperm.subset h) with h2 | h2
        · subst h2; exact hpost b hb
        · exact hall a (List.mem_append_right _ h2) b hb

theorem preI_nil_right (A : List (List T)) : preI A ([] : List T) = [] := by
  cases A <;> rfl

theorem pre_bound {ORDER d : Nat} {b : Bool} {n : BTreeNode T}
    (h : WellShaped ORDER (d + 1) b n) (A : List (List T)) (p : Nat) (hA : A.length = p)
    (hp : p ≤ n.keys_count_) (rest : List T) (key : T)
    (hs : (preI A ((liveKeys n).take p) ++ rest).Sorted (· ≤ ·))
    (hK : 0 < p → readKey n.keys_ (p - 1) ≤ key) :
    ∀ x ∈ preI A ((liveKeys n).take p), x ≤ key := by
  intro x hx
  have hlkl := liveKeys_length h
  by_cases hp0 : p = 0
  · subst hp0
    simp [preI_nil_right] at hx
  · have hlen : ((liveKeys n).take p).length = p := by
      rw [List.length_take]; omega
    have hne : (liveKeys n).take p ≠ [] := by
      intro hc
      rw [hc] at hlen
      simp at hlen
      omega
    obtain ⟨X, hX⟩ := preI_getLast A _ (by rw [List.length_take]; omega) hne
    have hlast : ((liveKeys n).take p).getLast hne = readKey n.keys_ (p - 1) := by
      have h1 := liveKeys_getElem? n (p - 1) (by omega) (by rw [h.keys_length]; exact h.count_le)
      rw [List.getLast_eq_getElem]
      have h2 : ((liveKeys n).take p).length - 1 = p - 1 := by
        rw [List.length_take]; omega
      have h3 : ((liveKeys n).take p)[((liveKeys n).take p).length - 1]? =
          some (readKey n.keys_ (p - 1)) := by
        rw [h2, List.getElem?_take, if_pos (by omega), h1]
      rw [List.getElem?_eq_getElem (by rw [hlen]; omega)] at h3
      injection h3
    rw [hlast] at hX
    rw [hX] at hx hs
    unfold List.Sorted at hs
    rw [List.pairwise_append, List.pairwise_append] at hs
    rcases List.mem_append.1 hx with h1 | h1
    · exact le_trans (hs.1.2.2 x h1 _ (List.mem_singleton_self _)) (hK (by omega))
    · rw [List.mem_singleton] at h1
      rw [h1]
      exact hK (by omega)

theorem post_bound {ORDER d : Nat} {b : Bool} {n : BTreeNode T}
    (h : WellShaped ORDER (d + 1) b n) (B : List (List T)) (p : Nat)
    (hp : p ≤ n.keys_count_) (front : List T) (key : T)
    (hs : (front ++ postI B ((liveKeys n).drop p)).Sorted (· ≤ ·))
    (hK : p < n.keys_count_ → key ≤ readKey n.keys_ p) :
    ∀ x ∈ postI B ((liveKeys n).drop p), key ≤ x := by
  intro x hx
  have hlkl := liveKeys_length h
  by_cases hpc : p = n.keys_count_
  · rw [List.drop_of_length_le (by omega)] at hx
    simp [postI] at hx
  · have hlt : p < n.keys_count_ := by omega
    have h1 := liveKeys_getElem? n p hlt (by rw [h.keys_length]; exact h.count_le)
    have h2 : (liveKeys n).drop p = readKey n.keys_ p :: (liveKeys n).drop (p + 1) := by
      rw [List.drop_eq_getElem_cons (by omega)]
      congr 1
      rw [List.getElem?_eq_getElem (by omega)] at h1
      injection h1
    rw [h2] at hx hs
    simp only [postI] at hx hs
    unfold List.Sorted at hs
    rw [List.pairwise_append, List.pairwise_cons] at hs
    rcases List.mem_cons.1 hx with h3 | h3
    · rw [h3]; exact hK hlt
    · exact le_trans (hK hlt) (hs.2.1.1 x h3)

end InsertLemmas

section InsertMain
variable {T : Type} [LinearOrder T] [Inhabited T]

theorem descend_spec {ORDER d : Nat} {b : Bool} {n c c2 : BTreeNode T} {p : Nat} {key : T}
    (hO : 1 ≤ ORDER) (h : WellShaped ORDER (d + 1) b n) (hl : n.leaf_ = false)
    (hp : p ≤ n.keys_count_) (hc : n.childs_[p]? = some (some c))
    (hs : (inorder (d + 1) n).Sorted (· ≤ ·))
    (hK1 : 0 < p → readKey n.keys_ (p - 1) ≤ key)
    (hK2 : p < n.keys_count_ → key ≤ readKey n.keys_ p)
    (hw2 : WellShaped ORDER d false c2) (hperm : (inorder d c2).Perm (key :: inorder d c))
    (hs2 : (inorder d c2).Sorted (· ≤ ·)) :
    WellShaped ORDER (d + 1) b (.mk n.keys_ (n.childs_.set p (some c2)) n.keys_count_ n.leaf_) ∧
      (inorder (d + 1) (.mk n.keys_ (n.childs_.set p (some c2)) n.keys_count_ n.leaf_)).Perm
        (key :: inorder (d + 1) n) ∧
      (inorder (d + 1)
        (.mk n.keys_ (n.childs_.set p (some c2)) n.keys_count_ n.leaf_)).Sorted (· ≤ ·) := by
  have hkl := h.keys_length
  have hcl := h.childs_length
  have hcnt := h.count_le
  have hlkl := liveKeys_length h
  have hlcl := liveChilds_length h (by omega)
  have hlc := liveChilds_at h p hp c hc
  have hA : ((liveChilds n).take p).length = p := by
    rw [List.length_take]; omega
  have hlc' : liveChilds (BTreeNode.mk n.keys_ (n.childs_.set p (some c2)) n.keys_count_ n.leaf_)
      = (liveChilds n).take p ++ some c2 :: (liveChilds n).drop (p + 1) := by
    show (n.childs_.set p (some c2)).take (n.keys_count_ + 1) = _
    rw [List.set_take, List.set_eq_take_append_cons_drop, if_pos (by
      rw [List.length_take]; omega)]
    rfl
  have hview := inorder_of_views d n hl _ _ c hlc (by rw [hA]; omega)
  have hview' := inorder_of_views d
    (BTreeNode.mk n.keys_ (n.childs_.set p (some c2)) n.keys_count_ n.leaf_) hl _ _ c2 hlc'
    (by rw [hA]; show p ≤ (liveKeys n).length; omega)
  rw [hA] at hview hview'
  have hlk' : liveKeys (BTreeNode.mk n.keys_ (n.childs_.set p (some c2)) n.keys_count_ n.leaf_)
      = liveKeys n := rfl
  rw [hlk'] at hview'
  rw [hview] at hs
  have hpre := pre_bound h (((liveChilds n).take p).map (slotKeys (inorder d))) p
    (by rw [List.length_map, hA]) hp _ key (by rw [List.append_assoc] at hs; exact hs) hK1
  have hpost := post_bound h (((liveChilds n).drop (p + 1)).map (slotKeys (inorder d))) p hp _
    key hs hK2
  have hrep := sorted_replace _ _ _ _ key hs hperm hs2 hpre hpost
  refine ⟨?_, ?_, ?_⟩
  · refine shaped_of_views (n := BTreeNode.mk n.keys_ (n.childs_.set p (some c2)) n.keys_count_
      n.leaf_) hkl (by show (n.childs_.set p (some c2)).length = _; simp [hcl]) hcnt
      h.2.2.2.1 hl hO ?_
    intro oc hoc
    rw [hlc'] at hoc
    rcases List.mem_append.1 hoc with h1 | h1
    · exact shaped_children_mem h hl oc (List.mem_of_mem_take h1)
    · rcases List.mem_cons.1 h1 with h2 | h2
      · exact ⟨_, h2, hw2⟩
      · exact shaped_children_mem h hl oc (List.mem_of_mem_drop h2)
  · rw [hview', hview]
    exact hrep.1
  · rw [hview']
    exact hrep.2

theorem insert_leaf_spec {ORDER : Nat} {b : Bool} {n : BTreeNode T} (key : T)
    (h : WellShaped ORDER 1 b n) (hnf : n.keys_count_ < 2 * ORDER - 1)
    (hs : (inorder 1 n).Sorted (· ≤ ·)) :
    WellShaped ORDER 1 b (.mk ((leafShift key n.keys_count_ n.keys_).2.set
        (leafShift key n.keys_count_ n.keys_).1 key) n.childs_ (n.keys_count_ + 1) n.leaf_) ∧
      (inorder 1 (.mk ((leafShift key n.keys_count_ n.keys_).2.set
        (leafShift key n.keys_count_ n.keys_).1 key) n.childs_ (n.keys_count_ + 1) n.leaf_)).Perm
        (key :: inorder 1 n) ∧
      (inorder 1 (.mk ((leafShift key n.keys_count_ n.keys_).2.set
        (leafShift key n.keys_count_ n.keys_).1 key) n.childs_ (n.keys_count_ + 1)
        n.leaf_)).Sorted (· ≤ ·) := by
  have hkl := h.keys_length
  have hl : n.leaf_ = true := h.leaf_iff.2 rfl
  rw [leafShift_eq]
  simp only
  have hq := scanDown_le key n.keys_ n.keys_count_
  have hgt := scanDown_gt key n.keys_ n.keys_count_
  have hle := scanDown_le_key key n.keys_ n.keys_count_
  generalize scanDown key n.keys_ n.keys_count_ = q at hq hgt hle
  have hlk' : liveKeys (BTreeNode.mk ((shiftRight default q n.keys_count_ n.keys_).set q key)
      n.childs_ (n.keys_count_ + 1) n.leaf_) =
      (liveKeys n).take q ++ key :: (liveKeys n).drop q := by
    show ((shiftRight default q n.keys_count_ n.keys_).set q key).take (n.keys_count_ + 1) = _
    rw [take_set_shiftRight _ _ _ _ _ hq (by omega)]
    unfold liveKeys
    rw [List.take_take, Nat.min_eq_left hq]
  have hin : inorder 1 n = liveKeys n := by
    rw [inorder_succ, hl]; rfl
  have hin' : inorder 1 (BTreeNode.mk ((shiftRight default q n.keys_count_ n.keys_).set q key)
      n.childs_ (n.keys_count_ + 1) n.leaf_) =
      (liveKeys n).take q ++ key :: (liveKeys n).drop q := by
    rw [inorder_succ, hlk']
    show (if n.leaf_ = true then _ else _) = _
    rw [hl]; rfl
  have hlkl := liveKeys_length h
  rw [hin', hin]
  rw [hin] at hs
  refine ⟨?_, ?_, ?_⟩
  · refine ⟨?_, h.childs_length, ?_, ?_, h.leaf_iff, ?_⟩
    · show ((shiftRight default q n.keys_count_ n.keys_).set q key).length = _
      rw [List.length_set, shiftRight_length, hkl]
    · show n.keys_count_ + 1 ≤ _
      omega
    · intro hb
      have := h.2.2.2.1 hb
      show ORDER - 1 ≤ n.keys_count_ + 1
      omega
    · intro hlf
      have hlf' : n.leaf_ = false := hlf
      rw [hl] at hlf'
      exact absurd hlf' (by simp)
  · have := @List.perm_middle _ key ((liveKeys n).take q) ((liveKeys n).drop q)
    rw [List.take_append_drop] at this
    exact this
  · have hsplit : liveKeys n = (liveKeys n).take q ++ (liveKeys n).drop q :=
      (List.take_append_drop q _).symm
    rw [hsplit] at hs
    unfold List.Sorted at hs ⊢
    rw [List.pairwise_append] at hs ⊢
    obtain ⟨h1, h2, h3⟩ := hs
    have hdrop : ∀ x ∈ (liveKeys n).drop q, key < x := by
      intro x hx
      obtain ⟨j, hj⟩ := List.mem_iff_getElem?.1 hx
      rw [List.getElem?_drop] at hj
      have hjlt : q + j < n.keys_count_ := by
        by_contra hc
        rw [List.getElem?_eq_none (by omega)] at hj
        simp at hj
      rw [liveKeys_getElem? n (q + j) hjlt (by omega)] at hj
      injection hj with hj
      rw [← hj]
      exact hgt (q + j) (by omega) hjlt
    have htake : ∀ x ∈ (liveKeys n).take q, x ≤ key := by
      intro x hx
      by_cases hq0 : q = 0
      · subst hq0; simp at hx
      · have hlast : (liveKeys n)[q - 1]? = some (readKey n.keys_ (q - 1)) :=
          liveKeys_getElem? n (q - 1) (by omega) (by omega)
        obtain ⟨j, hj⟩ := List.mem_iff_getElem?.1 hx
        rw [List.getElem?_take] at hj
        split at hj
        · rename_i hjq
          by_cases hjl : j = q - 1
          · subst hjl
            rw [hlast] at hj
            injection hj with hj
            rw [← hj]; exact hle (by omega)
          · have hj1 : j < (liveKeys n).length := by omega
            have hq1 : q - 1 < (liveKeys n).length := by omega
            have hpw := (List.take_append_drop q (liveKeys n)) ▸
              (List.pairwise_append.2 ⟨h1, h2, h3⟩)
            have := List.pairwise_iff_getElem.1 hpw j (q - 1) hj1 hq1 (by omega)
            rw [List.getElem?_eq_getElem hj1] at hj
            rw [List.getElem?_eq_getElem hq1] at hlast
            injection hj with hj
            injection hlast with hlast
            rw [hj, hlast] at this
            exact le_trans this (hle (by omega))
        · simp at hj
    refine ⟨h1, ?_, ?_⟩
    · rw [List.pairwise_cons]
      exact ⟨fun x hx => le_of_lt (hdrop x hx), h2⟩
    · intro a ha b' hb'
      rcases List.mem_cons.1 hb' with h4 | h4
      · rw [h4]; exact htake a ha
      · exact h3 a ha b' h4

end InsertMain

section InsertNonFull
variable {T : Type} [LinearOrder T] [Inhabited T]

theorem readKey_eq (ks : List T) (j : Nat) : readKey ks j = ks[j]?.getD default := by
  unfold readKey
  rw [List.getD_eq_getElem?_getD]

theorem splitChild_readKey_at (ORDER : Nat) (n y : BTreeNode T) (p : Nat)
    (hp : p < n.keys_.length) :
    readKey (splitChild ORDER n p y).keys_ p = readKey y.keys_ (ORDER - 1) := by
  rw [readKey_eq, splitChild_keys, List.getElem?_set_self (by rw [shiftRight_length]; exact hp)]
  rfl

theorem splitChild_readKey_lt (ORDER : Nat) (n y : BTreeNode T) (p j : Nat)
    (hc : n.keys_count_ < n.keys_.length) (hj : j < p) :
    readKey (splitChild ORDER n p y).keys_ j = readKey n.keys_ j := by
  rw [readKey_eq, readKey_eq, splitChild_keys, List.getElem?_set_ne (by omega),
    shiftRight_getElem? _ _ _ _ _ hc, if_neg (by omega)]

theorem splitChild_readKey_gt (ORDER : Nat) (n y : BTreeNode T) (p j : Nat)
    (hc : n.keys_count_ < n.keys_.length) (hpj : p ≤ j) (hj : j < n.keys_count_) :
    readKey (splitChild ORDER n p y).keys_ (j + 1) = readKey n.keys_ j := by
  rw [readKey_eq, readKey_eq, splitChild_keys, List.getElem?_set_ne (by omega),
    shiftRight_getElem? _ _ _ _ _ hc, if_pos (by omega)]
  rfl

theorem splitChild_child_left (ORDER : Nat) (n y : BTreeNode T) (p : Nat)
    (hp : p ≤ n.keys_count_) (hc : n.keys_count_ + 1 < n.childs_.length) :
    (splitChild ORDER n p y).childs_[p]? = some (some (splitLeft ORDER y)) := by
  rw [splitChild_childs, List.getElem?_set_ne (by omega),
    shiftRight_getElem? _ _ _ _ _ (by simpa using hc), if_neg (by omega),
    List.getElem?_set_self (by omega)]

theorem splitChild_child_right (ORDER : Nat) (n y : BTreeNode T) (p : Nat)
    (hp : p ≤ n.keys_count_) (hc : n.keys_count_ + 1 < n.childs_.length) :
    (splitChild ORDER n p y).childs_[p + 1]? = some (some (splitRight ORDER y)) := by
  rw [splitChild_childs, List.getElem?_set_self (by rw [shiftRight_length]; simp; omega)]

theorem descend_step {ORDER d : Nat} {b : Bool} {n c : BTreeNode T} {p : Nat} (fuel : Nat)
    (key : T) (hO : 1 ≤ ORDER) (ih : InsertOK (T := T) ORDER d)
    (h : WellShaped ORDER (d + 1) b n) (hl : n.leaf_ = false)
    (hp : p ≤ n.keys_count_) (hc : n.childs_[p]? = some (some c))
    (hcnf : c.keys_count_ < 2 * ORDER - 1) (hf : d ≤ fuel)
    (hs : (inorder (d + 1) n).Sorted (· ≤ ·))
    (hK1 : 0 < p → readKey n.keys_ (p - 1) ≤ key)
    (hK2 : p < n.keys_count_ → key ≤ readKey n.keys_ p) :
    ∃ c2, insertNonFull ORDER fuel c key = some c2 ∧
      WellShaped ORDER (d + 1) b
        (.mk n.keys_ (n.childs_.set p (some c2)) n.keys_count_ n.leaf_) ∧
      (inorder (d + 1) (.mk n.keys_ (n.childs_.set p (some c2)) n.keys_count_ n.leaf_)).Perm
        (key :: inorder (d + 1) n) ∧
      (inorder (d + 1)
        (.mk n.keys_ (n.childs_.set p (some c2)) n.keys_count_ n.leaf_)).Sorted (· ≤ ·) := by
  obtain ⟨c', hc', hwc⟩ := h.child hl p hp
  rw [hc] at hc'
  injection hc' with hc'
  injection hc' with hc'
  subst hc'
  have hlkl := liveKeys_length h
  have hcnt := h.count_le
  have hlcl := liveChilds_length h (by omega)
  have hA : ((liveChilds n).take p).length = p := by
    rw [List.length_take]; omega
  have hview := inorder_of_views d n hl _ _ c (liveChilds_at h p hp c hc) (by rw [hA]; omega)
  have hsc : (inorder d c).Sorted (· ≤ ·) := by
    rw [hview] at hs
    unfold List.Sorted at hs ⊢
    rw [List.pairwise_append, List.pairwise_append] at hs
    exact hs.1.2.1
  obtain ⟨c2, hins, hw2, hperm, hs2⟩ := ih fuel false c key hwc hcnf hf hsc
  exact ⟨c2, hins, descend_spec hO h hl hp hc hs hK1 hK2 hw2 hperm hs2⟩

theorem getD_of_getElem? {α : Type} (l : List (Option α)) (j : Nat) (x : α)
    (h : l[j]? = some (some x)) : l.getD j none = some x := by
  rw [List.getD_eq_getElem?_getD, h]
  rfl

theorem insertNonFull_spec (ORDER : Nat) (hO : 1 ≤ ORDER) (d : Nat) :
    InsertOK (T := T) ORDER d := by
  induction d with
  | zero => intro fuel b n key h; exact h.elim
  | succ d ih =>
    intro fuel b n key h hnf hf hs
    obtain ⟨fuel, rfl⟩ : ∃ f, fuel = f + 1 := ⟨fuel - 1, by omega⟩
    have hkl := h.keys_length
    have hcl := h.childs_length
    cases hl : n.leaf_ with
    | true =>
      have hd : d = 0 := h.leaf_iff.1 hl
      subst hd
      refine ⟨_, ?_, insert_leaf_spec key h hnf hs⟩
      rw [insertNonFull, if_pos hl]
    | false =>
      have hp := scanDown_le key n.keys_ n.keys_count_
      have hgt := scanDown_gt key n.keys_ n.keys_count_
      have hle := scanDown_le_key key n.keys_ n.keys_count_
      obtain ⟨c, hc, hwc⟩ := h.child hl _ hp
      have hcg := getD_of_getElem? _ _ _ hc
      rw [insertNonFull, if_neg (by rw [hl]; simp)]
      simp only [hcg]
      generalize scanDown key n.keys_ n.keys_count_ = p at hp hgt hle hc hcg
      by_cases hfull : c.keys_count_ = 2 * ORDER - 1
      · simp only [if_pos hfull]
        obtain ⟨hw1, hin1⟩ := splitChild_spec hO h hl hnf hp hc hfull
        have hl1 : (splitChild ORDER n p c).leaf_ = false := by rw [splitChild_leaf, hl]
        have hs1 : (inorder (d + 1) (splitChild ORDER n p c)).Sorted (· ≤ ·) := by
          rw [hin1]; exact hs
        have hm := splitChild_readKey_at ORDER n c p (by omega)
        by_cases hlt : readKey (splitChild ORDER n p c).keys_ p < key
        · simp only [if_pos hlt]
          have hc1 := splitChild_child_right ORDER n c p hp (by omega)
          rw [getD_of_getElem? _ _ _ hc1]
          simp only
          obtain ⟨c2, hins, hres⟩ := descend_step fuel key hO ih hw1 hl1
            (show p + 1 ≤ (splitChild ORDER n p c).keys_count_ by
              rw [splitChild_keys_count]; omega)
            hc1 (show (splitRight ORDER c).keys_count_ < 2 * ORDER - 1 by
              show ORDER - 1 < 2 * ORDER - 1
              omega) (by omega) hs1
            (fun _ => by
              rw [Nat.add_sub_cancel]
              exact le_of_lt hlt)
            (fun hlt2 => by
              rw [splitChild_keys_count] at hlt2
              rw [splitChild_readKey_gt ORDER n c p p (by omega) (Nat.le_refl _) (by omega)]
              exact le_of_lt (hgt p (Nat.le_refl _) (by omega)))
          rw [hins]
          simp only
          refine ⟨_, rfl, hres.1, ?_, hres.2.2⟩
          rw [← hin1]
          exact hres.2.1
        · simp only [if_neg hlt]
          have hc1 := splitChild_child_left ORDER n c p hp (by omega)
          rw [getD_of_getElem? _ _ _ hc1]
          simp only
          obtain ⟨c2, hins, hres⟩ := descend_step fuel key hO ih hw1 hl1
            (show p ≤ (splitChild ORDER n p c).keys_count_ by
              rw [splitChild_keys_count]; omega)
            hc1 (show (splitLeft ORDER c).keys_count_ < 2 * ORDER - 1 by
              show ORDER - 1 < 2 * ORDER - 1
              omega) (by omega) hs1
            (fun hp0 => by
              rw [splitChild_readKey_lt ORDER n c p (p - 1) (by omega) (by omega)]
              exact hle hp0)
            (fun _ => le_of_not_lt hlt)
          rw [hins]
          simp only
          refine ⟨_, rfl, hres.1, ?_, hres.2.2⟩
          rw [← hin1]
          exact hres.2.1
      · simp only [if_neg hfull]
        rw [hcg]
        simp only
        have hcle := hwc.count_le
        obtain ⟨c2, hins, hres⟩ := descend_step fuel key hO ih h hl hp hc
          (by omega) (by omega) hs hle (fun hlt => le_of_lt (hgt p (Nat.le_refl _) hlt))
        rw [hins]
        exact ⟨_, rfl, hres⟩

end InsertNonFull

section TreeLevel
variable {T : Type} [LinearOrder T] [Inhabited T]

theorem height_eq (n : BTreeNode T) : n.height = BTreeNode.heightList n.childs_ + 1 := by
  cases n
  simp [BTreeNode.height, BTreeNode.childs_]

theorem height_le_heightList (l : List (Option (BTreeNode T))) (j : Nat) (c : BTreeNode T)
    (h : l[j]? = some (some c)) : c.height ≤ BTreeNode.heightList l := by
  induction l generalizing j with
  | nil => simp at h
  | cons a l ih =>
    cases j with
    | zero =>
      simp at h
      subst h
      simp [BTreeNode.heightList]
    | succ j =>
      simp at h
      have := ih j h
      cases a with
      | none => simpa [BTreeNode.heightList] using this
      | some x =>
        simp only [BTreeNode.heightList]
        omega

theorem WellShaped.le_height {ORDER d : Nat} {b : Bool} {n : BTreeNode T}
    (h : WellShaped ORDER d b n) : d ≤ n.height := by
  induction d generalizing b n with
  | zero => exact Nat.zero_le _
  | succ d ih =>
    rw [height_eq]
    cases hl : n.leaf_ with
    | true =>
      have := h.leaf_iff.1 hl
      omega
    | false =>
      obtain ⟨c, hc, hwc⟩ := h.child hl 0 (Nat.zero_le _)
      have h1 := ih hwc
      have h2 := height_le_heightList _ _ _ hc
      omega

theorem WellShaped.toNonRoot {ORDER d : Nat} {b : Bool} {n : BTreeNode T}
    (h : WellShaped ORDER d b n) (hm : ORDER - 1 ≤ n.keys_count_) :
    WellShaped ORDER d false n := by
  cases d with
  | zero => exact h.elim
  | succ d => exact ⟨h.1, h.2.1, h.2.2.1, fun _ => hm, h.2.2.2.2.1, h.2.2.2.2.2⟩

theorem createNode_leaf_shaped (ORDER : Nat) :
    WellShaped ORDER 1 true (createNode ORDER true : BTreeNode T) := by
  refine ⟨?_, ?_, ?_, ?_, ?_, ?_⟩
  · simp [createNode, BTreeNode.keys_]
  · simp [createNode, BTreeNode.childs_]
  · simp [createNode, BTreeNode.keys_count_]
  · intro h; simp at h
  · simp [createNode, BTreeNode.leaf_]
  · intro h
    simp [createNode, BTreeNode.leaf_] at h

theorem createNode_leaf_inorder (ORDER : Nat) :
    inorder 1 (createNode ORDER true : BTreeNode T) = [] := by
  simp [inorder, createNode, BTreeNode.leaf_, liveKeys, BTreeNode.keys_count_]

/-- The node `s` of `insert` after `s->childs_[0] = root_`. -/
theorem newRoot_shaped {ORDER d : Nat} {b : Bool} {root : BTreeNode T} (hO : 1 ≤ ORDER)
    (h : WellShaped ORDER d b root) (hfull : root.keys_count_ = 2 * ORDER - 1) :
    WellShaped ORDER (d + 1) true
      (.mk (createNode ORDER false : BTreeNode T).keys_
        ((createNode ORDER false : BTreeNode T).childs_.set 0 (some root))
        (createNode ORDER false : BTreeNode T).keys_count_
        (createNode ORDER false : BTreeNode T).leaf_) ∧
    inorder (d + 1)
      (.mk (createNode ORDER false : BTreeNode T).keys_
        ((createNode ORDER false : BTreeNode T).childs_.set 0 (some root))
        (createNode ORDER false : BTreeNode T).keys_count_
        (createNode ORDER false : BTreeNode T).leaf_) = inorder d root := by
  have hd : d ≠ 0 := by
    intro h0; subst h0; exact h.elim
  have hc0 : ((createNode ORDER false : BTreeNode T).childs_.set 0 (some root))[0]? =
      some (some root) := by
    rw [List.getElem?_set_self (by simp [createNode, BTreeNode.childs_]; omega)]
  constructor
  · refine ⟨?_, ?_, ?_, ?_, ?_, ?_⟩
    · simp [createNode, BTreeNode.keys_]
    · simp [createNode, BTreeNode.childs_]
    · simp [createNode, BTreeNode.keys_count_]
    · intro h; simp at h
    · simp [createNode, BTreeNode.leaf_, hd]
    · intro _ j hj
      have hj0 : j = 0 := by
        have : j ≤ 0 := hj
        omega
      subst hj0
      exact ⟨root, hc0, h.toNonRoot (by omega)⟩
  · rw [inorder_succ]
    have h1 : liveChilds (BTreeNode.mk (createNode ORDER false : BTreeNode T).keys_
        ((createNode ORDER false : BTreeNode T).childs_.set 0 (some root))
        (createNode ORDER false : BTreeNode T).keys_count_
        (createNode ORDER false : BTreeNode T).leaf_) = [some root] := by
      show List.take (0 + 1) ((List.replicate (2 * ORDER) none).set 0 (some root)) = _
      obtain ⟨m, hm⟩ : ∃ m, 2 * ORDER = m + 1 := ⟨2 * ORDER - 1, by omega⟩
      rw [hm]
      simp [List.replicate_succ]
    rw [h1]
    simp [createNode, BTreeNode.leaf_, liveKeys, BTreeNode.keys_count_, inter, slotKeys]

theorem insert_spec (ORDER : Nat) (hO : 1 ≤ ORDER) (t : BTree T) (key : T) (r : BTreeNode T)
    (d : Nat) (hr : t.root_ = some r) (h : WellShaped ORDER d true r)
    (hs : (inorder d r).Sorted (· ≤ ·)) :
    ∃ t' r' d', BTree.insert ORDER t key = some t' ∧ t'.root_ = some r' ∧
      WellShaped ORDER d' true r' ∧ (inorder d' r').Perm (key :: inorder d r) ∧
      (inorder d' r').Sorted (· ≤ ·) := by
  have hfuel := h.le_height
  unfold BTree.insert
  rw [hr]
  simp only
  by_cases hfull : r.keys_count_ = 2 * ORDER - 1
  · rw [if_pos hfull]
    obtain ⟨hw0, hin0⟩ := newRoot_shaped hO h hfull
    have hy : ((createNode ORDER false : BTreeNode T).childs_.set 0 (some r))[0]? =
        some (some r) := by
      rw [List.getElem?_set_self (by simp [createNode, BTreeNode.childs_]; omega)]
    obtain ⟨hw1, hin1⟩ := splitChild_spec (p := 0) hO hw0 rfl
      (by show 0 < 2 * ORDER - 1; omega) (Nat.zero_le _) hy hfull
    have hs1 : (inorder (d + 1) (splitChild ORDER (BTreeNode.mk
        (createNode ORDER false : BTreeNode T).keys_
        ((createNode ORDER false : BTreeNode T).childs_.set 0 (some r))
        (createNode ORDER false : BTreeNode T).keys_count_
        (createNode ORDER false : BTreeNode T).leaf_) 0 r)).Sorted (· ≤ ·) := by
      rw [hin1, hin0]; exact hs
    have hcl : (0 : Nat) + 1 < (BTreeNode.mk (createNode ORDER false : BTreeNode T).keys_
        ((createNode ORDER false : BTreeNode T).childs_.set 0 (some r))
        (createNode ORDER false : BTreeNode T).keys_count_
        (createNode ORDER false : BTreeNode T).leaf_).childs_.length := by
      show 0 + 1 < ((List.replicate (2 * ORDER) none).set 0 (some r)).length
      simp; omega
    by_cases hlt : readKey (splitChild ORDER (BTreeNode.mk
        (createNode ORDER false : BTreeNode T).keys_
        ((createNode ORDER false : BTreeNode T).childs_.set 0 (some r))
        (createNode ORDER false : BTreeNode T).keys_count_
        (createNode ORDER false : BTreeNode T).leaf_) 0 r).keys_ 0 < key
    · simp only [if_pos hlt]
      have hc1 := splitChild_child_right ORDER (BTreeNode.mk
        (createNode ORDER false : BTreeNode T).keys_
        ((createNode ORDER false : BTreeNode T).childs_.set 0 (some r))
        (createNode ORDER false : BTreeNode T).keys_count_
        (createNode ORDER false : BTreeNode T).leaf_) r 0 (Nat.zero_le _) hcl
      rw [getD_of_getElem? _ _ _ hc1]
      simp only
      obtain ⟨c2, hins, hres⟩ := descend_step r.height key hO
        (insertNonFull_spec ORDER hO d) hw1 rfl
        (show 0 + 1 ≤ 0 + 1 from Nat.le_refl _) hc1
        (show ORDER - 1 < 2 * ORDER - 1 by omega) hfuel hs1
        (fun _ => le_of_lt hlt)
        (fun hlt2 => absurd hlt2 (by show ¬ (0 + 1 < 0 + 1); omega))
      rw [hins]
      refine ⟨_, _, d + 1, rfl, rfl, hres.1, ?_, hres.2.2⟩
      rw [← hin0, ← hin1]
      exact hres.2.1
    · simp only [if_neg hlt]
      have hc1 := splitChild_child_left ORDER (BTreeNode.mk
        (createNode ORDER false : BTreeNode T).keys_
        ((createNode ORDER false : BTreeNode T).childs_.set 0 (some r))
        (createNode ORDER false : BTreeNode T).keys_count_
        (createNode ORDER false : BTreeNode T).leaf_) r 0 (Nat.zero_le _) hcl
      rw [getD_of_getElem? _ _ _ hc1]
      simp only
      obtain ⟨c2, hins, hres⟩ := descend_step r.height key hO
        (insertNonFull_spec ORDER hO d) hw1 rfl
        (show 0 ≤ 0 + 1 from Nat.zero_le _) hc1
        (show ORDER - 1 < 2 * ORDER - 1 by omega) hfuel hs1
        (fun h0 => absurd h0 (Nat.lt_irrefl 0))
        (fun _ => le_of_not_lt hlt)
      rw [hins]
      refine ⟨_, _, d + 1, rfl, rfl, hres.1, ?_, hres.2.2⟩
      rw [← hin0, ← hin1]
      exact hres.2.1
  · rw [if_neg hfull]
    have hcle := h.count_le
    obtain ⟨n', hins, hw, hperm, hs'⟩ :=
      insertNonFull_spec ORDER hO d r.height true r key h (by omega) hfuel hs
    rw [hins]
    exact ⟨_, n', d, rfl, rfl, hw, hperm, hs'⟩

theorem insertAll_spec (ORDER : Nat) (hO : 1 ≤ ORDER) (keys : List T) :
    ∀ (t : BTree T) (r : BTreeNode T) (d : Nat), t.root_ = some r → WellShaped ORDER d true r →
      (inorder d r).Sorted (· ≤ ·) →
      ∃ t' r' d', BTree.insertAll ORDER t keys = some t' ∧ t'.root_ = some r' ∧
        WellShaped ORDER d' true r' ∧ (inorder d' r').Perm (keys ++ inorder d r) ∧
        (inorder d' r').Sorted (· ≤ ·) := by
  induction keys with
  | nil =>
    intro t r d hr h hs
    exact ⟨t, r, d, rfl, hr, h, List.Perm.refl _, hs⟩
  | cons k ks ih =>
    intro t r d hr h hs
    obtain ⟨t1, r1, d1, hins, hr1, hw1, hp1, hs1⟩ := insert_spec ORDER hO t k r d hr h hs
    obtain ⟨t2, r2, d2, hall, hr2, hw2, hp2, hs2⟩ := ih t1 r1 d1 hr1 hw1 hs1
    refine ⟨t2, r2, d2, ?_, hr2, hw2, ?_, hs2⟩
    · unfold BTree.insertAll
      rw [hins]
      exact hall
    · refine hp2.trans ?_
      refine (List.Perm.append_left ks hp1).trans ?_
      simp only [List.cons_append]
      exact List.perm_middle

theorem insertAll_new_spec (ORDER : Nat) (hO : 1 ≤ ORDER) (keys : List T) :
    ∃ t r d, BTree.insertAll ORDER (BTree.new ORDER) keys = some t ∧ t.root_ = some r ∧
      WellShaped ORDER d true r ∧ (inorder d r).Perm keys ∧ (inorder d r).Sorted (· ≤ ·) := by
  obtain ⟨t, r, d, h1, h2, h3, h4, h5⟩ := insertAll_spec ORDER hO keys (BTree.new ORDER)
    (createNode ORDER true) 1 rfl (createNode_leaf_shaped ORDER)
    (by rw [createNode_leaf_inorder]; exact List.sorted_nil)
  refine ⟨t, r, d, h1, h2, h3, ?_, h5⟩
  rw [createNode_leaf_inorder, List.append_nil] at h4
  exact h4

end TreeLevel

section SearchLemmas
variable {T : Type} [LinearOrder T] [Inhabited T]

theorem scanUp_spec (k : T) (ks : List T) (rem : Nat) :
    ∀ i0, i0 ≤ scanUp k ks rem i0 ∧ scanUp k ks rem i0 ≤ i0 + rem ∧
      (∀ j, i0 ≤ j → j < scanUp k ks rem i0 → readKey ks j < k) ∧
      (scanUp k ks rem i0 < i0 + rem → k ≤ readKey ks (scanUp k ks rem i0)) := by
  induction rem with
  | zero =>
    intro i0
    refine ⟨Nat.le_refl _, Nat.le_refl _, ?_, ?_⟩
    · intro j h1 h2
      simp only [scanUp] at h2
      omega
    · intro h
      simp only [scanUp] at h
      omega
  | succ rem ih =>
    intro i0
    unfold scanUp
    by_cases hgt : k > readKey ks i0
    · rw [if_pos hgt]
      obtain ⟨h1, h2, h3, h4⟩ := ih (i0 + 1)
      refine ⟨by omega, by omega, ?_, ?_⟩
      · intro j hj1 hj2
        by_cases hj : j = i0
        · subst hj; exact hgt
        · exact h3 j (by omega) hj2
      · intro h
        exact h4 (by omega)
    · rw [if_neg hgt]
      refine ⟨Nat.le_refl _, by omega, ?_, ?_⟩
      · intro j h1 h2
        omega
      · intro _
        exact le_of_not_lt hgt

theorem search_found (ORDER : Nat) (hO : 1 ≤ ORDER) (junk : BTreeNode T → T) (d : Nat) :
    ∀ (fuel : Nat) (b : Bool) (n : BTreeNode T) (k : T), WellShaped ORDER d b n → d ≤ fuel →
      (inorder d n).Sorted (· ≤ ·) → k ∈ inorder d n →
      ∃ node, n.search junk fuel k = some (some node) := by
  induction d with
  | zero => intro fuel b n k h; exact h.elim
  | succ d ih =>
    intro fuel b n k h hf hs hk
    obtain ⟨fuel, rfl⟩ : ∃ f, fuel = f + 1 := ⟨fuel - 1, by omega⟩
    have hkl := h.keys_length
    have hcnt := h.count_le
    have hlkl := liveKeys_length h
    obtain ⟨hi0, hi1, hi2, hi3⟩ := scanUp_spec k n.keys_ n.keys_count_ 0
    rw [Nat.zero_add] at hi1 hi3
    rw [BTreeNode.search]
    generalize scanUp k n.keys_ n.keys_count_ 0 = i at hi0 hi1 hi2 hi3
    by_cases hki : (match n.keys_[i]? with
        | some v => v
        | none => junk n) = k
    · exact ⟨n, by rw [if_pos hki]⟩
    · rw [if_neg hki]
      have hF : i < n.keys_count_ → k < readKey n.keys_ i := by
        intro hlt
        have h1 : n.keys_[i]? = some (readKey n.keys_ i) := by
          rw [readKey_eq, List.getElem?_eq_getElem (by omega)]
          rfl
        rw [h1] at hki
        exact lt_of_le_of_ne (hi3 hlt) (fun he => hki he.symm)
      cases hl : n.leaf_ with
      | true =>
        exfalso
        rw [inorder_succ, hl] at hk hs
        simp only [if_true] at hk hs
        obtain ⟨j, hj⟩ := List.mem_iff_getElem?.1 hk
        have hjlt : j < n.keys_count_ := by
          by_contra hc
          rw [List.getElem?_eq_none (by omega)] at hj
          simp at hj
        have hjk : readKey n.keys_ j = k := by
          rw [liveKeys_getElem? n j hjlt (by omega)] at hj
          injection hj
        by_cases hji : j < i
        · have := hi2 j (Nat.zero_le _) hji
          rw [hjk] at this
          exact lt_irrefl _ this
        · have hilt : i < n.keys_count_ := by omega
          have hlt := hF hilt
          by_cases hje : j = i
          · subst hje
            rw [hjk] at hlt
            exact lt_irrefl _ hlt
          · have h1 := liveKeys_getElem? n i hilt (by omega)
            have h2 := liveKeys_getElem? n j hjlt (by omega)
            have hi' : i < (liveKeys n).length := by omega
            have hj' : j < (liveKeys n).length := by omega
            have hpw := List.pairwise_iff_getElem.1 hs i j hi' hj' (by omega)
            rw [List.getElem?_eq_getElem hi'] at h1
            rw [List.getElem?_eq_getElem hj'] at h2
            injection h1 with h1
            injection h2 with h2
            rw [h1, h2, hjk] at hpw
            exact lt_irrefl _ (lt_of_lt_of_le hlt hpw)
      | false =>
        simp only [Bool.false_eq_true, if_false]
        obtain ⟨c, hc, hwc⟩ := h.child hl i hi1
        rw [getD_of_getElem? _ _ _ hc]
        simp only
        have hlcl := liveChilds_length h (by omega)
        have hA : ((liveChilds n).take i).length = i := by
          rw [List.length_take]; omega
        have hview := inorder_of_views d n hl _ _ c (liveChilds_at h i hi1 c hc)
          (by rw [hA]; omega)
        rw [hA] at hview
        rw [hview] at hk hs
        have hsc : (inorder d c).Sorted (· ≤ ·) := by
          have hs' := hs
          unfold List.Sorted at hs' ⊢
          rw [List.pairwise_append, List.pairwise_append] at hs'
          exact hs'.1.2.1
        have hkc : k ∈ inorder d c := by
          rcases List.mem_append.1 hk with h1 | h1
          · rcases List.mem_append.1 h1 with h2 | h2
            · exfalso
              by_cases hi0' : i = 0
              · subst hi0'
                simp [preI_nil_right] at h2
              · have hb := pre_bound h (((liveChilds n).take i).map (slotKeys (inorder d))) i
                  (by rw [List.length_map, hA]) hi1 _ (readKey n.keys_ (i - 1))
                  (by rw [List.append_assoc] at hs; exact hs) (fun _ => le_refl _) k h2
                have := hi2 (i - 1) (Nat.zero_le _) (by omega)
                exact lt_irrefl _ (lt_of_le_of_lt hb this)
            · exact h2
          · exfalso
            by_cases hilt : i < n.keys_count_
            · have hb := post_bound h (((liveChilds n).drop (i + 1)).map (slotKeys (inorder d)))
                i hi1 _ (readKey n.keys_ i) hs (fun _ => le_refl _) k h1
              exact lt_irrefl _ (lt_of_lt_of_le (hF hilt) hb)
            · have hdrop : (liveKeys n).drop i = [] := List.drop_of_length_le (by omega)
              rw [hdrop] at h1
              simp [postI] at h1
        exact ih fuel false c k hwc (by omega) hsc hkc

end SearchLemmas

section AllocFailureLemmas
variable {T : Type} [LinearOrder T] [Inhabited T]

theorem set_same {α : Type} (l : List α) (p : Nat) (v : α) (h : l[p]? = some v) :
    l.set p v = l := by
  apply List.ext_getElem?
  intro i
  rw [List.getElem?_set]
  by_cases hpi : p = i
  · subst hpi
    rw [if_pos rfl, h]
    have : p < l.length := by
      by_contra hc
      rw [List.getElem?_eq_none (by omega)] at h
      simp at h
    rw [if_pos this]
  · rw [if_neg hpi]

theorem mk_eta (n : BTreeNode T) :
    BTreeNode.mk n.keys_ n.childs_ n.keys_count_ n.leaf_ = n := by
  cases n
  rfl

theorem replace_child_same {ORDER d : Nat} {b : Bool} {n c c2 : BTreeNode T} {p : Nat}
    (hO : 1 ≤ ORDER) (h : WellShaped ORDER (d + 1) b n) (hl : n.leaf_ = false)
    (hp : p ≤ n.keys_count_) (hc : n.childs_[p]? = some (some c))
    (hw2 : WellShaped ORDER d false c2) (hin : inorder d c2 = inorder d c) :
    WellShaped ORDER (d + 1) b (.mk n.keys_ (n.childs_.set p (some c2)) n.keys_count_ n.leaf_) ∧
      inorder (d + 1) (.mk n.keys_ (n.childs_.set p (some c2)) n.keys_count_ n.leaf_) =
        inorder (d + 1) n := by
  have hkl := h.keys_length
  have hcl := h.childs_length
  have hcnt := h.count_le
  have hlkl := liveKeys_length h
  have hlcl := liveChilds_length h (by omega)
  have hlc := liveChilds_at h p hp c hc
  have hA : ((liveChilds n).take p).length = p := by
    rw [List.length_take]; omega
  have hlc' : liveChilds (BTreeNode.mk n.keys_ (n.childs_.set p (some c2)) n.keys_count_ n.leaf_)
      = (liveChilds n).take p ++ some c2 :: (liveChilds n).drop (p + 1) := by
    show (n.childs_.set p (some c2)).take (n.keys_count_ + 1) = _
    rw [List.set_take, List.set_eq_take_append_cons_drop, if_pos (by
      rw [List.length_take]; omega)]
    rfl
  have hview := inorder_of_views d n hl _ _ c hlc (by rw [hA]; omega)
  have hview' := inorder_of_views d
    (BTreeNode.mk n.keys_ (n.childs_.set p (some c2)) n.keys_count_ n.leaf_) hl _ _ c2 hlc'
    (by rw [hA]; show p ≤ (liveKeys n).length; omega)
  constructor
  · refine shaped_of_views (n := BTreeNode.mk n.keys_ (n.childs_.set p (some c2)) n.keys_count_
      n.leaf_) hkl (by show (n.childs_.set p (some c2)).length = _; simp [hcl]) hcnt
      h.2.2.2.1 hl hO ?_
    intro oc hoc
    rw [hlc'] at hoc
    rcases List.mem_append.1 hoc with h1 | h1
    · exact shaped_children_mem h hl oc (List.mem_of_mem_take h1)
    · rcases List.mem_cons.1 h1 with h2 | h2
      · exact ⟨_, h2, hw2⟩
      · exact shaped_children_mem h hl oc (List.mem_of_mem_drop h2)
  · rw [hview', hview, hin]
    rfl

theorem insertNonFullA_done (ORDER : Nat) (fuel : Nat) :
    ∀ (allocs : Nat) (n : BTreeNode T) (key : T) (n' : BTreeNode T) (k : Nat),
      insertNonFullA ORDER fuel allocs n key = some (.done n' k) →
      insertNonFull ORDER fuel n key = some n' := by
  induction fuel with
  | zero =>
    intro allocs n key n' k h
    simp [insertNonFullA] at h
  | succ fuel ih =>
    intro allocs n key n' k h
    rw [insertNonFullA] at h
    rw [insertNonFull]
    cases hl : n.leaf_ with
    | true =>
      rw [hl] at h
      simp only [if_true] at h ⊢
      injection h with h
      injection h with h1 h2
      rw [h1]
    | false =>
      rw [hl] at h
      simp only [Bool.false_eq_true, if_false] at h ⊢
      cases hc : n.childs_.getD (scanDown key n.keys_ n.keys_count_) none with
      | none =>
        rw [hc] at h
        simp at h
      | some c =>
        rw [hc] at h
        simp only at h ⊢
        by_cases hf : c.keys_count_ = 2 * ORDER - 1 ∧ allocs = 0
        · rw [if_pos hf] at h
          simp at h
        · rw [if_neg hf] at h
          generalize (if c.keys_count_ = 2 * ORDER - 1 then
            splitChild ORDER n (scanDown key n.keys_ n.keys_count_) c else n) = node1 at h ⊢
          generalize (if c.keys_count_ = 2 * ORDER - 1 then
            (if readKey node1.keys_ (scanDown key n.keys_ n.keys_count_) < key then
              scanDown key n.keys_ n.keys_count_ + 1 else scanDown key n.keys_ n.keys_count_)
            else scanDown key n.keys_ n.keys_count_) = p1 at h ⊢
          cases hc1 : node1.childs_.getD p1 none with
          | none =>
            rw [hc1] at h
            simp at h
          | some c1 =>
            rw [hc1] at h
            simp only at h ⊢
            cases hrec : insertNonFullA ORDER fuel
                (if c.keys_count_ = 2 * ORDER - 1 then allocs - 1 else allocs) c1 key with
            | none =>
              rw [hrec] at h
              simp at h
            | some o =>
              rw [hrec] at h
              cases o with
              | oom v =>
                simp at h
              | done c2 m =>
                simp only at h
                injection h with h
                injection h with h1 h2
                rw [ih _ c1 key c2 m hrec]
                simp only
                rw [h1]

end AllocFailureLemmas

section AllocFailureMain
variable {T : Type} [LinearOrder T] [Inhabited T]

theorem insertNonFullA_spec (ORDER : Nat) (hO : 1 ≤ ORDER) (d : Nat) :
    InsertAOK (T := T) ORDER d := by
  induction d with
  | zero => intro fuel allocs b n key h; exact h.elim
  | succ d ih =>
    intro fuel allocs b n key h hnf hf
    obtain ⟨fuel, rfl⟩ : ∃ f, fuel = f + 1 := ⟨fuel - 1, by omega⟩
    have hkl := h.keys_length
    have hcl := h.childs_length
    rw [insertNonFullA]
    cases hl : n.leaf_ with
    | true =>
      simp only [if_true]
      exact ⟨_, rfl, fun n' hn' => by simp at hn'⟩
    | false =>
      simp only [Bool.false_eq_true, if_false]
      have hp := scanDown_le key n.keys_ n.keys_count_
      obtain ⟨c, hc, hwc⟩ := h.child hl _ hp
      have hcg := getD_of_getElem? _ _ _ hc
      rw [hcg]
      simp only
      generalize scanDown key n.keys_ n.keys_count_ = p at hp hc hcg
      by_cases hf0 : c.keys_count_ = 2 * ORDER - 1 ∧ allocs = 0
      · rw [if_pos hf0]
        refine ⟨_, rfl, ?_⟩
        intro n' hn'
        injection hn' with hn'
        subst hn'
        exact ⟨h, rfl, fun _ => rfl⟩
      · rw [if_neg hf0]
        by_cases hfull : c.keys_count_ = 2 * ORDER - 1
        · have ha : allocs ≠ 0 := fun ha => hf0 ⟨hfull, ha⟩
          simp only [if_pos hfull]
          obtain ⟨hw1, hin1⟩ := splitChild_spec hO h hl hnf hp hc hfull
          have hl1 : (splitChild ORDER n p c).leaf_ = false := by rw [splitChild_leaf, hl]
          by_cases hlt : readKey (splitChild ORDER n p c).keys_ p < key
          · simp only [if_pos hlt]
            have hc1 := splitChild_child_right ORDER n c p hp (by omega)
            rw [getD_of_getElem? _ _ _ hc1]
            simp only
            obtain ⟨c1', hc1', hwc1⟩ := hw1.child hl1 (p + 1)
              (by rw [splitChild_keys_count]; omega)
            rw [hc1] at hc1'
            injection hc1' with hc1'
            injection hc1' with hc1'
            subst hc1'
            obtain ⟨o1, ho1, hoom⟩ := ih fuel (allocs - 1) false (splitRight ORDER c) key hwc1
              (show ORDER - 1 < 2 * ORDER - 1 by omega) (by omega)
            rw [ho1]
            cases o1 with
            | done c2 m => exact ⟨_, rfl, fun n' hn' => by simp at hn'⟩
            | oom c2 =>
              refine ⟨_, rfl, ?_⟩
              intro n' hn'
              injection hn' with hn'
              subst hn'
              obtain ⟨hw2, hin2, _⟩ := hoom c2 rfl
              obtain ⟨hw3, hin3⟩ := replace_child_same hO hw1 hl1
                (show p + 1 ≤ (splitChild ORDER n p c).keys_count_ by
                  rw [splitChild_keys_count]; omega) hc1 hw2 hin2
              exact ⟨hw3, by rw [hin3, hin1], fun ha0 => absurd ha0 ha⟩
          · simp only [if_neg hlt]
            have hc1 := splitChild_child_left ORDER n c p hp (by omega)
            rw [getD_of_getElem? _ _ _ hc1]
            simp only
            obtain ⟨c1', hc1', hwc1⟩ := hw1.child hl1 p
              (by rw [splitChild_keys_count]; omega)
            rw [hc1] at hc1'
            injection hc1' with hc1'
            injection hc1' with hc1'
            subst hc1'
            obtain ⟨o1, ho1, hoom⟩ := ih fuel (allocs - 1) false (splitLeft ORDER c) key hwc1
              (show ORDER - 1 < 2 * ORDER - 1 by omega) (by omega)
            rw [ho1]
            cases o1 with
            | done c2 m => exact ⟨_, rfl, fun n' hn' => by simp at hn'⟩
            | oom c2 =>
              refine ⟨_, rfl, ?_⟩
              intro n' hn'
              injection hn' with hn'
              subst hn'
              obtain ⟨hw2, hin2, _⟩ := hoom c2 rfl
              obtain ⟨hw3, hin3⟩ := replace_child_same hO hw1 hl1
                (show p ≤ (splitChild ORDER n p c).keys_count_ by
                  rw [splitChild_keys_count]; omega) hc1 hw2 hin2
              exact ⟨hw3, by rw [hin3, hin1], fun ha0 => absurd ha0 ha⟩
        · simp only [if_neg hfull]
          rw [hcg]
          simp only
          have hcle := hwc.count_le
          obtain ⟨o1, ho1, hoom⟩ := ih fuel allocs false c key hwc (by omega) (by omega)
          rw [ho1]
          cases o1 with
          | done c2 m => exact ⟨_, rfl, fun n' hn' => by simp at hn'⟩
          | oom c2 =>
            refine ⟨_, rfl, ?_⟩
            intro n' hn'
            injection hn' with hn'
            subst hn'
            obtain ⟨hw2, hin2, heq⟩ := hoom c2 rfl
            obtain ⟨hw3, hin3⟩ := replace_child_same hO h hl hp hc hw2 hin2
            refine ⟨hw3, hin3, ?_⟩
            intro ha0
            rw [heq ha0, set_same _ _ _ hc, mk_eta]

theorem insertA_spec (ORDER : Nat) (hO : 1 ≤ ORDER) (t : BTree T) (key : T) (allocs : Nat)
    (r : BTreeNode T) (d : Nat) (hr : t.root_ = some r) (h : WellShaped ORDER d true r) :
    ∃ o, BTree.insertA ORDER allocs t key = some o ∧
      (∀ t' m, o = .done t' m → BTree.insert ORDER t key = some t') ∧
      (∀ t', o = .oom t' →
        ((allocs = 0 ∨ (r.keys_count_ = 2 * ORDER - 1 ∧ allocs = 1)) → t' = t) ∧
        (r.keys_count_ < 2 * ORDER - 1 →
          ∃ r', t'.root_ = some r' ∧ WellShaped ORDER d true r' ∧
            t'.traverse = t.traverse)) := by
  have hfuel := h.le_height
  have htrav : t.traverse = some (inorder d r) := by
    unfold BTree.traverse
    rw [hr]
    exact traverse_eq_inorder ORDER hO d r.height true r h hfuel
  unfold BTree.insertA BTree.insert
  rw [hr]
  simp only
  by_cases hfull : r.keys_count_ = 2 * ORDER - 1
  · rw [if_pos hfull, if_pos hfull]
    by_cases ha0 : allocs = 0
    · rw [if_pos ha0]
      refine ⟨_, rfl, fun t' m ht' => by simp at ht', ?_⟩
      intro t' ht'
      injection ht' with ht'
      subst ht'
      exact ⟨fun _ => rfl, fun hlt => by omega⟩
    · rw [if_neg ha0]
      by_cases ha1 : allocs = 1
      · rw [if_pos ha1]
        refine ⟨_, rfl, fun t' m ht' => by simp at ht', ?_⟩
        intro t' ht'
        injection ht' with ht'
        subst ht'
        exact ⟨fun _ => rfl, fun hlt => by omega⟩
      · rw [if_neg ha1]
        obtain ⟨hw0, hin0⟩ := newRoot_shaped hO h hfull
        have hy : ((createNode ORDER false : BTreeNode T).childs_.set 0 (some r))[0]? =
            some (some r) := by
          rw [List.getElem?_set_self (by simp [createNode, BTreeNode.childs_]; omega)]
        obtain ⟨hw1, hin1⟩ := splitChild_spec (p := 0) hO hw0 rfl
          (by show 0 < 2 * ORDER - 1; omega) (Nat.zero_le _) hy hfull
        have hle : (if readKey (splitChild ORDER (BTreeNode.mk
            (createNode ORDER false : BTreeNode T).keys_
            ((createNode ORDER false : BTreeNode T).childs_.set 0 (some r))
            (createNode ORDER false : BTreeNode T).keys_count_
            (createNode ORDER false : BTreeNode T).leaf_) 0 r).keys_ 0 < key then 1 else 0) ≤
            (splitChild ORDER (BTreeNode.mk
            (createNode ORDER false : BTreeNode T).keys_
            ((createNode ORDER false : BTreeNode T).childs_.set 0 (some r))
            (createNode ORDER false : BTreeNode T).keys_count_
            (createNode ORDER false : BTreeNode T).leaf_) 0 r).keys_count_ := by
          rw [splitChild_keys_count]
          split <;> omega
        generalize (if readKey (splitChild ORDER (BTreeNode.mk
            (createNode ORDER false : BTreeNode T).keys_
            ((createNode ORDER false : BTreeNode T).childs_.set 0 (some r))
            (createNode ORDER false : BTreeNode T).keys_count_
            (createNode ORDER false : BTreeNode T).leaf_) 0 r).keys_ 0 < key then 1 else 0) = i
            at hle ⊢
        obtain ⟨c, hc, hwc⟩ := hw1.child rfl i hle
        rw [getD_of_getElem? _ _ _ hc]
        simp only
        have hcc : c.keys_count_ < 2 * ORDER - 1 ∨ c.keys_count_ = 2 * ORDER - 1 := by
          have := hwc.count_le
          omega
        have hcnf : c.keys_count_ < 2 * ORDER - 1 := by
          have hi : i = 0 ∨ i = 1 := by
            rw [splitChild_keys_count] at hle
            have : i ≤ 0 + 1 := hle
            omega
          have hcl : (0 : Nat) + 1 < (BTreeNode.mk (createNode ORDER false : BTreeNode T).keys_
              ((createNode ORDER false : BTreeNode T).childs_.set 0 (some r))
              (createNode ORDER false : BTreeNode T).keys_count_
              (createNode ORDER false : BTreeNode T).leaf_).childs_.length := by
            show 0 + 1 < ((List.replicate (2 * ORDER) none).set 0 (some r)).length
            simp; omega
          rcases hi with hi | hi
          · subst hi
            rw [splitChild_child_left ORDER (BTreeNode.mk (createNode ORDER false : BTreeNode T).keys_
              ((createNode ORDER false : BTreeNode T).childs_.set 0 (some r))
              (createNode ORDER false : BTreeNode T).keys_count_
              (createNode ORDER false : BTreeNode T).leaf_) r 0
              (Nat.zero_le _) hcl] at hc
            injection hc with hc
            injection hc with hc
            subst hc
            show ORDER - 1 < 2 * ORDER - 1
            omega
          · subst hi
            rw [splitChild_child_right ORDER (BTreeNode.mk (createNode ORDER false : BTreeNode T).keys_
              ((createNode ORDER false : BTreeNode T).childs_.set 0 (some r))
              (createNode ORDER false : BTreeNode T).keys_count_
              (createNode ORDER false : BTreeNode T).leaf_) r 0
              (Nat.zero_le _) hcl] at hc
            injection hc with hc
            injection hc with hc
            subst hc
            show ORDER - 1 < 2 * ORDER - 1
            omega
        obtain ⟨o1, ho1, _⟩ := insertNonFullA_spec ORDER hO d r.height (allocs - 2) false c key
          hwc hcnf hfuel
        rw [ho1]
        cases o1 with
        | done c2 m =>
          refine ⟨_, rfl, ?_, fun t' ht' => by simp at ht'⟩
          intro t' m' ht'
          injection ht' with ht' _
          subst ht'
          rw [insertNonFullA_done ORDER r.height _ c key c2 m ho1]
        | oom c2 =>
          refine ⟨_, rfl, fun t' m ht' => by simp at ht', ?_⟩
          intro t' _
          exact ⟨fun hor => by omega, fun hlt => by omega⟩
  · rw [if_neg hfull, if_neg hfull]
    have hcle := h.count_le
    obtain ⟨o1, ho1, hoom⟩ := insertNonFullA_spec ORDER hO d r.height allocs true r key h
      (by omega) hfuel
    rw [ho1]
    cases o1 with
    | done r2 m =>
      refine ⟨_, rfl, ?_, fun t' ht' => by simp at ht'⟩
      intro t' m' ht'
      injection ht' with ht' _
      subst ht'
      rw [insertNonFullA_done ORDER r.height _ r key r2 m ho1]
    | oom r2 =>
      refine ⟨_, rfl, fun t' m ht' => by simp at ht', ?_⟩
      intro t' ht'
      injection ht' with ht'
      subst ht'
      obtain ⟨hw2, hin2, heq⟩ := hoom r2 rfl
      constructor
      · intro hor
        rcases hor with ha0 | ⟨hf, _⟩
        · rw [heq ha0]
          cases t
          simp only at hr
          rw [hr]
        · exact absurd hf hfull
      · intro _
        refine ⟨r2, rfl, hw2, ?_⟩
        rw [htrav]
        show r2.traverse r2.height = _
        rw [traverse_eq_inorder ORDER hO d r2.height true r2 hw2 hw2.le_height, hin2]

end AllocFailureMain


section OrderLemmas
variable {T : Type} [LinearOrder T] [Inhabited T]

theorem inter_seg_sublist (segs : List (List T)) :
    ∀ (ks : List T) (j : Nat) (s : List T), segs[j]? = some s → j ≤ ks.length →
      s.Sublist (inter segs ks) := by
  induction segs with
  | nil => intro ks j s h; simp at h
  | cons s0 segs ih =>
    intro ks j s h hj
    cases ks with
    | nil =>
      have : j = 0 := by simpa using hj
      subst this
      simp only [List.getElem?_cons_zero, Option.some.injEq] at h
      subst h
      exact List.Sublist.refl _
    | cons k ks =>
      show s.Sublist (s0 ++ k :: inter segs ks)
      cases j with
      | zero =>
        simp only [List.getElem?_cons_zero, Option.some.injEq] at h
        subst h
        exact List.sublist_append_left _ _
      | succ j =>
        simp only [List.getElem?_cons_succ] at h
        have := ih ks j s h (by simpa using hj)
        exact (this.cons k).trans (List.sublist_append_right _ _)

theorem inter_keys_sublist (segs : List (List T)) :
    ∀ (ks : List T), ks.length < segs.length → ks.Sublist (inter segs ks) := by
  induction segs with
  | nil => intro ks h; simp at h
  | cons s0 segs ih =>
    intro ks h
    cases ks with
    | nil => exact List.nil_sublist _
    | cons k ks =>
      show (k :: ks).Sublist (s0 ++ k :: inter segs ks)
      have := ih ks (by simpa using h)
      exact (this.cons₂ k).trans (List.sublist_append_right _ _)

theorem inter_bounds (R : T → T → Prop) (segs : List (List T)) :
    ∀ (ks : List T) (i : Nat) (k : T), (inter segs ks).Pairwise R → ks[i]? = some k →
      (∀ s, segs[i]? = some s → ∀ x ∈ s, R x k) ∧
      (∀ s, segs[i + 1]? = some s → ∀ x ∈ s, R k x) := by
  induction segs with
  | nil => intro ks i k _ _; simp
  | cons s0 segs ih =>
    intro ks i k hp hk
    cases ks with
    | nil => simp at hk
    | cons k0 ks =>
      have hp' : (s0 ++ k0 :: inter segs ks).Pairwise R := hp
      rw [List.pairwise_append, List.pairwise_cons] at hp'
      obtain ⟨_, ⟨hk0, hrest⟩, hcross⟩ := hp'
      cases i with
      | zero =>
        simp only [List.getElem?_cons_zero, Option.some.injEq] at hk
        subst hk
        constructor
        · intro s hs x hx
          simp only [List.getElem?_cons_zero, Option.some.injEq] at hs
          subst hs
          exact hcross x hx k0 (List.mem_cons_self _ _)
        · intro s hs x hx
          simp only [List.getElem?_cons_succ] at hs
          have hsub := inter_seg_sublist segs ks 0 s hs (Nat.zero_le _)
          exact hk0 x (hsub.subset hx)
      | succ i =>
        simp only [List.getElem?_cons_succ] at hk
        have := ih ks i k hrest hk
        simpa only [List.getElem?_cons_succ] using this

theorem segs_getElem? (d : Nat) (n : BTreeNode T) (j : Nat) (hj : j ≤ n.keys_count_)
    (c : BTreeNode T) (hc : n.childs_[j]? = some (some c)) :
    ((liveChilds n).map (slotKeys (inorder d)))[j]? = some (inorder d c) := by
  rw [List.getElem?_map, liveChilds_getElem? n j hj, hc]
  rfl

theorem ordered_nodes (ORDER : Nat) (hO : 1 ≤ ORDER) (R : T → T → Prop) (d : Nat) :
    ∀ (b : Bool) (n : BTreeNode T), WellShaped ORDER d b n → (inorder d n).Pairwise R →
      AllNodes (fun _ m => KeysOrdered R m) d n ∧ AllNodes (ChildrenBounded R) d n := by
  induction d with
  | zero => intro b n h; exact absurd h (by simp [WellShaped])
  | succ d ih =>
    intro b n h hs
    have hkl := h.keys_length
    have hcl := h.childs_length
    have hcnt := h.count_le
    cases hl : n.leaf_ with
    | true =>
      rw [inorder_succ, hl] at hs
      simp only [if_true] at hs
      refine ⟨⟨hs, ?_⟩, ⟨?_, ?_⟩⟩
      · intro hf; rw [hl] at hf; cases hf
      · intro hf; rw [hl] at hf; cases hf
      · intro hf; rw [hl] at hf; cases hf
    | false =>
      rw [inorder_succ, hl] at hs
      simp only [Bool.false_eq_true, if_false] at hs
      have hkeys : (liveKeys n).length = n.keys_count_ := liveKeys_length h
      have hsegs : ((liveChilds n).map (slotKeys (inorder d))).length = n.keys_count_ + 1 := by
        rw [List.length_map]
        exact liveChilds_length h (by omega)
      have hchild : ∀ j, j ≤ n.keys_count_ → ∀ c, n.childs_[j]? = some (some c) →
          WellShaped ORDER d false c ∧ (inorder d c).Pairwise R := by
        intro j hj c hc
        obtain ⟨c', hc', hw⟩ := h.child hl j hj
        rw [hc] at hc'
        injection hc' with hc'
        injection hc' with hc'
        subst hc'
        refine ⟨hw, ?_⟩
        exact List.Pairwise.sublist
          (inter_seg_sublist _ _ j _ (segs_getElem? d n j hj c hc) (by omega)) hs
      refine ⟨⟨?_, ?_⟩, ⟨?_, ?_⟩⟩
      · exact List.Pairwise.sublist (inter_keys_sublist _ _ (by omega)) hs
      · intro _ j hj c hc
        obtain ⟨hw, hp⟩ := hchild j hj c hc
        exact (ih false c hw hp).1
      · intro _ i hi
        have hk := liveKeys_getElem? n i hi (by omega)
        obtain ⟨h1, h2⟩ := inter_bounds R _ _ i _ hs hk
        constructor
        · intro c hc x hx
          exact h1 _ (segs_getElem? d n i (by omega) c hc) x hx
        · intro c hc x hx
          exact h2 _ (segs_getElem? d n (i + 1) (by omega) c hc) x hx
      · intro _ j hj c hc
        obtain ⟨hw, hp⟩ := hchild j hj c hc
        exact (ih false c hw hp).2

theorem insertAll_ordered (ORDER : Nat) (hO : 1 ≤ ORDER) (keys : List T) :
    ∃ t r d, BTree.insertAll ORDER (BTree.new ORDER) keys = some t ∧ t.root_ = some r ∧
      WellShaped ORDER d true r ∧
      AllNodes (fun _ m => KeysOrdered (· ≤ ·) m) d r ∧ AllNodes (ChildrenBounded (· ≤ ·)) d r ∧
      (keys.Nodup →
        AllNodes (fun _ m => KeysOrdered (· < ·) m) d r ∧
          AllNodes (ChildrenBounded (· < ·)) d r) := by
  obtain ⟨t, r, d, ht, hr, hw, hperm, hs⟩ := insertAll_new_spec ORDER hO keys
  refine ⟨t, r, d, ht, hr, hw, ?_, ?_, ?_⟩
  · exact (ordered_nodes ORDER hO (· ≤ ·) d true r hw hs).1
  · exact (ordered_nodes ORDER hO (· ≤ ·) d true r hw hs).2
  · intro hnd
    have hnd' : (inorder d r).Nodup := (List.Perm.nodup_iff hperm).2 hnd
    exact ordered_nodes ORDER hO (· < ·) d true r hw (List.Sorted.lt_of_le hs hnd')

end OrderLemmas


section SearchReadLemmas
variable {T : Type} [LinearOrder T] [Inhabited T]

theorem scanUpReads_bound (k : T) (ks : List T) (rem : Nat) :
    ∀ i0, ∀ j ∈ scanUpReads k ks rem i0, i0 ≤ j ∧ j < i0 + rem := by
  induction rem with
  | zero => intro i0 j hj; simp [scanUpReads] at hj
  | succ rem ih =>
    intro i0 j hj
    unfold scanUpReads at hj
    rcases List.mem_cons.1 hj with h | h
    · omega
    · split at h
      · have := ih (i0 + 1) j h
        omega
      · simp at h

theorem searchReads_isSome (junk : BTreeNode T → T) :
    ∀ (fuel : Nat) (n : BTreeNode T) (k : T),
      (n.searchReads junk fuel k).isSome = (n.search junk fuel k).isSome := by
  intro fuel
  induction fuel with
  | zero => intro n k; rfl
  | succ fuel ih =>
    intro n k
    unfold BTreeNode.searchReads BTreeNode.search
    simp only
    split
    · rfl
    · split
      · rfl
      · cases hc : n.childs_.getD (scanUp k n.keys_ n.keys_count_ 0) none with
        | none => rfl
        | some c =>
          simp only
          have := ih c k
          cases h1 : BTreeNode.searchReads junk fuel c k with
          | none =>
            rw [h1] at this
            simp only [Option.isSome_none] at this ⊢
            exact this
          | some l =>
            rw [h1] at this
            simp only [Option.isSome_some] at this ⊢
            exact this

theorem searchReads_bound (junk : BTreeNode T → T) :
    ∀ (fuel : Nat) (n : BTreeNode T) (k : T) (l : List key_read),
      n.searchReads junk fuel k = some l → ∀ r ∈ l, r.index ≤ r.keys_count := by
  intro fuel
  induction fuel with
  | zero => intro n k l h; cases h
  | succ fuel ih =>
    intro n k l h
    have hhere : ∀ r ∈ (scanUpReads k n.keys_ n.keys_count_ 0 ++
        [scanUp k n.keys_ n.keys_count_ 0]).map
          (fun j => (⟨j, n.keys_count_, n.keys_.length⟩ : key_read)),
        r.index ≤ r.keys_count := by
      intro r hr
      rw [List.mem_map] at hr
      obtain ⟨j, hj, hjr⟩ := hr
      subst hjr
      simp only
      rcases List.mem_append.1 hj with h1 | h1
      · have := scanUpReads_bound k n.keys_ n.keys_count_ 0 j h1
        omega
      · simp only [List.mem_singleton] at h1
        have := (scanUp_spec k n.keys_ n.keys_count_ 0).2.1
        omega
    unfold BTreeNode.searchReads at h
    simp only at h
    split at h
    · injection h with h
      subst h
      exact hhere
    · split at h
      · injection h with h
        subst h
        exact hhere
      · cases hc : n.childs_.getD (scanUp k n.keys_ n.keys_count_ 0) none with
        | none => rw [hc] at h; cases h
        | some c =>
          rw [hc] at h
          simp only at h
          cases h1 : BTreeNode.searchReads junk fuel c k with
          | none => rw [h1] at h; cases h
          | some l1 =>
            rw [h1] at h
            simp only at h
            injection h with h
            subst h
            intro r hr
            rcases List.mem_append.1 hr with h2 | h2
            · exact hhere r h2
            · exact ih c k l1 h1 r h2

end SearchReadLemmas

end btree
namespace btree
section Claims
variable {T : Type} [LinearOrder T] [Inhabited T]

/-- C1: for every `ORDER ≥ 2` and every list of keys inserted one after the
other into a freshly constructed tree (duplicates allowed), every `insert`
returns, and the sequence of keys that `traverse` presents to the visitor is
non-decreasing and is a permutation of the inserted keys; in particular the
visitor is called exactly once per `insert` call. -/
theorem traverse_after_inserts_sorted_perm (ORDER : Nat) (hO : 2 ≤ ORDER) (keys : List T) :
    ∃ t out, BTree.insertAll ORDER (BTree.new ORDER) keys = some t ∧
      t.traverse = some out ∧ out.Sorted (· ≤ ·) ∧ out.Perm keys ∧
      out.length = keys.length := by
  obtain ⟨t, r, d, h1, h2, h3, h4, h5⟩ := insertAll_new_spec ORDER (by omega) keys
  refine ⟨t, inorder d r, h1, ?_, h5, h4, h4.length_eq⟩
  unfold BTree.traverse
  rw [h2]
  exact traverse_eq_inorder ORDER (by omega) d r.height true r h3 h3.le_height

/-- Instance of C1: `ORDER = 2`, keys `3, 1, 2, 1` over the natural numbers. -/
theorem traverse_after_inserts_sorted_perm_witness :
    ∃ (t : BTree Nat) (out : List Nat),
      BTree.insertAll 2 (BTree.new 2) [3, 1, 2, 1] = some t ∧
      t.traverse = some out ∧ out.Sorted (· ≤ ·) ∧ out.Perm [3, 1, 2, 1] ∧
      out.length = [3, 1, 2, 1].length :=
  traverse_after_inserts_sorted_perm 2 (by decide) [3, 1, 2, 1]

/-- C2, evaluated at the failing input: on a freshly constructed tree
(`ORDER = 2`, natural-number keys, nothing inserted) `search(0)` returns the
root node, whose key count is 0, instead of reporting not-found: the test
`keys_[i] == k` reads the value-initialised slot 0 although `i` is not below
the key count. -/
theorem search_default_key_on_empty_tree (junk : BTreeNode Nat → Nat) :
    ∃ n, (BTree.new 2 : BTree Nat).search junk 0 = some (some n) ∧
      n.keys_count_ = 0 ∧ liveKeys n = [] :=
  ⟨createNode 2 true, rfl, rfl, rfl⟩

/-- C3: for every `ORDER ≥ 2`, every list of inserted keys and every key `k`
among them, `search(k)` on the resulting tree returns a node (not
`nullptr`), whatever word lies past the end of a key array. -/
theorem search_inserted_key_found (ORDER : Nat) (hO : 2 ≤ ORDER) (junk : BTreeNode T → T)
    (keys : List T) (k : T) (hk : k ∈ keys) :
    ∃ t node, BTree.insertAll ORDER (BTree.new ORDER) keys = some t ∧
      t.search junk k = some (some node) := by
  obtain ⟨t, r, d, h1, h2, h3, h4, h5⟩ := insertAll_new_spec ORDER (by omega) keys
  obtain ⟨node, hn⟩ := search_found ORDER (by omega) junk d r.height true r k h3 h3.le_height h5
    (h4.symm.subset hk)
  refine ⟨t, node, h1, ?_⟩
  unfold BTree.search
  rw [h2]
  exact hn

/-- Instance of C3: `ORDER = 2`, keys `5, 9, 1, 7, 3`, searched key `7`. -/
theorem search_inserted_key_found_witness :
    (7 : Nat) ∈ [5, 9, 1, 7, 3] ∧
    ∃ (t : BTree Nat) (node : BTreeNode Nat),
      BTree.insertAll 2 (BTree.new 2) [5, 9, 1, 7, 3] = some t ∧
      t.search (fun _ => 0) 7 = some (some node) :=
  ⟨by decide, search_inserted_key_found 2 (by decide) (fun _ => 0) [5, 9, 1, 7, 3] 7 (by decide)⟩

/-- C4: for every `ORDER ≥ 2` and every list of inserted keys the resulting
tree is well shaped: there is a depth `d` at which all leaves lie, every
node other than the root has between `ORDER-1` and `2*ORDER-1` keys, the
root has at most `2*ORDER-1` keys, and every internal node with `k` keys has
valid children in exactly the slots `0 .. k`. -/
theorem inserts_keep_tree_well_shaped (ORDER : Nat) (hO : 2 ≤ ORDER) (keys : List T) :
    ∃ t r d, BTree.insertAll ORDER (BTree.new ORDER) keys = some t ∧ t.root_ = some r ∧
      WellShaped ORDER d true r := by
  obtain ⟨t, r, d, h1, h2, h3, _, _⟩ := insertAll_new_spec ORDER (by omega) keys
  exact ⟨t, r, d, h1, h2, h3⟩

/-- Instance of C4: `ORDER = 2`, keys `0 .. 9` in ascending order. -/
theorem inserts_keep_tree_well_shaped_witness :
    ∃ (t : BTree Nat) (r : BTreeNode Nat) (d : Nat),
      BTree.insertAll 2 (BTree.new 2) [0, 1, 2, 3, 4, 5, 6, 7, 8, 9] = some t ∧
      t.root_ = some r ∧ WellShaped 2 d true r :=
  inserts_keep_tree_well_shaped 2 (by decide) [0, 1, 2, 3, 4, 5, 6, 7, 8, 9]

/-- C5 fails as stated.  In `failTree` (`ORDER = 2`, root `[40]`, not full)
`insert(53)` first splits the full node `[60, 80, 100]` and then has to split
the full leaf `[50, 51, 52]`.  When the second `createNode` call fails, the
exception leaves the call with the first split committed: the root now
holds `[40, 80]`.  The key sequence of the tree is the one before the call. -/
theorem failed_insert_keeps_earlier_split :
    failTree.bind BTree.rootKeys = some [40] ∧
    failRun.map Outcome.failed = some true ∧
    failRun.bind (fun o => o.value.rootKeys) = some [40, 80] ∧
    failTree.bind BTree.traverse =
      some [10, 20, 30, 40, 50, 51, 52, 60, 70, 80, 90, 100, 110, 120] ∧
    failRun.bind (fun o => o.value.traverse) =
      some [10, 20, 30, 40, 50, 51, 52, 60, 70, 80, 90, 100, 110, 120] := by
  decide!

/-- C5 as amended: for every `ORDER ≥ 2`, every tree built by insertions,
every key and every number `allocs` of `createNode` calls that succeed before
one fails, `insert(key)` yields an outcome.  If it returns, the tree is the one
`insert` produces.  If the exception leaves it: when the failing call is the
first `createNode` call of the insert (or, with a full root, one of the two
calls of the root split) the tree under the root pointer is exactly the tree
before the call; and when the root was not full the tree under the root
pointer is well shaped at the same depth and `traverse` presents the same key
sequence as before the call (no key is lost), whichever call failed. -/
theorem failed_insert_keeps_keys (ORDER : Nat) (hO : 2 ≤ ORDER) (keys : List T) (key : T)
    (allocs : Nat) :
    ∃ t r d, BTree.insertAll ORDER (BTree.new ORDER) keys = some t ∧ t.root_ = some r ∧
      WellShaped ORDER d true r ∧
      ∃ o, BTree.insertA ORDER allocs t key = some o ∧
        (∀ t' m, o = .done t' m → BTree.insert ORDER t key = some t') ∧
        (∀ t', o = .oom t' →
          ((allocs = 0 ∨ (r.keys_count_ = 2 * ORDER - 1 ∧ allocs = 1)) → t' = t) ∧
          (r.keys_count_ < 2 * ORDER - 1 →
            ∃ r', t'.root_ = some r' ∧ WellShaped ORDER d true r' ∧
              t'.traverse = t.traverse)) := by
  obtain ⟨t, r, d, h1, h2, h3, _, _⟩ := insertAll_new_spec ORDER (by omega) keys
  exact ⟨t, r, d, h1, h2, h3, insertA_spec ORDER (by omega) t key allocs r d h2 h3⟩

/-- Instance of the amended C5: `ORDER = 2`, keys `10, 20, 30` (a full root),
`insert(40)` with the second `createNode` call failing. -/
theorem failed_insert_keeps_keys_witness :
    ∃ (t : BTree Nat) (r : BTreeNode Nat) (d : Nat),
      BTree.insertAll 2 (BTree.new 2) [10, 20, 30] = some t ∧ t.root_ = some r ∧
      WellShaped 2 d true r ∧
      ∃ o, BTree.insertA 2 1 t 40 = some o ∧
        (∀ t' m, o = .done t' m → BTree.insert 2 t 40 = some t') ∧
        (∀ t', o = .oom t' →
          (((1 : Nat) = 0 ∨ (r.keys_count_ = 2 * 2 - 1 ∧ (1 : Nat) = 1)) → t' = t) ∧
          (r.keys_count_ < 2 * 2 - 1 →
            ∃ r', t'.root_ = some r' ∧ WellShaped 2 d true r' ∧
              t'.traverse = t.traverse)) :=
  failed_insert_keeps_keys 2 (by decide) [10, 20, 30] 40 1

/-- The root split of `insert` under a later allocation failure: in
`lossTree` (`ORDER = 2`, full root `[3, 7, 11]`) `insert(17)` splits the root
and then has to split the full leaf `[14, 15, 16]`.  When the third
`createNode` call fails, `root_ = s` is never reached; the root pointer keeps
the old root node, cut down to `[3]`, and the keys `7 .. 16` are no longer
reachable. -/
theorem failed_insert_after_root_split_drops_keys :
    lossTree.bind BTree.rootKeys = some [3, 7, 11] ∧
    lossRun.map Outcome.failed = some true ∧
    lossRun.bind (fun o => o.value.rootKeys) = some [3] ∧
    lossTree.bind BTree.traverse =
      some [0, 1, 2, 3, 4, 5, 6, 7, 8, 9, 10, 11, 12, 13, 14, 15, 16] ∧
    lossRun.bind (fun o => o.value.traverse) = some [0, 1, 2, 3, 4, 5, 6] := by
  decide!

end Claims


section ScenarioClaims

/-- C14, refuted on the code: after inserting 10, 20, 5, 6, 12, 30, 7, 17 into
`BTree<int, 2>` it is not the case that the root holds exactly one key and has
exactly two children. -/
theorem scenario_a_root_not_single_median :
    ¬ (scenarioA.bind BTree.rootKeyCount = some 1 ∧
        scenarioA.bind BTree.rootChildCount = some 2) := by
  decide!

/-- C14, amended: after inserting 10, 20, 5, 6, 12, 30, 7, 17 into
`BTree<int, 2>` the root holds exactly the two keys 10 and 20 and has exactly
three children, the leaves `[5, 6, 7]`, `[12, 17]` and `[30]`; the root with
the single median 10 and two children is what `ORDER = 3` gives. -/
theorem scenario_a_root_two_keys_three_children :
    scenarioA.bind BTree.rootKeyCount = some 2 ∧
    scenarioA.bind BTree.rootKeys = some [10, 20] ∧
    scenarioA.bind BTree.rootChildCount = some 3 ∧
    scenarioA.bind BTree.rootChildKeys = some [[5, 6, 7], [12, 17], [30]] ∧
    scenarioA.bind BTree.traverse = some [5, 6, 7, 10, 12, 17, 20, 30] ∧
    scenarioA3.bind BTree.rootKeys = some [10] ∧
    scenarioA3.bind BTree.rootChildKeys = some [[5, 6, 7], [12, 17, 20, 30]] := by
  decide!

end ScenarioClaims


section OrderClaims
variable {T : Type} [LinearOrder T] [Inhabited T]

/-- C16, refuted on the code: after inserting 5, 5 into `BTree<int, 2>` the
root is the leaf with the live keys `[5, 5]`, which are not strictly
ascending. -/
theorem duplicate_keys_not_strictly_ascending :
    ∃ t r, BTree.insertAll 2 (BTree.new 2) [5, 5] = some t ∧ t.root_ = some r ∧
      liveKeys r = [5, 5] ∧ ¬ KeysOrdered (· < ·) r :=
  ⟨⟨some dupLeaf⟩, dupLeaf, rfl, rfl, rfl, by
    show ¬ ([5, 5] : List Nat).Pairwise (· < ·)
    decide⟩

/-- C16, amended: for every `ORDER ≥ 1` and every key sequence, the inserts
succeed and in the resulting tree the live keys of every node are in
non-decreasing order; they are strictly ascending when the inserted keys are
pairwise distinct. -/
theorem node_keys_nondecreasing (ORDER : Nat) (hO : 1 ≤ ORDER) (keys : List T) :
    ∃ t r d, BTree.insertAll ORDER (BTree.new ORDER) keys = some t ∧ t.root_ = some r ∧
      WellShaped ORDER d true r ∧
      AllNodes (fun _ m => KeysOrdered (· ≤ ·) m) d r ∧
      (keys.Nodup → AllNodes (fun _ m => KeysOrdered (· < ·) m) d r) := by
  obtain ⟨t, r, d, ht, hr, hw, h1, _, h3⟩ := insertAll_ordered ORDER hO keys
  exact ⟨t, r, d, ht, hr, hw, h1, fun hnd => (h3 hnd).1⟩

/-- Instance of C16 (amended): `ORDER = 2` and the keys 5, 5, 5, 5. -/
theorem node_keys_nondecreasing_witness :
    ∃ t r d, BTree.insertAll 2 (BTree.new 2) [5, 5, 5, 5] = some t ∧ t.root_ = some r ∧
      WellShaped 2 d true r ∧
      AllNodes (fun _ m => KeysOrdered (· ≤ ·) m) d r ∧
      (([5, 5, 5, 5] : List Nat).Nodup → AllNodes (fun _ m => KeysOrdered (· < ·) m) d r) :=
  node_keys_nondecreasing 2 (by decide) [5, 5, 5, 5]

/-- C17, refuted on the code: after inserting 5, 5, 5, 5 into `BTree<int, 2>`
the root is internal with the key `k_0 = 5`, and the subtree of its child 0
holds the key 5, which is not strictly less than `k_0`. -/
theorem duplicate_key_in_left_child_not_below_key :
    ∃ t r c, BTree.insertAll 2 (BTree.new 2) [5, 5, 5, 5] = some t ∧ t.root_ = some r ∧
      r.leaf_ = false ∧ 0 < r.keys_count_ ∧ r.childs_[0]? = some (some c) ∧
      ∃ x ∈ inorder 1 c, ¬ x < readKey r.keys_ 0 :=
  ⟨⟨some dupRoot⟩, dupRoot, .mk [5, 5, 5] [none, none, none, none] 2 true, rfl, rfl, rfl,
    by decide, rfl, 5, by decide, by decide⟩

/-- C17, amended: for every `ORDER ≥ 1` and every key sequence, the inserts
succeed and for every internal node of the resulting tree and every live key
`k_i` of it, every key in the subtree of child `i` is less than or equal to
`k_i` and every key in the subtree of child `i + 1` (so also of the last
child, for the last key) is greater than or equal to `k_i`; both are strict
when the inserted keys are pairwise distinct. -/
theorem child_keys_bounded_by_node_keys (ORDER : Nat) (hO : 1 ≤ ORDER) (keys : List T) :
    ∃ t r d, BTree.insertAll ORDER (BTree.new ORDER) keys = some t ∧ t.root_ = some r ∧
      WellShaped ORDER d true r ∧
      AllNodes (ChildrenBounded (· ≤ ·)) d r ∧
      (keys.Nodup → AllNodes (ChildrenBounded (· < ·)) d r) := by
  obtain ⟨t, r, d, ht, hr, hw, _, h2, h3⟩ := insertAll_ordered ORDER hO keys
  exact ⟨t, r, d, ht, hr, hw, h2, fun hnd => (h3 hnd).2⟩

/-- Instance of C17 (amended): `ORDER = 2` and the keys 5, 5, 5, 5. -/
theorem child_keys_bounded_by_node_keys_witness :
    ∃ t r d, BTree.insertAll 2 (BTree.new 2) [5, 5, 5, 5] = some t ∧ t.root_ = some r ∧
      WellShaped 2 d true r ∧
      AllNodes (ChildrenBounded (· ≤ ·)) d r ∧
      (([5, 5, 5, 5] : List Nat).Nodup → AllNodes (ChildrenBounded (· < ·)) d r) :=
  child_keys_bounded_by_node_keys 2 (by decide) [5, 5, 5, 5]

end OrderClaims


section SplitClaim
variable {T : Type} [LinearOrder T] [Inhabited T]

theorem fullLeaf_shaped : WellShaped 2 1 true fullLeaf := by
  refine ⟨rfl, rfl, by decide, ?_, ⟨fun _ => rfl, fun _ => rfl⟩, ?_⟩
  · intro hf; cases hf
  · intro hf; cases hf

theorem freshParent_shaped : WellShaped 2 2 true freshParent :=
  (newRoot_shaped (by decide) fullLeaf_shaped rfl).1

/-- C19: for every `ORDER ≥ 1` (so for every `ORDER ≥ 2`), every well-shaped
internal node `parent` with fewer than `2*ORDER-1` keys and every full node
`y` in its child slot `i`, `splitChild(parent, i, y)` leaves the parent with
one key more: its live keys are the old ones with `y`'s median key
`y.keys_[ORDER-1]` put in at index `i`, its live children are the old ones
with slot `i` holding the cut `y` and the new node `z` put in at index
`i + 1`.  The cut `y` keeps the first `ORDER-1` keys of `y` (and the first
`ORDER` children when `y` is internal); `z` has the leaf flag of `y` and holds
the last `ORDER-1` keys of `y` (and the last `ORDER` children); and the
in-order key sequence of the parent's subtree is unchanged. -/
theorem splitChild_moves_upper_half {ORDER d : Nat} {b : Bool} {parent y : BTreeNode T}
    {i : Nat} (hO : 1 ≤ ORDER) (h : WellShaped ORDER (d + 1) b parent)
    (hl : parent.leaf_ = false) (hnf : parent.keys_count_ < 2 * ORDER - 1)
    (hi : i ≤ parent.keys_count_) (hy : parent.childs_[i]? = some (some y))
    (hfull : y.keys_count_ = 2 * ORDER - 1) :
    (splitChild ORDER parent i y).keys_count_ = parent.keys_count_ + 1 ∧
    (splitChild ORDER parent i y).leaf_ = parent.leaf_ ∧
    liveKeys (splitChild ORDER parent i y) =
      (liveKeys parent).take i ++ readKey y.keys_ (ORDER - 1) :: (liveKeys parent).drop i ∧
    liveChilds (splitChild ORDER parent i y) =
      (liveChilds parent).take i ++ some (splitLeft ORDER y) :: some (splitRight ORDER y) ::
        (liveChilds parent).drop (i + 1) ∧
    (liveKeys y).length = 2 * ORDER - 1 ∧
    (liveKeys y)[ORDER - 1]? = some (readKey y.keys_ (ORDER - 1)) ∧
    (splitLeft ORDER y).leaf_ = y.leaf_ ∧
    liveKeys (splitLeft ORDER y) = (liveKeys y).take (ORDER - 1) ∧
    (y.leaf_ = false → liveChilds (splitLeft ORDER y) = (liveChilds y).take ORDER) ∧
    (splitRight ORDER y).leaf_ = y.leaf_ ∧
    (splitRight ORDER y).keys_count_ = ORDER - 1 ∧
    liveKeys (splitRight ORDER y) = (liveKeys y).drop ORDER ∧
    (y.leaf_ = false → (liveChilds y).length = 2 * ORDER ∧
      liveChilds (splitRight ORDER y) = (liveChilds y).drop ORDER) ∧
    inorder (d + 1) (splitChild ORDER parent i y) = inorder (d + 1) parent := by
  obtain ⟨c, hc, hwy⟩ := h.child hl i hi
  rw [hy] at hc
  injection hc with hc
  injection hc with hc
  subst hc
  have hkl := h.keys_length
  have hcl := h.childs_length
  have hykl := hwy.keys_length
  have hycl := hwy.childs_length
  have hyk : liveKeys y = y.keys_ := by
    unfold liveKeys
    rw [hfull, ← hykl, List.take_length]
  have hyc : liveChilds y = y.childs_ := by
    unfold liveChilds
    apply List.take_of_length_le
    omega
  refine ⟨rfl, rfl, liveKeys_split ORDER parent i y hi (by omega),
    liveChilds_split ORDER parent i y hi (by omega), by rw [hyk, hykl], ?_, rfl, ?_, ?_, rfl, rfl,
    ?_, ?_, (splitChild_spec hO h hl hnf hi hy hfull).2⟩
  · rw [liveKeys_getElem? y (ORDER - 1) (by omega) (by omega)]
  · rw [hyk]
    rfl
  · intro _
    rw [hyc]
    exact liveChilds_splitLeft ORDER hO y
  · rw [hyk]
    exact liveKeys_splitRight ORDER hO y hykl
  · intro hyl
    rw [hyc]
    exact ⟨hycl, liveChilds_splitRight ORDER hO y hyl hycl⟩

/-- Instance of C19: `ORDER = 2`, the full leaf `[1, 2, 3]` below the new
empty root that `insert` builds; after `splitChild` the root holds the key 2
with the leaves `[1]` and `[3]` below it. -/
theorem splitChild_moves_upper_half_witness :
    WellShaped 2 2 true freshParent ∧ freshParent.childs_[0]? = some (some fullLeaf) ∧
    liveKeys (splitChild 2 freshParent 0 fullLeaf) = [2] ∧
    liveKeys (splitLeft 2 fullLeaf) = [1] ∧ liveKeys (splitRight 2 fullLeaf) = [3] ∧
    inorder 2 (splitChild 2 freshParent 0 fullLeaf) = inorder 2 freshParent :=
  ⟨freshParent_shaped, rfl,
    (splitChild_moves_upper_half (by decide) freshParent_shaped rfl (by decide) (by decide)
      (rfl : freshParent.childs_[0]? = some (some fullLeaf)) rfl).2.2.1,
    rfl, rfl,
    (splitChild_moves_upper_half (by decide) freshParent_shaped rfl (by decide) (by decide)
      (rfl : freshParent.childs_[0]? = some (some fullLeaf)) rfl).2.2.2.2.2.2.2.2.2.2.2.2.2⟩

end SplitClaim


section SearchReadClaim

/-- C21, evaluated at two failing inputs (`ORDER = 2`, whatever word lies past
a key array).  After inserting 1, 2, 3 the root is a full leaf and
`search(4)` reads the slots 0, 1, 2 in its loop and then slot 3 in the test
`keys_[i] == k`: index 3 is the key count and the capacity `2*ORDER-1` of
the key array.  After inserting 1 alone, `search(2)` reads slot 0 and then
slot 1, which is at the key count 1 and holds no live key. -/
theorem search_reads_slot_at_key_count (junk : BTreeNode Nat → Nat) :
    (∃ t, BTree.insertAll 2 (BTree.new 2) [1, 2, 3] = some t ∧
      t.searchReads junk 4 = some [⟨0, 3, 3⟩, ⟨1, 3, 3⟩, ⟨2, 3, 3⟩, ⟨3, 3, 3⟩]) ∧
    (∃ t, BTree.insertAll 2 (BTree.new 2) [1] = some t ∧
      t.searchReads junk 2 = some [⟨0, 1, 3⟩, ⟨1, 1, 3⟩]) := by
  refine ⟨⟨⟨some fullLeaf⟩, rfl, ?_⟩, ⟨⟨some oneKeyLeaf⟩, rfl, ?_⟩⟩
  · show BTreeNode.searchReads junk 1 fullLeaf 4 = _
    unfold BTreeNode.searchReads
    simp only
    split
    · rfl
    · rfl
  · show BTreeNode.searchReads junk 1 oneKeyLeaf 2 = _
    unfold BTreeNode.searchReads
    simp only
    split
    · rfl
    · rfl

end SearchReadClaim

end btree
namespace custom_list

section ChainLemmas

theorem chain_split (l1 l2 : List free_node_t) (x : free_node_t)
    (h : ∀ y ∈ l1, y.addr ≠ x.addr) :
    (l1 ++ x :: l2).takeWhile (fun n => n.addr != x.addr) = l1 ∧
      (l1 ++ x :: l2).dropWhile (fun n => n.addr != x.addr) = x :: l2 := by
  induction l1 with
  | nil => simp [List.takeWhile, List.dropWhile]
  | cons a l1 ih =>
    have ha : a.addr ≠ x.addr := h a (List.mem_cons_self _ _)
    have ih' := ih (fun y hy => h y (List.mem_cons_of_mem _ hy))
    have hb : (a.addr != x.addr) = true := by simpa using ha
    rw [List.cons_append, List.takeWhile_cons, List.dropWhile_cons, hb]
    simp only [if_true]
    rw [ih'.1, ih'.2]
    exact ⟨rfl, rfl⟩

theorem chain_after_eq (l1 l2 : List free_node_t) (x : free_node_t)
    (h : ∀ y ∈ l1, y.addr ≠ x.addr) : chain_after (l1 ++ x :: l2) x.addr = l2 := by
  unfold chain_after
  rw [(chain_split l1 l2 x h).2]
  rfl

theorem chain_upto_eq (l1 l2 : List free_node_t) (x : free_node_t)
    (h : ∀ y ∈ l1, y.addr ≠ x.addr) : chain_upto (l1 ++ x :: l2) x.addr = l1 ++ [x] := by
  unfold chain_upto
  rw [(chain_split l1 l2 x h).1, (chain_split l1 l2 x h).2]
  rfl

theorem remove_free_node_eq (a : custom_list_allocator_s) (pv : Option free_node_t)
    (c : free_node_t) (l1 l2 : List free_node_t) (hl : a.free_list = l1 ++ c :: l2)
    (hpv : pv = l1.getLast?)
    (hnd : (a.free_list.map (fun n => n.addr)).Nodup) :
    (remove_free_node a pv c).free_list = l1 ++ l2 := by
  rw [hl, List.map_append, List.map_cons] at hnd
  have hc : ∀ y ∈ l1, y.addr ≠ c.addr := by
    intro y hy he
    have hd := (List.nodup_append.1 hnd).2.2
    exact hd (List.mem_map_of_mem _ hy) (by rw [he]; exact List.mem_cons_self _ _)
  unfold remove_free_node
  rcases List.eq_nil_or_concat l1 with h1 | ⟨l1', p, h1⟩
  · subst h1
    simp only [List.getLast?_nil] at hpv
    subst hpv
    simp only [List.nil_append] at hl ⊢
    rw [hl]
    exact chain_after_eq [] l2 c (by simp)
  · rw [List.concat_eq_append] at h1
    subst h1
    have hlast : (l1' ++ [p]).getLast? = some p := by simp
    rw [hlast] at hpv
    subst hpv
    simp only
    rw [hl, chain_after_eq _ l2 c hc]
    have hp : ∀ y ∈ l1', y.addr ≠ p.addr := by
      intro y hy he
      have hd := (List.nodup_append.1 hnd).1
      rw [List.map_append, List.map_cons, List.map_nil] at hd
      have hd2 := (List.nodup_append.1 hd).2.2
      exact hd2 (List.mem_map_of_mem _ hy) (by rw [he]; exact List.mem_singleton_self _)
    have : l1' ++ [p] ++ c :: l2 = l1' ++ p :: (c :: l2) := by simp
    rw [this, chain_upto_eq l1' (c :: l2) p hp]

theorem insert_into_chain_eq (node : free_node_t) (l1 l2 : List free_node_t)
    (h1 : ∀ y ∈ l1, y.addr < node.addr) (h2 : ∀ y ∈ l2, node.addr ≤ y.addr) :
    insert_into_chain node (l1 ++ l2) = l1 ++ node :: l2 := by
  induction l1 with
  | nil =>
    cases l2 with
    | nil => rfl
    | cons b l2 =>
      have := h2 b (List.mem_cons_self _ _)
      simp [insert_into_chain, Nat.not_lt.2 this]
  | cons a l1 ih =>
    have ha := h1 a (List.mem_cons_self _ _)
    simp [insert_into_chain, ha, ih (fun y hy => h1 y (List.mem_cons_of_mem _ hy))]

end ChainLemmas


section FindLemmas

theorem first_loop_none (size : Nat) (l : List free_node_t) :
    ∀ prev, (∀ b ∈ l, b.size < size) → node_find_first_loop size prev l = (none, none) := by
  induction l with
  | nil => intro prev _; rfl
  | cons cur rest ih =>
    intro prev h
    have hc := h cur (List.mem_cons_self _ _)
    unfold node_find_first_loop
    rw [if_neg (by omega)]
    exact ih (some cur) (fun b hb => h b (List.mem_cons_of_mem _ hb))

theorem first_loop_some (size : Nat) (l : List free_node_t) :
    ∀ prev, (∃ b ∈ l, size ≤ b.size) →
      ∃ l1 c l2, l = l1 ++ c :: l2 ∧
        node_find_first_loop size prev l = (if l1 = [] then prev else l1.getLast?, some c) ∧
        (∀ b ∈ l1, b.size < size) ∧ size ≤ c.size := by
  induction l with
  | nil => intro prev ⟨b, hb, _⟩; simp at hb
  | cons cur rest ih =>
    intro prev ⟨b, hb, hbs⟩
    unfold node_find_first_loop
    by_cases hq : cur.size ≥ size
    · rw [if_pos hq]
      exact ⟨[], cur, rest, rfl, by simp, by simp, hq⟩
    · rw [if_neg hq]
      have hb' : b ∈ rest := by
        rcases List.mem_cons.1 hb with h | h
        · subst h; exact absurd hbs hq
        · exact h
      obtain ⟨l1, c, l2, h1, h2, h3, h4⟩ := ih (some cur) ⟨b, hb', hbs⟩
      refine ⟨cur :: l1, c, l2, by rw [h1]; rfl, ?_, ?_, h4⟩
      · rw [h2]
        by_cases hl1 : l1 = []
        · subst hl1; simp
        · simp [hl1, List.getLast?_cons_cons, List.getLast?_eq_getLast, List.getLast_cons hl1]
      · intro x hx
        rcases List.mem_cons.1 hx with h | h
        · subst h; omega
        · exact h3 x h

theorem best_loop_spec (size : Nat) (l : List free_node_t) :
    ∀ (prev bp bc : Option free_node_t) (md : Nat),
      ((∀ b ∈ l, size ≤ b.size → md ≤ b.size - size) →
        node_find_best_loop size prev l bp bc md = (bp, bc)) ∧
      ((∃ b ∈ l, size ≤ b.size ∧ b.size - size < md) →
        ∃ l1 c l2, l = l1 ++ c :: l2 ∧
          node_find_best_loop size prev l bp bc md =
            (if l1 = [] then prev else l1.getLast?, some c) ∧
          size ≤ c.size ∧ c.size - size < md ∧
          (∀ b ∈ l1, size ≤ b.size → c.size - size < b.size - size) ∧
          (∀ b ∈ l2, size ≤ b.size → c.size - size ≤ b.size - size)) := by
  induction l with
  | nil =>
    intro prev bp bc md
    exact ⟨fun _ => rfl, fun ⟨b, hb, _⟩ => by simp at hb⟩
  | cons cur rest ih =>
    intro prev bp bc md
    have hlast : ∀ (l1 : List free_node_t),
        (if l1 = [] then some cur else l1.getLast?) =
          (if cur :: l1 = [] then prev else (cur :: l1).getLast?) := by
      intro l1
      by_cases hl1 : l1 = []
      · subst hl1; simp
      · simp [hl1, List.getLast?_eq_getLast, List.getLast_cons hl1]
    by_cases hq : cur.size ≥ size
    · by_cases hd : cur.size - size < md
      · by_cases h0 : cur.size - size = 0
        · constructor
          · intro h
            have := h cur (List.mem_cons_self _ _) hq
            omega
          · intro _
            refine ⟨[], cur, rest, rfl, ?_, hq, hd, by simp, ?_⟩
            · unfold node_find_best_loop
              rw [if_pos hq, if_pos hd, if_pos h0]
              simp
            · intro b _ _
              omega
        · have hstep : node_find_best_loop size prev (cur :: rest) bp bc md =
              node_find_best_loop size (some cur) rest prev (some cur) (cur.size - size) := by
            conv_lhs => unfold node_find_best_loop
            rw [if_pos hq, if_pos hd, if_neg h0]
          obtain ⟨ihA, ihB⟩ := ih (some cur) prev (some cur) (cur.size - size)
          constructor
          · intro h
            have := h cur (List.mem_cons_self _ _) hq
            omega
          · intro _
            by_cases hex : ∃ b ∈ rest, size ≤ b.size ∧ b.size - size < cur.size - size
            · obtain ⟨l1, c, l2, h1, h2, h3, h4, h5, h6⟩ := ihB hex
              refine ⟨cur :: l1, c, l2, by rw [h1]; rfl, ?_, h3, by omega, ?_, h6⟩
              · rw [hstep, h2, hlast]
              · intro b hb hbq
                rcases List.mem_cons.1 hb with h | h
                · subst h; exact h4
                · exact h5 b h hbq
            · have hall : ∀ b ∈ rest, size ≤ b.size → cur.size - size ≤ b.size - size := by
                intro b hb hbq
                by_contra hc
                exact hex ⟨b, hb, hbq, by omega⟩
              refine ⟨[], cur, rest, rfl, ?_, hq, hd, by simp, hall⟩
              rw [hstep, ihA hall]
              simp
      · have hstep : node_find_best_loop size prev (cur :: rest) bp bc md =
            node_find_best_loop size (some cur) rest bp bc md := by
          conv_lhs => unfold node_find_best_loop
          rw [if_pos hq, if_neg hd]
        obtain ⟨ihA, ihB⟩ := ih (some cur) bp bc md
        constructor
        · intro h
          rw [hstep]
          exact ihA (fun b hb => h b (List.mem_cons_of_mem _ hb))
        · intro ⟨b, hb, hbq, hbd⟩
          have hb' : b ∈ rest := by
            rcases List.mem_cons.1 hb with h | h
            · subst h; exact absurd hbd hd
            · exact h
          obtain ⟨l1, c, l2, h1, h2, h3, h4, h5, h6⟩ := ihB ⟨b, hb', hbq, hbd⟩
          refine ⟨cur :: l1, c, l2, by rw [h1]; rfl, ?_, h3, h4, ?_, h6⟩
          · rw [hstep, h2, hlast]
          · intro x hx hxq
            rcases List.mem_cons.1 hx with h | h
            · subst h; omega
            · exact h5 x h hxq
    · have hstep : node_find_best_loop size prev (cur :: rest) bp bc md =
          node_find_best_loop size (some cur) rest bp bc md := by
        conv_lhs => unfold node_find_best_loop
        rw [if_neg hq]
      obtain ⟨ihA, ihB⟩ := ih (some cur) bp bc md
      constructor
      · intro h
        rw [hstep]
        exact ihA (fun b hb => h b (List.mem_cons_of_mem _ hb))
      · intro ⟨b, hb, hbq, hbd⟩
        have hb' : b ∈ rest := by
          rcases List.mem_cons.1 hb with h | h
          · subst h; exact absurd hbq hq
          · exact h
        obtain ⟨l1, c, l2, h1, h2, h3, h4, h5, h6⟩ := ihB ⟨b, hb', hbq, hbd⟩
        refine ⟨cur :: l1, c, l2, by rw [h1]; rfl, ?_, h3, h4, ?_, h6⟩
        · rw [hstep, h2, hlast]
        · intro x hx hxq
          rcases List.mem_cons.1 hx with h | h
          · subst h; exact absurd hxq hq
          · exact h5 x h hxq

end FindLemmas


section LayoutLemmas

theorem free_of_nil : free_of [] = [] := rfl

theorem used_of_nil : used_of [] = [] := rfl

theorem free_of_cons (b : layout_block) (L : List layout_block) :
    free_of (b :: L) = if b.free then ⟨b.addr, b.size⟩ :: free_of L else free_of L := by
  unfold free_of
  rw [List.filterMap_cons]
  cases b.free <;> rfl

theorem used_of_cons (b : layout_block) (L : List layout_block) :
    used_of (b :: L) = if b.free then used_of L else ⟨b.addr, b.size⟩ :: used_of L := by
  unfold used_of
  rw [List.filterMap_cons]
  cases b.free <;> rfl

theorem free_of_append (L1 L2 : List layout_block) :
    free_of (L1 ++ L2) = free_of L1 ++ free_of L2 := by
  unfold free_of
  rw [List.filterMap_append]

theorem used_of_append (L1 L2 : List layout_block) :
    used_of (L1 ++ L2) = used_of L1 ++ used_of L2 := by
  unfold used_of
  rw [List.filterMap_append]

theorem mem_free_of {L : List layout_block} {x : free_node_t} (h : x ∈ free_of L) :
    (⟨x.addr, x.size, true⟩ : layout_block) ∈ L := by
  unfold free_of at h
  rw [List.mem_filterMap] at h
  obtain ⟨b, hb, hx⟩ := h
  cases hf : b.free with
  | true =>
    rw [hf] at hx
    simp only [if_true] at hx
    injection hx with hx
    subst hx
    simp only
    have : b = ⟨b.addr, b.size, true⟩ := by
      cases b; simp_all
    rw [← this]
    exact hb
  | false =>
    rw [hf] at hx
    simp at hx

theorem mem_used_of {L : List layout_block} {x : free_node_t} (h : x ∈ used_of L) :
    (⟨x.addr, x.size, false⟩ : layout_block) ∈ L := by
  unfold used_of at h
  rw [List.mem_filterMap] at h
  obtain ⟨b, hb, hx⟩ := h
  cases hf : b.free with
  | false =>
    rw [hf] at hx
    simp only [Bool.false_eq_true, if_false] at hx
    injection hx with hx
    subst hx
    simp only
    have : b = ⟨b.addr, b.size, false⟩ := by
      cases b; simp_all
    rw [← this]
    exact hb
  | true =>
    rw [hf] at hx
    simp at hx

theorem tiles_append (L1 L2 : List layout_block) (lo hi : Nat) :
    Tiles lo (L1 ++ L2) hi ↔ ∃ mid, Tiles lo L1 mid ∧ Tiles mid L2 hi := by
  induction L1 generalizing lo with
  | nil =>
    constructor
    · intro h; exact ⟨lo, rfl, h⟩
    · rintro ⟨mid, h1, h2⟩
      have : lo = mid := h1
      subst this
      exact h2
  | cons b L1 ih =>
    constructor
    · intro h
      obtain ⟨h1, h2, h3⟩ := h
      obtain ⟨mid, h4, h5⟩ := (ih _).1 h3
      exact ⟨mid, ⟨h1, h2, h4⟩, h5⟩
    · rintro ⟨mid, ⟨h1, h2, h4⟩, h5⟩
      exact ⟨h1, h2, (ih _).2 ⟨mid, h4, h5⟩⟩

theorem tiles_le {L : List layout_block} {lo hi : Nat} (h : Tiles lo L hi) : lo ≤ hi := by
  induction L generalizing lo with
  | nil =>
    have : lo = hi := h
    omega
  | cons b L ih =>
    have := ih h.2.2
    omega

theorem tiles_mem {L : List layout_block} {lo hi : Nat} (h : Tiles lo L hi) :
    ∀ b ∈ L, lo ≤ b.addr ∧ b.addr + b.size ≤ hi ∧ 0 < b.size := by
  induction L generalizing lo with
  | nil => intro b hb; simp at hb
  | cons x L ih =>
    intro b hb
    obtain ⟨h1, h2, h3⟩ := h
    rcases List.mem_cons.1 hb with hbx | hbL
    · subst hbx
      have := tiles_le h3
      omega
    · have := ih h3 b hbL
      omega

theorem tiles_sum {L : List layout_block} {lo hi : Nat} (h : Tiles lo L hi) :
    lo + sum_sizes (free_of L) + sum_sizes (used_of L) = hi := by
  induction L generalizing lo with
  | nil =>
    have : lo = hi := h
    simp [free_of_nil, used_of_nil, sum_sizes, this]
  | cons b L ih =>
    obtain ⟨h1, h2, h3⟩ := h
    have := ih h3
    rw [free_of_cons, used_of_cons]
    cases b.free <;> simp [sum_sizes] at this ⊢ <;> omega

theorem free_of_decomp (L : List layout_block) :
    ∀ (l1 : List free_node_t) (c : free_node_t) (l2 : List free_node_t),
      free_of L = l1 ++ c :: l2 →
      ∃ L1 L2, L = L1 ++ ⟨c.addr, c.size, true⟩ :: L2 ∧ free_of L1 = l1 ∧ free_of L2 = l2 := by
  induction L with
  | nil => intro l1 c l2 h; simp [free_of_nil] at h
  | cons b L ih =>
    intro l1 c l2 h
    rw [free_of_cons] at h
    cases hf : b.free with
    | true =>
      rw [hf] at h
      simp only [if_true] at h
      cases l1 with
      | nil =>
        simp only [List.nil_append] at h
        injection h with h1 h2
        refine ⟨[], L, ?_, rfl, h2⟩
        simp only [List.nil_append]
        congr 1
        subst h1
        cases b
        simp_all
      | cons x l1 =>
        simp only [List.cons_append] at h
        injection h with h1 h2
        obtain ⟨L1, L2, e1, e2, e3⟩ := ih l1 c l2 h2
        refine ⟨b :: L1, L2, by rw [e1]; rfl, ?_, e3⟩
        rw [free_of_cons, hf, e2, ← h1]
        rfl
    | false =>
      rw [hf] at h
      simp only [Bool.false_eq_true, if_false] at h
      obtain ⟨L1, L2, e1, e2, e3⟩ := ih l1 c l2 h
      refine ⟨b :: L1, L2, by rw [e1]; rfl, ?_, e3⟩
      rw [free_of_cons, hf, e2]
      rfl

theorem tiles_addr_lt {L1 L2 : List layout_block} {b : layout_block} {lo hi : Nat}
    (h : Tiles lo (L1 ++ b :: L2) hi) :
    (∀ x ∈ L1, x.addr + x.size ≤ b.addr ∧ 0 < x.size) ∧
      (∀ y ∈ L2, b.addr + b.size ≤ y.addr) ∧ 0 < b.size := by
  obtain ⟨mid, h1, h2⟩ := (tiles_append _ _ _ _).1 h
  obtain ⟨hb1, hb2, hb3⟩ := h2
  refine ⟨?_, ?_, hb2⟩
  · intro x hx
    have := tiles_mem h1 x hx
    omega
  · intro y hy
    have := tiles_mem hb3 y hy
    omega

theorem free_addr_nodup {L : List layout_block} {lo hi : Nat} (h : Tiles lo L hi) :
    ((free_of L).map (fun n => n.addr)).Nodup := by
  induction L generalizing lo with
  | nil => simp [free_of_nil]
  | cons b L ih =>
    obtain ⟨h1, h2, h3⟩ := h
    rw [free_of_cons]
    cases b.free with
    | false => exact ih h3
    | true =>
      simp only [if_true, List.map_cons, List.nodup_cons]
      refine ⟨?_, ih h3⟩
      intro hmem
      rw [List.mem_map] at hmem
      obtain ⟨x, hx, hxa⟩ := hmem
      have := tiles_mem h3 _ (mem_free_of hx)
      simp only at this hxa
      omega

end LayoutLemmas


section MergeLemmas

theorem merge_from_head (R : List layout_block) :
    ∀ cur, ∃ c' tl, merge_from cur R = c' :: tl ∧ c'.free = cur.free ∧ c'.addr = cur.addr := by
  induction R with
  | nil => intro cur; exact ⟨cur, [], rfl, rfl, rfl⟩
  | cons x rest ih =>
    intro cur
    unfold merge_from
    by_cases h : cur.free = true ∧ x.free = true
    · rw [if_pos h]
      obtain ⟨c', tl, h1, h2, h3⟩ := ih ⟨cur.addr, cur.size + x.size, true⟩
      exact ⟨c', tl, h1, by rw [h2, h.1], h3⟩
    · rw [if_neg h]
      exact ⟨cur, _, rfl, rfl, rfl⟩

theorem merge_from_tiles (R : List layout_block) :
    ∀ cur lo hi, Tiles lo (cur :: R) hi → Tiles lo (merge_from cur R) hi := by
  induction R with
  | nil => intro cur lo hi h; exact h
  | cons x rest ih =>
    intro cur lo hi h
    obtain ⟨h1, h2, h3, h4, h5⟩ := h
    unfold merge_from
    by_cases hm : cur.free = true ∧ x.free = true
    · rw [if_pos hm]
      apply ih
      refine ⟨h1, by simp only; omega, ?_⟩
      simp only
      rw [← Nat.add_assoc]
      exact h5
    · rw [if_neg hm]
      exact ⟨h1, h2, ih x _ hi ⟨h3, h4, h5⟩⟩

theorem merge_from_used (R : List layout_block) :
    ∀ cur, used_of (merge_from cur R) = used_of (cur :: R) := by
  induction R with
  | nil => intro cur; rfl
  | cons x rest ih =>
    intro cur
    unfold merge_from
    by_cases hm : cur.free = true ∧ x.free = true
    · rw [if_pos hm, ih]
      simp [used_of_cons, hm.1, hm.2]
    · rw [if_neg hm, used_of_cons, ih, used_of_cons cur]

theorem merge_from_noadj (R : List layout_block) :
    ∀ cur, NoAdjFree (merge_from cur R) := by
  induction R with
  | nil => intro cur; exact List.chain'_singleton _
  | cons x rest ih =>
    intro cur
    unfold merge_from
    by_cases hm : cur.free = true ∧ x.free = true
    · rw [if_pos hm]
      exact ih _
    · rw [if_neg hm]
      obtain ⟨c', tl, h1, h2, h3⟩ := merge_from_head rest x
      have := ih x
      rw [h1] at this ⊢
      unfold NoAdjFree at this ⊢
      rw [List.chain'_cons]
      exact ⟨by rw [h2]; exact hm, this⟩

theorem coalesce_eq_merge (R : List layout_block) :
    ∀ cur lo hi, Tiles lo (cur :: R) hi → hi < SIZE_MOD →
      free_of (merge_from cur R) =
        if cur.free then coalesce_from ⟨cur.addr, cur.size⟩ (free_of R)
        else coalesce_chain (free_of R) := by
  induction R with
  | nil =>
    intro cur lo hi _ _
    simp only [merge_from, free_of_cons, free_of_nil]
    cases cur.free <;> rfl
  | cons x rest ih =>
    intro cur lo hi h hhi
    obtain ⟨h1, h2, h3, h4, h5⟩ := h
    have hle := tiles_le h5
    unfold merge_from
    cases hc : cur.free with
    | true =>
      cases hx : x.free with
      | true =>
        simp only [and_self, if_true]
        rw [ih ⟨cur.addr, cur.size + x.size, true⟩ lo hi
          ⟨h1, by simp only; omega, by simp only; rw [← Nat.add_assoc]; exact h5⟩ hhi]
        simp only [if_true]
        rw [free_of_cons, hx]
        simp only [if_true]
        conv_rhs => unfold coalesce_from
        rw [if_pos (by simp only; omega)]
        simp only
        rw [Nat.mod_eq_of_lt (by omega)]
      | false =>
        simp only [Bool.false_eq_true, and_false, if_false]
        rw [free_of_cons, hc]
        simp only [if_true]
        rw [ih x (lo + cur.size) hi ⟨h3, h4, h5⟩ hhi, hx]
        simp only [Bool.false_eq_true, if_false]
        rw [free_of_cons, hx]
        simp only [Bool.false_eq_true, if_false]
        cases hfr : free_of rest with
        | nil => rfl
        | cons y r' =>
          have hy : y ∈ free_of rest := by rw [hfr]; exact List.mem_cons_self _ _
          have := tiles_mem h5 _ (mem_free_of hy)
          simp only at this
          conv_rhs => unfold coalesce_from
          rw [if_neg (by simp only; omega)]
          rfl
    | false =>
      simp only [Bool.false_eq_true, false_and, if_false]
      rw [free_of_cons, hc]
      simp only [Bool.false_eq_true, if_false]
      rw [ih x (lo + cur.size) hi ⟨h3, h4, h5⟩ hhi, free_of_cons]
      cases hx : x.free with
      | true => rfl
      | false => rfl

theorem coalesce_chain_eq_merge (L : List layout_block) (lo hi : Nat) (h : Tiles lo L hi)
    (hhi : hi < SIZE_MOD) : coalesce_chain (free_of L) = free_of (merge_layout L) := by
  cases L with
  | nil => rfl
  | cons b R =>
    show _ = free_of (merge_from b R)
    rw [coalesce_eq_merge R b lo hi h hhi, free_of_cons]
    cases b.free <;> rfl

theorem merge_layout_tiles (L : List layout_block) (lo hi : Nat) (h : Tiles lo L hi) :
    Tiles lo (merge_layout L) hi := by
  cases L with
  | nil => exact h
  | cons b R => exact merge_from_tiles R b lo hi h

theorem merge_layout_used (L : List layout_block) : used_of (merge_layout L) = used_of L := by
  cases L with
  | nil => rfl
  | cons b R => exact merge_from_used R b

theorem merge_layout_noadj (L : List layout_block) : NoAdjFree (merge_layout L) := by
  cases L with
  | nil => exact List.chain'_nil
  | cons b R => exact merge_from_noadj R b

end MergeLemmas


section InvSteps

theorem getLast?_ite (l1 : List free_node_t) :
    (if l1 = [] then (none : Option free_node_t) else l1.getLast?) = l1.getLast? := by
  by_cases h : l1 = []
  · subst h; rfl
  · rw [if_neg h]

theorem node_find_first_found (a : custom_list_allocator_s) (r : Nat)
    (pv : Option free_node_t) (f : free_node_t) (h : node_find_first a r = (pv, some f)) :
    ∃ l1 l2, a.free_list = l1 ++ f :: l2 ∧ pv = l1.getLast? ∧ r ≤ f.size ∧
      ∀ b ∈ l1, b.size < r := by
  unfold node_find_first at h
  by_cases hex : ∃ b ∈ a.free_list, r ≤ b.size
  · obtain ⟨l1, c, l2, h1, h2, h3, h4⟩ := first_loop_some r a.free_list none hex
    rw [h2, getLast?_ite] at h
    injection h with e1 e2
    injection e2 with e2
    subst e2
    exact ⟨l1, l2, h1, e1.symm, h4, h3⟩
  · rw [first_loop_none r a.free_list none (fun b hb => by
      by_contra hc
      exact hex ⟨b, hb, by omega⟩)] at h
    injection h with _ e2
    exact absurd e2 (by simp)

theorem node_find_best_found (a : custom_list_allocator_s) (r : Nat)
    (pv : Option free_node_t) (f : free_node_t) (h : node_find_best a r = (pv, some f)) :
    ∃ l1 l2, a.free_list = l1 ++ f :: l2 ∧ pv = l1.getLast? ∧ r ≤ f.size ∧
      f.size - r < SIZE_MAX ∧
      (∀ b ∈ l1, r ≤ b.size → f.size - r < b.size - r) ∧
      (∀ b ∈ l2, r ≤ b.size → f.size - r ≤ b.size - r) := by
  unfold node_find_best at h
  obtain ⟨hA, hB⟩ := best_loop_spec r a.free_list none none none SIZE_MAX
  by_cases hex : ∃ b ∈ a.free_list, r ≤ b.size ∧ b.size - r < SIZE_MAX
  · obtain ⟨l1, c, l2, h1, h2, h3, h4, h5, h6⟩ := hB hex
    rw [h2, getLast?_ite] at h
    injection h with e1 e2
    injection e2 with e2
    subst e2
    exact ⟨l1, l2, h1, e1.symm, h3, h4, h5, h6⟩
  · rw [hA (fun b hb hq => by
      by_contra hc
      exact hex ⟨b, hb, hq, by omega⟩)] at h
    injection h with _ e2
    exact absurd e2 (by simp)

theorem node_find_found (a : custom_list_allocator_s) (r : Nat)
    (pv : Option free_node_t) (f : free_node_t) (h : node_find a r = (pv, some f)) :
    ∃ l1 l2, a.free_list = l1 ++ f :: l2 ∧ pv = l1.getLast? ∧ r ≤ f.size := by
  unfold node_find at h
  cases hp : a.policy with
  | ALLOC_POLICY_FIRST_FIT =>
    rw [hp] at h
    obtain ⟨l1, l2, h1, h2, h3, _⟩ := node_find_first_found a r pv f h
    exact ⟨l1, l2, h1, h2, h3⟩
  | ALLOC_POLICY_BEST_FIT =>
    rw [hp] at h
    obtain ⟨l1, l2, h1, h2, h3, _⟩ := node_find_best_found a r pv f h
    exact ⟨l1, l2, h1, h2, h3⟩

theorem inv_create (heap_size : Nat) (policy : alloc_policy_t) (mem : Nat → Nat)
    (a : custom_list_allocator_s) (hb : heap_size ≤ PTRDIFF_MAX)
    (h : custom_list_alloc_create heap_size policy (some mem) = some a) :
    Inv a [] [⟨0, heap_size, true⟩] := by
  unfold custom_list_alloc_create at h
  by_cases hs : heap_size < sizeof_free_node_t + sizeof_size_t
  · rw [if_pos hs] at h
    exact absurd h (by simp)
  · rw [if_neg hs] at h
    simp only [Option.some.injEq] at h
    subst h
    have hpos : 0 < heap_size := by
      simp only [sizeof_free_node_t, sizeof_size_t] at hs
      omega
    refine ⟨⟨rfl, hpos, ?_⟩, rfl, ?_, ?_, List.chain'_singleton _, rfl, hb, hpos⟩
    · show 0 + heap_size = heap_size
      omega
    · exact List.Perm.refl _
    · intro b hb'
      simp [used_of] at hb'

theorem mod_sub_eq (x y : Nat) (hy : y ≤ x) (hx : x < SIZE_MOD) :
    (x + SIZE_MOD - y) % SIZE_MOD = x - y := by
  have : x + SIZE_MOD - y = (x - y) + SIZE_MOD := by omega
  rw [this, Nat.add_mod_right, Nat.mod_eq_of_lt (by omega)]

theorem sum_sizes_append (l1 l2 : List free_node_t) :
    sum_sizes (l1 ++ l2) = sum_sizes l1 + sum_sizes l2 := by
  simp [sum_sizes]

theorem sum_sizes_cons (b : free_node_t) (l : List free_node_t) :
    sum_sizes (b :: l) = b.size + sum_sizes l := by
  simp [sum_sizes]

theorem inv_free (a : custom_list_allocator_s) (out : List Nat) (L : List layout_block)
    (p : Nat) (hinv : Inv a out L) (hp : p ∈ out) :
    ∃ L', Inv (custom_list_free a (some p)) (out.erase p) L' := by
  have hmem := hinv.used_perm.subset hp
  rw [List.mem_map] at hmem
  obtain ⟨b, hb, hbp⟩ := hmem
  have hba : p - sizeof_size_t = b.addr := by
    omega
  have hhdr := hinv.header_eq b hb
  obtain ⟨L1, L2, hL⟩ := List.append_of_mem (mem_used_of hb)
  have htiles := hinv.tiles
  rw [hL] at htiles
  obtain ⟨ht1, ht2, ht3⟩ := tiles_addr_lt htiles
  have htiles' : Tiles 0 (L1 ++ ⟨b.addr, b.size, true⟩ :: L2) a.total_size := by
    rw [tiles_append] at htiles ⊢
    exact htiles
  have hbound : a.total_size < SIZE_MOD := by
    have := hinv.bound
    simp only [PTRDIFF_MAX, SIZE_MOD] at this ⊢
    omega
  have hfree : (custom_list_free a (some p)).free_list =
      free_of (merge_layout (L1 ++ ⟨b.addr, b.size, true⟩ :: L2)) := by
    rw [← coalesce_chain_eq_merge _ 0 a.total_size htiles' hbound]
    show coalesce_chain (insert_into_chain ⟨p - sizeof_size_t, a.header (p - sizeof_size_t)⟩
      a.free_list) = _
    rw [hba, hhdr, hinv.free_eq, hL, free_of_append, free_of_cons, free_of_append, free_of_cons]
    simp only [Bool.false_eq_true, if_false, if_true]
    rw [insert_into_chain_eq]
    · intro y hy
      have := ht1 _ (mem_free_of hy)
      simp only at this ⊢
      omega
    · intro y hy
      have := ht2 _ (mem_free_of hy)
      simp only at this ⊢
      omega
  have hused : used_of L = used_of L1 ++ b :: used_of L2 := by
    rw [hL, used_of_append, used_of_cons]
    rfl
  have hused' : used_of (merge_layout (L1 ++ ⟨b.addr, b.size, true⟩ :: L2)) =
      used_of L1 ++ used_of L2 := by
    rw [merge_layout_used, used_of_append, used_of_cons]
    rfl
  have hsum := tiles_sum hinv.tiles
  refine ⟨merge_layout (L1 ++ ⟨b.addr, b.size, true⟩ :: L2), ?_, hfree, ?_, ?_,
    merge_layout_noadj _, ?_, hinv.bound, hinv.pos⟩
  · exact merge_layout_tiles _ 0 _ htiles'
  · rw [hused']
    have h1 := hinv.used_perm
    rw [hused, List.map_append, List.map_cons, hbp] at h1
    have h2 := (h1.trans List.perm_middle).erase p
    rw [List.erase_cons_head] at h2
    rw [List.map_append]
    exact h2
  · intro x hx
    rw [hused'] at hx
    apply hinv.header_eq
    rw [hused]
    rcases List.mem_append.1 hx with h | h
    · exact List.mem_append_left _ h
    · exact List.mem_append_right _ (List.mem_cons_of_mem _ h)
  · rw [hused']
    show (a.used_size + SIZE_MOD - a.header (p - sizeof_size_t)) % SIZE_MOD = _
    rw [hba, hhdr, hinv.used_sum, hused, sum_sizes_append, sum_sizes_cons, sum_sizes_append]
    rw [hused, sum_sizes_append, sum_sizes_cons] at hsum
    rw [mod_sub_eq _ _ (by omega) (by omega)]
    omega

end InvSteps


section MallocStep

theorem noadj_take (L1 L2 M : List layout_block) (fa fs sz : Nat)
    (hM : M = [] ∨ M = [⟨fa + sz, fs - sz, true⟩])
    (h : NoAdjFree (L1 ++ ⟨fa, fs, true⟩ :: L2)) :
    NoAdjFree (L1 ++ ⟨fa, sz, false⟩ :: (M ++ L2)) := by
  unfold NoAdjFree at h ⊢
  rw [List.chain'_append] at h ⊢
  obtain ⟨h1, h2, h3⟩ := h
  rw [List.chain'_cons'] at h2
  refine ⟨h1, ?_, ?_⟩
  · rw [List.chain'_cons']
    constructor
    · intro y _
      simp
    · rcases hM with hM | hM
      · subst hM
        exact h2.2
      · subst hM
        simp only [List.singleton_append]
        rw [List.chain'_cons']
        exact ⟨fun y hy => h2.1 y hy, h2.2⟩
  · intro x _ y hy
    simp only [List.head?_cons, Option.mem_def, Option.some.injEq] at hy
    subst hy
    simp

theorem inv_take (a a1 : custom_list_allocator_s) (out : List Nat)
    (L1 L2 M : List layout_block) (fa fs sz : Nat)
    (hinv : Inv a out (L1 ++ ⟨fa, fs, true⟩ :: L2))
    (hM : (sz = fs ∧ M = []) ∨ (0 < sz ∧ sz < fs ∧ M = [⟨fa + sz, fs - sz, true⟩]))
    (h1t : a1.total_size = a.total_size) (h1p : a1.policy = a.policy)
    (h1f : a1.free_list = free_of L1 ++ (free_of M ++ free_of L2))
    (h1h : a1.header = Function.update a.header fa sz)
    (h1u : a1.used_size = (a.used_size + sz) % SIZE_MOD) :
    Inv a1 ((fa + sizeof_size_t) :: out) (L1 ++ ⟨fa, sz, false⟩ :: (M ++ L2)) := by
  have htiles := hinv.tiles
  obtain ⟨ht1, ht2, ht3⟩ := tiles_addr_lt htiles
  have ht3' : 0 < fs := ht3
  have hMu : used_of M = [] := by
    rcases hM with ⟨_, hM⟩ | ⟨_, _, hM⟩ <;> subst hM <;> rfl
  have htiles' : Tiles 0 (L1 ++ ⟨fa, sz, false⟩ :: (M ++ L2)) a.total_size := by
    rw [tiles_append] at htiles ⊢
    obtain ⟨mid, hA, hB1, hB2, hB3⟩ := htiles
    refine ⟨mid, hA, hB1, ?_, ?_⟩
    · have hB2' : 0 < fs := hB2
      show 0 < sz
      rcases hM with ⟨h, _⟩ | ⟨h, _, _⟩
      · omega
      · exact h
    · rcases hM with ⟨h1, h2⟩ | ⟨h1, h2, h3⟩
      · subst h1 h2
        exact hB3
      · subst h3
        simp only at hB1 hB3 ⊢
        subst hB1
        refine ⟨rfl, by simp only; omega, ?_⟩
        simp only
        have : fa + sz + (fs - sz) = fa + fs := by omega
        rw [this]
        exact hB3
  have hused : used_of (L1 ++ ⟨fa, fs, true⟩ :: L2) = used_of L1 ++ used_of L2 := by
    rw [used_of_append, used_of_cons]
    rfl
  have hused' : used_of (L1 ++ ⟨fa, sz, false⟩ :: (M ++ L2)) =
      used_of L1 ++ ⟨fa, sz⟩ :: used_of L2 := by
    rw [used_of_append, used_of_cons, used_of_append, hMu]
    rfl
  have hne : ∀ b ∈ used_of L1 ++ used_of L2, b.addr ≠ fa := by
    intro b hb
    rcases List.mem_append.1 hb with h | h
    · have := ht1 _ (mem_used_of h)
      simp only at this
      omega
    · have := ht2 _ (mem_used_of h)
      simp only at this
      omega
  have hsum := tiles_sum htiles'
  rw [hused', sum_sizes_append, sum_sizes_cons] at hsum
  have hbound : a.total_size < SIZE_MOD := by
    have := hinv.bound
    simp only [PTRDIFF_MAX, SIZE_MOD] at this ⊢
    omega
  refine ⟨by rw [h1t]; exact htiles', ?_, ?_, ?_, ?_, ?_, by rw [h1t]; exact hinv.bound,
    by rw [h1t]; exact hinv.pos⟩
  · rw [h1f, free_of_append, free_of_cons, free_of_append]
    rfl
  · rw [hused', List.map_append, List.map_cons]
    have h1 := hinv.used_perm
    rw [hused, List.map_append] at h1
    exact (List.Perm.cons _ h1).trans List.perm_middle.symm
  · intro b hb
    rw [hused'] at hb
    rw [h1h]
    rcases List.mem_append.1 hb with h | h
    · rw [Function.update_noteq (hne b (List.mem_append_left _ h))]
      exact hinv.header_eq b (by rw [hused]; exact List.mem_append_left _ h)
    · rcases List.mem_cons.1 h with h2 | h2
      · subst h2
        simp
      · rw [Function.update_noteq (hne b (List.mem_append_right _ h2))]
        exact hinv.header_eq b (by rw [hused]; exact List.mem_append_right _ h2)
  · apply noadj_take _ _ _ _ fs _ _ hinv.no_adj
    rcases hM with ⟨_, h⟩ | ⟨_, _, h⟩
    · exact Or.inl h
    · exact Or.inr h
  · rw [h1u, hinv.used_sum, hused, hused', sum_sizes_append, sum_sizes_append, sum_sizes_cons]
    have hsum' : 0 + sum_sizes (free_of (L1 ++ ⟨fa, sz, false⟩ :: (M ++ L2))) +
        (sum_sizes (used_of L1) + (sz + sum_sizes (used_of L2))) = a.total_size := hsum
    show (sum_sizes (used_of L1) + sum_sizes (used_of L2) + sz) % SIZE_MOD =
      sum_sizes (used_of L1) + (sz + sum_sizes (used_of L2))
    rw [Nat.mod_eq_of_lt (by omega)]
    omega

theorem remove_free_node_fields (a : custom_list_allocator_s) (pv : Option free_node_t)
    (f : free_node_t) :
    (remove_free_node a pv f).total_size = a.total_size ∧
      (remove_free_node a pv f).policy = a.policy ∧
      (remove_free_node a pv f).header = a.header ∧
      (remove_free_node a pv f).used_size = a.used_size := by
  cases pv <;> exact ⟨rfl, rfl, rfl, rfl⟩

theorem inv_malloc (a : custom_list_allocator_s) (out : List Nat) (L : List layout_block)
    (n : Nat) (a1 : custom_list_allocator_s) (p : Nat) (hinv : Inv a out L)
    (h : custom_list_malloc a n = (a1, some p)) :
    ∃ L', Inv a1 (p :: out) L' := by
  unfold custom_list_malloc at h
  by_cases hn : n = 0
  · rw [if_pos hn] at h
    injection h with _ h2
    exact absurd h2 (by simp)
  rw [if_neg hn] at h
  simp only at h
  have hr16 : sizeof_free_node_t ≤
      (if align_size ((n + sizeof_size_t) % SIZE_MOD) < sizeof_free_node_t
        then sizeof_free_node_t else align_size ((n + sizeof_size_t) % SIZE_MOD)) := by
    split <;> omega
  generalize (if align_size ((n + sizeof_size_t) % SIZE_MOD) < sizeof_free_node_t
        then sizeof_free_node_t else align_size ((n + sizeof_size_t) % SIZE_MOD)) = r at h hr16
  cases hfind : node_find a r with
  | mk pv cur =>
    rw [hfind] at h
    cases cur with
    | none =>
      simp only at h
      injection h with _ h2
      exact absurd h2 (by simp)
    | some f =>
      simp only at h
      obtain ⟨l1, l2, hl, hpv, hrf⟩ := node_find_found a r pv f hfind
      obtain ⟨L1, L2, hL, hL1, hL2⟩ := free_of_decomp L l1 f l2 (by rw [← hinv.free_eq, hl])
      subst hL
      have htiles := hinv.tiles
      obtain ⟨ht1, ht2, ht3⟩ := tiles_addr_lt htiles
      have hfmem := (tiles_mem htiles) ⟨f.addr, f.size, true⟩ (by simp)
      simp only at hfmem ht3
      have hb := hinv.bound
      have hnd : (a.free_list.map (fun x => x.addr)).Nodup := by
        rw [hinv.free_eq]
        exact free_addr_nodup htiles
      have hrem := remove_free_node_eq a pv f l1 l2 hl hpv hnd
      have h16 : sizeof_free_node_t = 16 := rfl
      obtain ⟨hrt, hrp, hrh, hru⟩ := remove_free_node_fields a pv f
      have hmod : (r + sizeof_free_node_t) % SIZE_MOD = r + sizeof_free_node_t := by
        apply Nat.mod_eq_of_lt
        simp only [PTRDIFF_MAX, SIZE_MOD] at hb ⊢
        omega
      rw [hmod] at h
      by_cases hsplit : f.size ≥ r + sizeof_free_node_t
      · rw [if_pos hsplit] at h
        injection h with h1 h2
        injection h2 with h2
        subst h1 h2
        have hsub : (f.size + SIZE_MOD - r) % SIZE_MOD = f.size - r := by
          apply mod_sub_eq _ _ hrf
          simp only [PTRDIFF_MAX, SIZE_MOD] at hb ⊢
          omega
        refine ⟨_, inv_take a _ out L1 L2 [⟨f.addr + r, f.size - r, true⟩] f.addr f.size r hinv
          (Or.inr ⟨by omega, by omega, rfl⟩) hrt hrp ?_
          (by show Function.update (remove_free_node a pv f).header _ _ = _; rw [hrh])
          (by show ((remove_free_node a pv f).used_size + r) % SIZE_MOD = _; rw [hru])⟩
        show insert_into_chain _ (remove_free_node a pv f).free_list = _
        rw [hrem, hsub, ← hL1, ← hL2, insert_into_chain_eq]
        · rfl
        · intro y hy
          have := ht1 _ (mem_free_of hy)
          simp only at this ⊢
          omega
        · intro y hy
          have := ht2 _ (mem_free_of hy)
          simp only at this ⊢
          omega
      · rw [if_neg hsplit] at h
        injection h with h1 h2
        injection h2 with h2
        subst h1 h2
        refine ⟨_, inv_take a _ out L1 L2 [] f.addr f.size f.size hinv
          (Or.inl ⟨rfl, rfl⟩) hrt hrp ?_
          (by show Function.update (remove_free_node a pv f).header _ _ = _; rw [hrh])
          (by show ((remove_free_node a pv f).used_size + f.size) % SIZE_MOD = _; rw [hru])⟩
        show (remove_free_node a pv f).free_list = _
        rw [hrem, ← hL1, ← hL2]
        rfl

theorem reachable_inv (a : custom_list_allocator_s) (out : List Nat) (h : Reachable a out) :
    ∃ L, Inv a out L := by
  induction h with
  | create heap_size policy mem a hb hc => exact ⟨_, inv_create heap_size policy mem a hb hc⟩
  | malloc a out n a1 p _ _ hm ih =>
    obtain ⟨L, hL⟩ := ih
    exact inv_malloc a out L n a1 p hL hm
  | free a out p _ hp ih =>
    obtain ⟨L, hL⟩ := ih
    exact inv_free a out L p hL hp

end MallocStep


section Runs

theorem run_created_reachable : Reachable run_created [] :=
  Reachable.create 1024 .ALLOC_POLICY_FIRST_FIT (fun _ => 0) run_created (by decide) rfl

theorem run_m1_reachable : Reachable run_m1 [8] :=
  Reachable.malloc run_created [] 100 run_m1 8 run_created_reachable (by decide) rfl

theorem run_m2_reachable : Reachable run_m2 [120, 8] :=
  Reachable.malloc run_m1 [8] 100 run_m2 120 run_m1_reachable (by decide) rfl

theorem run_f2_reachable : Reachable run_f2 [8] :=
  Reachable.free run_m2 [120, 8] 120 run_m2_reachable (by decide)

theorem run_f2_f1_reachable : Reachable run_f2_f1 [] :=
  Reachable.free run_f2 [8] 8 run_f2_reachable (by decide)

theorem run_f1_reachable : Reachable run_f1 [120] :=
  Reachable.free run_m2 [120, 8] 8 run_m2_reachable (by decide)

theorem best_created_reachable : Reachable best_created [] :=
  Reachable.create 1024 .ALLOC_POLICY_BEST_FIT (fun _ => 0) best_created (by decide) rfl

theorem best_m1_reachable : Reachable best_m1 [8] :=
  Reachable.malloc best_created [] 100 best_m1 8 best_created_reachable (by decide) rfl

theorem best_m2_reachable : Reachable best_m2 [120, 8] :=
  Reachable.malloc best_m1 [8] 100 best_m2 120 best_m1_reachable (by decide) rfl

theorem best_f1_reachable : Reachable best_f1 [120] :=
  Reachable.free best_m2 [120, 8] 8 best_m2_reachable (by decide)

end Runs


section ClaimLemmas

theorem free_sorted {L : List layout_block} {lo hi : Nat} (h : Tiles lo L hi) :
    (free_of L).Pairwise (fun x y => x.addr + x.size ≤ y.addr) := by
  induction L generalizing lo with
  | nil => simp [free_of_nil]
  | cons b L ih =>
    obtain ⟨h1, h2, h3⟩ := h
    rw [free_of_cons]
    cases b.free with
    | false => exact ih h3
    | true =>
      simp only [if_true, List.pairwise_cons]
      refine ⟨?_, ih h3⟩
      intro y hy
      have := tiles_mem h3 _ (mem_free_of hy)
      simp only at this ⊢
      omega

theorem nodes_perm (L : List layout_block) :
    (free_of L ++ used_of L).Perm (L.map node_of) := by
  induction L with
  | nil => exact List.Perm.refl _
  | cons b L ih =>
    rw [free_of_cons, used_of_cons, List.map_cons]
    cases b.free with
    | true => exact List.Perm.cons _ ih
    | false =>
      simp only [Bool.false_eq_true, if_false]
      exact List.perm_middle.trans (List.Perm.cons _ ih)

theorem nodes_pairwise {L : List layout_block} {lo hi : Nat} (h : Tiles lo L hi) :
    (L.map node_of).Pairwise Disjoint := by
  induction L generalizing lo with
  | nil => simp
  | cons b L ih =>
    obtain ⟨h1, h2, h3⟩ := h
    rw [List.map_cons, List.pairwise_cons]
    refine ⟨?_, ih h3⟩
    intro y hy
    rw [List.mem_map] at hy
    obtain ⟨x, hx, hxy⟩ := hy
    subst hxy
    have := tiles_mem h3 x hx
    left
    show b.addr + b.size ≤ x.addr
    omega

theorem nodes_cover {L : List layout_block} {lo hi : Nat} (h : Tiles lo L hi) :
    ∀ x, lo ≤ x → x < hi → ∃ b ∈ L.map node_of, b.addr ≤ x ∧ x < b.addr + b.size := by
  induction L generalizing lo with
  | nil =>
    intro x h1 h2
    have : lo = hi := h
    omega
  | cons b L ih =>
    intro x hx1 hx2
    obtain ⟨h1, h2, h3⟩ := h
    by_cases hx : x < lo + b.size
    · exact ⟨node_of b, List.mem_cons_self _ _, by show b.addr ≤ x; omega,
        by show x < b.addr + b.size; omega⟩
    · obtain ⟨c, hc, hc1, hc2⟩ := ih h3 x (by omega) hx2
      exact ⟨c, List.mem_cons_of_mem _ hc, hc1, hc2⟩

theorem out_blocks_perm {a : custom_list_allocator_s} {out : List Nat} {L : List layout_block}
    (hinv : Inv a out L) : (out.map (block_of a)).Perm (used_of L) := by
  have h1 := hinv.used_perm.map (block_of a)
  rw [List.map_map] at h1
  have h2 : (used_of L).map (block_of a ∘ fun b => b.addr + sizeof_size_t) = used_of L := by
    conv_rhs => rw [← List.map_id (used_of L)]
    apply List.map_congr_left
    intro b hb
    show (⟨b.addr + sizeof_size_t - sizeof_size_t,
      a.header (b.addr + sizeof_size_t - sizeof_size_t)⟩ : free_node_t) = b
    rw [Nat.add_sub_cancel, hinv.header_eq b hb]
  rw [h2] at h1
  exact h1

theorem all_blocks_perm {a : custom_list_allocator_s} {out : List Nat} {L : List layout_block}
    (hinv : Inv a out L) : (all_blocks a out).Perm (L.map node_of) := by
  unfold all_blocks
  rw [hinv.free_eq]
  exact (List.Perm.append_left _ (out_blocks_perm hinv)).trans (nodes_perm L)

theorem all_free_single {L : List layout_block} {hi : Nat} (ht : Tiles 0 L hi) (hpos : 0 < hi)
    (hu : used_of L = []) (hn : NoAdjFree L) : L = [⟨0, hi, true⟩] := by
  have hfree : ∀ b ∈ L, b.free = true := by
    intro b hb
    cases hf : b.free with
    | true => rfl
    | false =>
      exfalso
      obtain ⟨s, t, hst⟩ := List.append_of_mem hb
      rw [hst, used_of_append, used_of_cons, hf] at hu
      simp at hu
  cases L with
  | nil =>
    have : 0 = hi := ht
    omega
  | cons b1 L =>
    cases L with
    | nil =>
      obtain ⟨h1, h2, h3⟩ := ht
      have h3' : 0 + b1.size = hi := h3
      have hf := hfree b1 (List.mem_cons_self _ _)
      cases b1
      simp_all
    | cons b2 L =>
      exfalso
      unfold NoAdjFree at hn
      rw [List.chain'_cons] at hn
      exact hn.1 ⟨hfree b1 (by simp), hfree b2 (by simp)⟩

theorem sum_sizes_perm {l1 l2 : List free_node_t} (h : l1.Perm l2) :
    sum_sizes l1 = sum_sizes l2 := by
  unfold sum_sizes
  exact (h.map _).sum_eq

end ClaimLemmas


section AllocateLemmas

theorem custom_list_malloc_eq (a : custom_list_allocator_s) (n : Nat) :
    custom_list_malloc a n =
      if n = 0 then (a, none)
      else
        match node_find a (required_size n) with
        | (_, none) => (a, none)
        | (prev_found, some found_node) =>
          if found_node.size ≥ (required_size n + sizeof_free_node_t) % SIZE_MOD then
            ({ insert_free_node (remove_free_node a prev_found found_node)
                  ⟨found_node.addr + required_size n,
                    (found_node.size + SIZE_MOD - required_size n) % SIZE_MOD⟩ with
                header := Function.update (insert_free_node
                  (remove_free_node a prev_found found_node)
                  ⟨found_node.addr + required_size n,
                    (found_node.size + SIZE_MOD - required_size n) % SIZE_MOD⟩).header
                  found_node.addr (required_size n)
                used_size := ((insert_free_node (remove_free_node a prev_found found_node)
                  ⟨found_node.addr + required_size n,
                    (found_node.size + SIZE_MOD - required_size n) % SIZE_MOD⟩).used_size +
                  required_size n) % SIZE_MOD },
              some (found_node.addr + sizeof_size_t))
          else
            ({ remove_free_node a prev_found found_node with
                header := Function.update (remove_free_node a prev_found found_node).header
                  found_node.addr found_node.size
                used_size := ((remove_free_node a prev_found found_node).used_size +
                  found_node.size) % SIZE_MOD },
              some (found_node.addr + sizeof_size_t)) := rfl

theorem malloc_null_iff (a : custom_list_allocator_s) (n : Nat) :
    (custom_list_malloc a n).2 = none ↔ n = 0 ∨ (node_find a (required_size n)).2 = none := by
  rw [custom_list_malloc_eq]
  by_cases hn : n = 0
  · simp [hn]
  · rw [if_neg hn]
    cases hfind : node_find a (required_size n) with
    | mk pv cur =>
      cases cur with
      | none => simp [hn]
      | some f =>
        simp only [hn, false_or]
        split <;> simp

end AllocateLemmas


section MallocDetail

theorem required_size_ge (n : Nat) : sizeof_free_node_t ≤ required_size n := by
  unfold required_size
  split <;> omega

theorem required_size_eq_max (n : Nat) :
    required_size n = max (align_size ((n + sizeof_size_t) % SIZE_MOD)) sizeof_free_node_t := by
  unfold required_size
  split <;> omega

theorem malloc_step (a : custom_list_allocator_s) (out : List Nat) (L : List layout_block)
    (n : Nat) (a1 : custom_list_allocator_s) (p : Nat) (hinv : Inv a out L)
    (h : custom_list_malloc a n = (a1, some p)) :
    ∃ pv f l1 l2, node_find a (required_size n) = (pv, some f) ∧
      a.free_list = l1 ++ f :: l2 ∧ required_size n ≤ f.size ∧
      p = f.addr + sizeof_size_t ∧ a1.total_size = a.total_size ∧ a1.policy = a.policy ∧
      (required_size n + sizeof_free_node_t ≤ f.size →
        a1.free_list = l1 ++ ⟨f.addr + required_size n, f.size - required_size n⟩ :: l2 ∧
        a1.header = Function.update a.header f.addr (required_size n) ∧
        a1.used_size = a.used_size + required_size n) ∧
      (f.size < required_size n + sizeof_free_node_t →
        a1.free_list = l1 ++ l2 ∧
        a1.header = Function.update a.header f.addr f.size ∧
        a1.used_size = a.used_size + f.size) := by
  rw [custom_list_malloc_eq] at h
  by_cases hn : n = 0
  · rw [if_pos hn] at h
    injection h with _ h2
    exact absurd h2 (by simp)
  rw [if_neg hn] at h
  have hr16 := required_size_ge n
  generalize required_size n = r at h hr16
  cases hfind : node_find a r with
  | mk pv cur =>
    rw [hfind] at h
    cases cur with
    | none =>
      simp only at h
      injection h with _ h2
      exact absurd h2 (by simp)
    | some f =>
      simp only at h
      obtain ⟨l1, l2, hl, hpv, hrf⟩ := node_find_found a r pv f hfind
      obtain ⟨L1, L2, hL, hL1, hL2⟩ := free_of_decomp L l1 f l2 (by rw [← hinv.free_eq, hl])
      subst hL
      have htiles := hinv.tiles
      obtain ⟨ht1, ht2, ht3⟩ := tiles_addr_lt htiles
      have hfmem := (tiles_mem htiles) ⟨f.addr, f.size, true⟩ (by simp)
      simp only at hfmem ht3
      have hb := hinv.bound
      have hsum := tiles_sum htiles
      rw [free_of_append, free_of_cons, sum_sizes_append] at hsum
      simp only [if_true, sum_sizes_cons] at hsum
      rw [← hinv.used_sum] at hsum
      have hnd : (a.free_list.map (fun x => x.addr)).Nodup := by
        rw [hinv.free_eq]
        exact free_addr_nodup htiles
      have hrem := remove_free_node_eq a pv f l1 l2 hl hpv hnd
      have h16 : sizeof_free_node_t = 16 := rfl
      obtain ⟨hrt, hrp, hrh, hru⟩ := remove_free_node_fields a pv f
      have hmod : (r + sizeof_free_node_t) % SIZE_MOD = r + sizeof_free_node_t := by
        apply Nat.mod_eq_of_lt
        simp only [PTRDIFF_MAX, SIZE_MOD] at hb ⊢
        omega
      rw [hmod] at h
      refine ⟨pv, f, l1, l2, rfl, hl, hrf, ?_⟩
      by_cases hsplit : f.size ≥ r + sizeof_free_node_t
      · rw [if_pos hsplit] at h
        injection h with h1 h2
        injection h2 with h2
        subst h1 h2
        have hsub : (f.size + SIZE_MOD - r) % SIZE_MOD = f.size - r := by
          apply mod_sub_eq _ _ hrf
          simp only [PTRDIFF_MAX, SIZE_MOD] at hb ⊢
          omega
        refine ⟨rfl, hrt, hrp, ?_, ?_⟩
        · intro _
          refine ⟨?_, ?_, ?_⟩
          · show insert_into_chain _ (remove_free_node a pv f).free_list = _
            rw [hrem, hsub, insert_into_chain_eq]
            · intro y hy
              have := ht1 _ (mem_free_of (by rw [hL1]; exact hy))
              simp only at this ⊢
              omega
            · intro y hy
              have := ht2 _ (mem_free_of (by rw [hL2]; exact hy))
              simp only at this ⊢
              omega
          · show Function.update (remove_free_node a pv f).header _ _ = _
            rw [hrh]
          · show ((remove_free_node a pv f).used_size + r) % SIZE_MOD = _
            rw [hru]
            apply Nat.mod_eq_of_lt
            simp only [PTRDIFF_MAX, SIZE_MOD] at hb ⊢
            omega
        · intro hlt
          omega
      · rw [if_neg hsplit] at h
        injection h with h1 h2
        injection h2 with h2
        subst h1 h2
        refine ⟨rfl, hrt, hrp, ?_, ?_⟩
        · intro hge
          omega
        · intro _
          refine ⟨hrem, ?_, ?_⟩
          · show Function.update (remove_free_node a pv f).header _ _ = _
            rw [hrh]
          · show ((remove_free_node a pv f).used_size + f.size) % SIZE_MOD = _
            rw [hru]
            apply Nat.mod_eq_of_lt
            simp only [PTRDIFF_MAX, SIZE_MOD] at hb ⊢
            omega

theorem free_gap {L : List layout_block} {lo hi : Nat} (h : Tiles lo L hi)
    (hn : NoAdjFree L) :
    (free_of L).Pairwise (fun x y => x.addr + x.size < y.addr) := by
  induction L generalizing lo with
  | nil => simp [free_of_nil]
  | cons b L ih =>
    obtain ⟨h1, h2, h3⟩ := h
    have hn' : NoAdjFree L := List.Chain'.tail hn
    rw [free_of_cons]
    cases hf : b.free with
    | false => exact ih h3 hn'
    | true =>
      simp only [if_true, List.pairwise_cons]
      refine ⟨?_, ih h3 hn'⟩
      intro y hy
      cases L with
      | nil => simp [free_of_nil] at hy
      | cons c L2 =>
        have hbc : ¬ (b.free = true ∧ c.free = true) := (List.chain'_cons.1 hn).1
        have hcf : c.free = false := by
          cases hc : c.free with
          | false => rfl
          | true => exact absurd ⟨hf, hc⟩ hbc
        rw [free_of_cons, hcf] at hy
        simp only [Bool.false_eq_true, if_false] at hy
        obtain ⟨g1, g2, g3⟩ := h3
        have := tiles_mem g3 _ (mem_free_of hy)
        simp only at this ⊢
        omega

end MallocDetail


section AlignLemmas

theorem land_mask (x : Nat) (hx : x < 2 ^ 64) : x &&& (2 ^ 64 - 1 - 7) = x / 8 * 8 := by
  apply Nat.eq_of_testBit_eq
  intro i
  have h8 : x / 8 * 8 = (x >>> 3) <<< 3 := by
    rw [Nat.shiftRight_eq_div_pow, Nat.shiftLeft_eq]
  rw [h8, Nat.testBit_land, Nat.testBit_shiftLeft, Nat.testBit_shiftRight]
  have hm : (2 ^ 64 - 1 - 7 : Nat) = 2 ^ 64 - (7 + 1) := by norm_num
  rw [hm, Nat.testBit_two_pow_sub_succ (by norm_num)]
  have h7 : Nat.testBit 7 i = decide (i < 3) := by
    have : (7 : Nat) = 2 ^ 3 - 1 := by norm_num
    rw [this, Nat.testBit_two_pow_sub_one]
  rw [h7]
  by_cases h3 : i < 3
  · simp [h3]
  · have h3' : 3 ≤ i := by omega
    have e : 3 + (i - 3) = i := by omega
    by_cases h64 : i < 64
    · simp [h3, h64, h3', e]
    · have : x.testBit i = false := by
        apply Nat.testBit_lt_two_pow
        calc x < 2 ^ 64 := hx
          _ ≤ 2 ^ i := Nat.pow_le_pow_right (by norm_num) (by omega)
      simp [h3, h64, h3', e, this]

theorem align_size_eq (size : Nat) : align_size size = (size + 7) % SIZE_MOD / 8 * 8 := by
  have h := land_mask ((size + 7) % 2 ^ 64) (Nat.mod_lt _ (by norm_num))
  exact h

theorem align_size_round_up (size : Nat) (h : size + 7 < SIZE_MOD) :
    align_size size = (size + 7) / 8 * 8 ∧ size ≤ align_size size ∧
      align_size size < size + 8 ∧ align_size size % 8 = 0 := by
  rw [align_size_eq, Nat.mod_eq_of_lt h]
  refine ⟨rfl, ?_, ?_, ?_⟩ <;> omega

theorem required_size_round_up (n : Nat) (h : n + 15 < SIZE_MOD) :
    required_size n = max ((n + 15) / 8 * 8) 16 ∧ n + sizeof_size_t ≤ required_size n := by
  have h1 : (n + sizeof_size_t) % SIZE_MOD = n + 8 := by
    apply Nat.mod_eq_of_lt
    show n + 8 < SIZE_MOD
    omega
  have h2 := align_size_round_up (n + 8) (by omega)
  rw [required_size_eq_max, h1]
  have h3 : sizeof_free_node_t = 16 := rfl
  have h4 : sizeof_size_t = 8 := rfl
  rw [h3, h4]
  obtain ⟨e1, e2, e3, e4⟩ := h2
  rw [e1] at e2 e3 e4 ⊢
  have e5 : n + 8 + 7 = n + 15 := by omega
  rw [e5] at e2 e3 e4 ⊢
  refine ⟨rfl, ?_⟩
  omega

theorem malloc_block_covers_request (a : custom_list_allocator_s) (out : List Nat)
    (h : Reachable a out) (n : Nat) (a1 : custom_list_allocator_s) (p : Nat)
    (hn : n + 15 < SIZE_MOD) (hm : custom_list_malloc a n = (a1, some p)) :
    n + sizeof_size_t ≤ (block_of a1 p).size := by
  obtain ⟨L, hinv⟩ := reachable_inv a out h
  obtain ⟨pv, f, l1, l2, hfind, hl, hrf, hp, _, _, hsplit, hwhole⟩ :=
    malloc_step a out L n a1 p hinv hm
  have hr := (required_size_round_up n hn).2
  have hblock : ∀ s, a1.header = Function.update a.header f.addr s →
      (block_of a1 p).size = s := by
    intro s hs
    unfold block_of
    rw [hp, hs, Nat.add_sub_cancel, Function.update_same]
  by_cases hc : required_size n + sizeof_free_node_t ≤ f.size
  · rw [hblock _ (hsplit hc).2.1]
    exact hr
  · rw [hblock _ (hwhole (by omega)).2.1]
    omega

end AlignLemmas


section LayoutUnique

theorem used_addr_ge {L : List layout_block} {lo hi : Nat} (h : Tiles lo L hi) :
    ∀ u ∈ used_of L, lo ≤ u.addr := by
  intro u hu
  have := tiles_mem h _ (mem_used_of hu)
  simp only at this
  omega

theorem free_head_end {b : layout_block} {L : List layout_block} {lo hi : Nat}
    (h : Tiles lo (b :: L) hi) (hf : b.free = true) (hn : NoAdjFree (b :: L)) :
    lo + b.size = ((used_of L).head?.map (fun u => u.addr)).getD hi := by
  obtain ⟨h1, h2, h3⟩ := h
  cases L with
  | nil =>
    have : lo + b.size = hi := h3
    simp [used_of_nil, this]
  | cons c L2 =>
    have hbc : ¬ (b.free = true ∧ c.free = true) := (List.chain'_cons.1 hn).1
    have hcf : c.free = false := by
      cases hc : c.free with
      | false => rfl
      | true => exact absurd ⟨hf, hc⟩ hbc
    obtain ⟨g1, g2, g3⟩ := h3
    rw [used_of_cons, hcf]
    simp only [Bool.false_eq_true, if_false, List.head?_cons, Option.map_some', Option.getD_some]
    exact g1.symm

theorem layout_unique (L : List layout_block) :
    ∀ (L2 : List layout_block) (lo hi : Nat), Tiles lo L hi → Tiles lo L2 hi →
      NoAdjFree L → NoAdjFree L2 → used_of L = used_of L2 → L = L2 := by
  induction L with
  | nil =>
    intro L2 lo hi h1 h2 _ _ _
    have hlo : lo = hi := h1
    cases L2 with
    | nil => rfl
    | cons b2 L2 =>
      obtain ⟨g1, g2, g3⟩ := h2
      have := tiles_le g3
      omega
  | cons b L ih =>
    intro L2 lo hi h1 h2 n1 n2 hu
    cases L2 with
    | nil =>
      have hlo : lo = hi := h2
      obtain ⟨g1, g2, g3⟩ := h1
      have := tiles_le g3
      omega
    | cons b2 L2 =>
      have h1' := h1
      have h2' := h2
      obtain ⟨a1, a2, a3⟩ := h1
      obtain ⟨c1, c2, c3⟩ := h2
      have hb : b = b2 := by
        cases hf : b.free with
        | false =>
          cases hf2 : b2.free with
          | false =>
            rw [used_of_cons, used_of_cons, hf, hf2] at hu
            simp only [Bool.false_eq_true, if_false, List.cons.injEq, free_node_t.mk.injEq] at hu
            cases b
            cases b2
            simp only at hf hf2 hu
            simp only [layout_block.mk.injEq]
            exact ⟨hu.1.1, hu.1.2, by rw [hf, hf2]⟩
          | true =>
            exfalso
            rw [used_of_cons, used_of_cons, hf, hf2] at hu
            simp only [Bool.false_eq_true, if_false, if_true] at hu
            have hm : (⟨b.addr, b.size⟩ : free_node_t) ∈ used_of L2 := by
              rw [← hu]
              exact List.mem_cons_self _ _
            have := used_addr_ge c3 _ hm
            simp only at this
            omega
        | true =>
          cases hf2 : b2.free with
          | false =>
            exfalso
            rw [used_of_cons, used_of_cons, hf, hf2] at hu
            simp only [Bool.false_eq_true, if_false, if_true] at hu
            have hm : (⟨b2.addr, b2.size⟩ : free_node_t) ∈ used_of L := by
              rw [hu]
              exact List.mem_cons_self _ _
            have := used_addr_ge a3 _ hm
            simp only at this
            omega
          | true =>
            have e1 := free_head_end h1' hf n1
            have e2 := free_head_end h2' hf2 n2
            rw [used_of_cons, used_of_cons, hf, hf2] at hu
            simp only [if_true] at hu
            rw [hu] at e1
            cases b
            cases b2
            simp only at hf hf2 a1 c1 e1 e2
            simp only [layout_block.mk.injEq]
            exact ⟨by omega, by omega, by rw [hf, hf2]⟩
      subst hb
      have hu' : used_of L = used_of L2 := by
        rw [used_of_cons, used_of_cons] at hu
        cases hf : b.free with
        | false =>
          rw [hf] at hu
          simp only [Bool.false_eq_true, if_false, List.cons.injEq] at hu
          exact hu.2
        | true =>
          rw [hf] at hu
          simpa using hu
      rw [ih L2 (lo + b.size) hi a3 c3 (List.Chain'.tail n1) (List.Chain'.tail n2) hu']

end LayoutUnique

section FreeAfterMalloc

theorem free_explicit (a : custom_list_allocator_s) (out : List Nat)
    (L1 L2 : List layout_block) (ba bs p : Nat)
    (hinv : Inv a out (L1 ++ ⟨ba, bs, false⟩ :: L2)) (hp : p = ba + sizeof_size_t) :
    (custom_list_free a (some p)).free_list =
        free_of (merge_layout (L1 ++ ⟨ba, bs, true⟩ :: L2)) ∧
      (custom_list_free a (some p)).used_size + bs = a.used_size ∧
      Tiles 0 (L1 ++ ⟨ba, bs, true⟩ :: L2) a.total_size := by
  have hba : p - sizeof_size_t = ba := by omega
  have hbmem : (⟨ba, bs⟩ : free_node_t) ∈ used_of (L1 ++ ⟨ba, bs, false⟩ :: L2) := by
    rw [used_of_append, used_of_cons]
    simp
  have hhdr : a.header ba = bs := hinv.header_eq _ hbmem
  have htiles := hinv.tiles
  obtain ⟨ht1, ht2, ht3⟩ := tiles_addr_lt htiles
  have htiles' : Tiles 0 (L1 ++ ⟨ba, bs, true⟩ :: L2) a.total_size := by
    rw [tiles_append] at htiles ⊢
    exact htiles
  have hbound : a.total_size < SIZE_MOD := by
    have := hinv.bound
    simp only [PTRDIFF_MAX, SIZE_MOD] at this ⊢
    omega
  refine ⟨?_, ?_, htiles'⟩
  · rw [← coalesce_chain_eq_merge _ 0 a.total_size htiles' hbound]
    show coalesce_chain (insert_into_chain ⟨p - sizeof_size_t, a.header (p - sizeof_size_t)⟩
      a.free_list) = _
    rw [hba, hhdr, hinv.free_eq, free_of_append, free_of_cons, free_of_append, free_of_cons]
    simp only [Bool.false_eq_true, if_false, if_true]
    rw [insert_into_chain_eq]
    · intro y hy
      have := ht1 _ (mem_free_of hy)
      simp only at this ⊢
      omega
    · intro y hy
      have := ht2 _ (mem_free_of hy)
      simp only at this ⊢
      omega
  · have hsum := tiles_sum hinv.tiles
    have hus := hinv.used_sum
    rw [used_of_append, used_of_cons, sum_sizes_append] at hsum hus
    simp only [Bool.false_eq_true, if_false, sum_sizes_cons] at hsum hus
    show (a.used_size + SIZE_MOD - a.header (p - sizeof_size_t)) % SIZE_MOD + bs = _
    rw [hba, hhdr, mod_sub_eq _ _ (by omega) (by omega)]
    omega

theorem malloc_then_free (a : custom_list_allocator_s) (out : List Nat) (L : List layout_block)
    (n : Nat) (a1 : custom_list_allocator_s) (p : Nat) (hinv : Inv a out L)
    (hm : custom_list_malloc a n = (a1, some p)) :
    (custom_list_free a1 (some p)).free_list = a.free_list ∧
      (custom_list_free a1 (some p)).used_size = a.used_size := by
  obtain ⟨pv, f, l1, l2, hfind, hl, hrf, hp, ht, hpol, hsplit, hwhole⟩ :=
    malloc_step a out L n a1 p hinv hm
  obtain ⟨L1, L2, hL, hL1, hL2⟩ := free_of_decomp L l1 f l2 (by rw [← hinv.free_eq, hl])
  subst hL
  have hr16 := required_size_ge n
  have h16 : sizeof_free_node_t = 16 := rfl
  have hb := hinv.bound
  have hfin : ∀ (sz : Nat) (M : List layout_block),
      ((sz = f.size ∧ M = []) ∨
        (0 < sz ∧ sz < f.size ∧ M = [⟨f.addr + sz, f.size - sz, true⟩])) →
      a1.free_list = free_of L1 ++ (free_of M ++ free_of L2) →
      a1.header = Function.update a.header f.addr sz →
      a1.used_size = a.used_size + sz →
      (custom_list_free a1 (some p)).free_list = a.free_list ∧
        (custom_list_free a1 (some p)).used_size = a.used_size := by
    intro sz M hM h1f h1h h1u
    have hsum := tiles_sum hinv.tiles
    rw [free_of_append, free_of_cons, sum_sizes_append] at hsum
    simp only [if_true, sum_sizes_cons] at hsum
    rw [← hinv.used_sum] at hsum
    have hszle : sz ≤ f.size := by
      rcases hM with ⟨h1, _⟩ | ⟨_, h2, _⟩ <;> omega
    have h1u' : a1.used_size = (a.used_size + sz) % SIZE_MOD := by
      rw [h1u]
      symm
      apply Nat.mod_eq_of_lt
      simp only [PTRDIFF_MAX, SIZE_MOD] at hb ⊢
      omega
    have hinv1 := inv_take a a1 out L1 L2 M f.addr f.size sz hinv hM ht hpol h1f h1h h1u'
    obtain ⟨e1, e2, e3⟩ := free_explicit a1 _ L1 (M ++ L2) f.addr sz p hinv1 hp
    have hMu : used_of M = [] := by
      rcases hM with ⟨_, h2⟩ | ⟨_, _, h2⟩ <;> rw [h2] <;> rfl
    have huniq : merge_layout (L1 ++ ⟨f.addr, sz, true⟩ :: (M ++ L2)) =
        L1 ++ ⟨f.addr, f.size, true⟩ :: L2 := by
      apply layout_unique _ _ 0 a.total_size
      · have := merge_layout_tiles _ 0 _ e3
        rw [ht] at this
        exact this
      · exact hinv.tiles
      · exact merge_layout_noadj _
      · exact hinv.no_adj
      · rw [merge_layout_used, used_of_append, used_of_cons, used_of_append, hMu,
          used_of_append, used_of_cons]
        rfl
    constructor
    · rw [e1, huniq, hinv.free_eq]
    · omega
  by_cases hc : required_size n + sizeof_free_node_t ≤ f.size
  · obtain ⟨g1, g2, g3⟩ := hsplit hc
    refine hfin (required_size n) [⟨f.addr + required_size n, f.size - required_size n, true⟩]
      (Or.inr ⟨by omega, by omega, rfl⟩) ?_ g2 g3
    rw [g1, hL1, hL2]
    rfl
  · obtain ⟨g1, g2, g3⟩ := hwhole (by omega)
    refine hfin f.size [] (Or.inl ⟨rfl, rfl⟩) ?_ g2 g3
    rw [g1, hL1, hL2]
    rfl

end FreeAfterMalloc

end custom_list
namespace custom_list

section Claims

/-- C6: in every allocator state reached from `custom_list_alloc_create`
(either policy) by successful `custom_list_malloc` calls and
`custom_list_free` calls on outstanding addresses, once no allocation is
outstanding the free list is exactly one block that starts at the heap start
and spans the total heap size, and `used_size` is 0. -/
theorem all_freed_gives_single_block (a : custom_list_allocator_s) (h : Reachable a []) :
    a.free_list = [⟨0, a.total_size⟩] ∧ a.used_size = 0 := by
  obtain ⟨L, hinv⟩ := reachable_inv a [] h
  have hu : used_of L = [] := by
    have := hinv.used_perm
    have h2 := List.Perm.nil_eq this
    exact List.map_eq_nil_iff.1 h2.symm
  have hL := all_free_single hinv.tiles hinv.pos hu hinv.no_adj
  constructor
  · rw [hinv.free_eq, hL]
    rfl
  · rw [hinv.used_sum, hu]
    rfl

/-- Instance of C6 (scenario C): heap 1024, `malloc(100)`, `malloc(100)`,
free the second block, free the first block; one free block of size 1024
remains. -/
theorem all_freed_gives_single_block_witness :
    Reachable run_f2_f1 [] ∧ run_f2_f1.free_list = [⟨0, 1024⟩] ∧ run_f2_f1.used_size = 0 :=
  ⟨run_f2_f1_reachable, all_freed_gives_single_block run_f2_f1 run_f2_f1_reachable⟩

/-- C7: in every reachable allocator state the free blocks and the
outstanding allocated blocks (header included) partition the heap
`[0, total_size)`: every block is non-empty and lies inside the heap, any
two of them are disjoint, and every byte of the heap lies in one of them. -/
theorem blocks_partition_heap (a : custom_list_allocator_s) (out : List Nat)
    (h : Reachable a out) :
    (∀ b ∈ all_blocks a out, 0 < b.size ∧ b.addr + b.size ≤ a.total_size) ∧
      (all_blocks a out).Pairwise Disjoint ∧
      ∀ x, x < a.total_size → ∃ b ∈ all_blocks a out, b.addr ≤ x ∧ x < b.addr + b.size := by
  obtain ⟨L, hinv⟩ := reachable_inv a out h
  have hperm := all_blocks_perm hinv
  refine ⟨?_, ?_, ?_⟩
  · intro b hb
    have hb' := hperm.subset hb
    rw [List.mem_map] at hb'
    obtain ⟨x, hx, hxb⟩ := hb'
    subst hxb
    have := tiles_mem hinv.tiles x hx
    exact ⟨this.2.2, this.2.1⟩
  · have hsymm : ∀ x y : free_node_t, Disjoint x y → Disjoint y x := by
      intro x y hxy
      exact hxy.symm
    exact (hperm.pairwise_iff (fun {x y} => hsymm x y)).2 (nodes_pairwise hinv.tiles)
  · intro x hx
    obtain ⟨b, hb, hb1, hb2⟩ := nodes_cover hinv.tiles x (Nat.zero_le _) hx
    exact ⟨b, hperm.symm.subset hb, hb1, hb2⟩

/-- Instance of C7: the state after `malloc(100)`, `malloc(100)` and the
release of the first block, with the second block outstanding. -/
theorem blocks_partition_heap_witness :
    Reachable run_f1 [120] ∧
    (∀ b ∈ all_blocks run_f1 [120], 0 < b.size ∧ b.addr + b.size ≤ run_f1.total_size) ∧
      (all_blocks run_f1 [120]).Pairwise Disjoint ∧
      ∀ x, x < run_f1.total_size →
        ∃ b ∈ all_blocks run_f1 [120], b.addr ≤ x ∧ x < b.addr + b.size :=
  ⟨run_f1_reachable, blocks_partition_heap run_f1 [120] run_f1_reachable⟩

/-- C8: in every reachable allocator state the sizes of the blocks in the
free list plus `used_size` add up to `total_size`, and `used_size` is the sum
of the sizes of the outstanding allocated blocks. -/
theorem free_plus_used_is_total (a : custom_list_allocator_s) (out : List Nat)
    (h : Reachable a out) :
    sum_sizes a.free_list + a.used_size = a.total_size ∧
      a.used_size = sum_sizes (out.map (block_of a)) := by
  obtain ⟨L, hinv⟩ := reachable_inv a out h
  have hsum := tiles_sum hinv.tiles
  constructor
  · rw [hinv.free_eq, hinv.used_sum]
    omega
  · rw [hinv.used_sum, sum_sizes_perm (out_blocks_perm hinv)]

/-- Instance of C8: the state after two `malloc(100)` calls on a heap of 1024
bytes. -/
theorem free_plus_used_is_total_witness :
    Reachable run_m2 [120, 8] ∧
    sum_sizes run_m2.free_list + run_m2.used_size = run_m2.total_size ∧
      run_m2.used_size = sum_sizes ([120, 8].map (block_of run_m2)) :=
  ⟨run_m2_reachable, free_plus_used_is_total run_m2 [120, 8] run_m2_reachable⟩

end Claims


section FindClaims

/-- C9: in every reachable allocator state and for every required size `r`,
`node_find_first` (which `node_find` runs under `ALLOC_POLICY_FIRST_FIT`)
returns no block exactly when no free block has size at least `r`; a block it
returns is a free block of size at least `r`, no qualifying free block has a
lower address, and the returned predecessor is that block's predecessor in
the free list. -/
theorem first_fit_lowest_address (a : custom_list_allocator_s) (out : List Nat)
    (h : Reachable a out) (r : Nat) :
    (a.policy = .ALLOC_POLICY_FIRST_FIT → node_find a r = node_find_first a r) ∧
    ((node_find_first a r).2 = none ↔ ∀ b ∈ a.free_list, b.size < r) ∧
    ∀ c, (node_find_first a r).2 = some c →
      c ∈ a.free_list ∧ r ≤ c.size ∧
      (∀ b ∈ a.free_list, r ≤ b.size → c.addr ≤ b.addr) ∧
      FoundAt a.free_list (node_find_first a r).1 c := by
  obtain ⟨L, hinv⟩ := reachable_inv a out h
  have hsorted := free_sorted hinv.tiles
  rw [← hinv.free_eq] at hsorted
  refine ⟨?_, ?_, ?_⟩
  · intro hp
    unfold node_find
    rw [hp]
  · constructor
    · intro hnone b hb
      by_contra hc
      obtain ⟨l1, c, l2, _, h2, _, _⟩ := first_loop_some r a.free_list none ⟨b, hb, by omega⟩
      unfold node_find_first at hnone
      rw [h2] at hnone
      exact absurd hnone (by simp)
    · intro hall
      unfold node_find_first
      rw [first_loop_none r a.free_list none hall]
  · intro c hc
    obtain ⟨l1, l2, h1, h2, h3, h4⟩ := node_find_first_found a r (node_find_first a r).1 c
      (by rw [← hc])
    refine ⟨by rw [h1]; simp, h3, ?_, ⟨l1, l2, h1, h2⟩⟩
    intro b hb hbq
    rw [h1] at hb hsorted
    rcases List.mem_append.1 hb with hb1 | hb1
    · have := h4 b hb1
      omega
    · rcases List.mem_cons.1 hb1 with hb2 | hb2
      · rw [hb2]
      · have := (List.pairwise_cons.1 (List.pairwise_append.1 hsorted).2.1).1 b hb2
        omega

/-- Instance of C9: free list `[(0,112), (224,800)]`, required size 200. -/
theorem first_fit_lowest_address_witness :
    Reachable run_f1 [120] ∧
    (run_f1.policy = .ALLOC_POLICY_FIRST_FIT → node_find run_f1 200 = node_find_first run_f1 200) ∧
    ((node_find_first run_f1 200).2 = none ↔ ∀ b ∈ run_f1.free_list, b.size < 200) ∧
    ∀ c, (node_find_first run_f1 200).2 = some c →
      c ∈ run_f1.free_list ∧ 200 ≤ c.size ∧
      (∀ b ∈ run_f1.free_list, 200 ≤ b.size → c.addr ≤ b.addr) ∧
      FoundAt run_f1.free_list (node_find_first run_f1 200).1 c :=
  ⟨run_f1_reachable, first_fit_lowest_address run_f1 [120] run_f1_reachable 200⟩

/-- C10: in every reachable allocator state and for every required size
`r`, `node_find_best` (which `node_find` runs under `ALLOC_POLICY_BEST_FIT`)
returns no block exactly when no free block has size at least `r`; a block it
returns is a free block of size at least `r` whose leftover `size - r` is
minimal over all qualifying free blocks, it has the lowest address among the
qualifying blocks with that leftover, and the returned predecessor is that
block's predecessor in the free list. -/
theorem best_fit_minimal_leftover (a : custom_list_allocator_s) (out : List Nat)
    (h : Reachable a out) (r : Nat) :
    (a.policy = .ALLOC_POLICY_BEST_FIT → node_find a r = node_find_best a r) ∧
    ((node_find_best a r).2 = none ↔ ∀ b ∈ a.free_list, b.size < r) ∧
    ∀ c, (node_find_best a r).2 = some c →
      c ∈ a.free_list ∧ r ≤ c.size ∧
      (∀ b ∈ a.free_list, r ≤ b.size → c.size - r ≤ b.size - r) ∧
      (∀ b ∈ a.free_list, r ≤ b.size → b.size - r = c.size - r → c.addr ≤ b.addr) ∧
      FoundAt a.free_list (node_find_best a r).1 c := by
  obtain ⟨L, hinv⟩ := reachable_inv a out h
  have hsorted := free_sorted hinv.tiles
  rw [← hinv.free_eq] at hsorted
  have hsmall : ∀ b ∈ a.free_list, b.size < SIZE_MAX := by
    intro b hb
    rw [hinv.free_eq] at hb
    have h1 := tiles_mem hinv.tiles _ (mem_free_of hb)
    have h2 := hinv.bound
    simp only [PTRDIFF_MAX, SIZE_MAX] at h1 h2 ⊢
    omega
  obtain ⟨hA, hB⟩ := best_loop_spec r a.free_list none none none SIZE_MAX
  refine ⟨?_, ?_, ?_⟩
  · intro hp
    unfold node_find
    rw [hp]
  · constructor
    · intro hnone b hb
      by_contra hc
      have := hsmall b hb
      obtain ⟨l1, c, l2, _, h2, _⟩ := hB ⟨b, hb, by omega, by omega⟩
      unfold node_find_best at hnone
      rw [h2] at hnone
      exact absurd hnone (by simp)
    · intro hall
      unfold node_find_best
      rw [hA (fun b hb hq => by have := hall b hb; omega)]
  · intro c hc
    obtain ⟨l1, l2, h1, h2, h3, _, h5, h6⟩ := node_find_best_found a r (node_find_best a r).1 c
      (by rw [← hc])
    refine ⟨by rw [h1]; simp, h3, ?_, ?_, ⟨l1, l2, h1, h2⟩⟩
    · intro b hb hbq
      rw [h1] at hb
      rcases List.mem_append.1 hb with hb1 | hb1
      · exact le_of_lt (h5 b hb1 hbq)
      · rcases List.mem_cons.1 hb1 with hb2 | hb2
        · rw [hb2]
        · exact h6 b hb2 hbq
    · intro b hb hbq heq
      rw [h1] at hb hsorted
      rcases List.mem_append.1 hb with hb1 | hb1
      · have := h5 b hb1 hbq
        omega
      · rcases List.mem_cons.1 hb1 with hb2 | hb2
        · rw [hb2]
        · have := (List.pairwise_cons.1 (List.pairwise_append.1 hsorted).2.1).1 b hb2
          omega

/-- Instance of C10: free list `[(0,112), (224,800)]`, required size 64. -/
theorem best_fit_minimal_leftover_witness :
    Reachable best_f1 [120] ∧
    (best_f1.policy = .ALLOC_POLICY_BEST_FIT → node_find best_f1 64 = node_find_best best_f1 64) ∧
    ((node_find_best best_f1 64).2 = none ↔ ∀ b ∈ best_f1.free_list, b.size < 64) ∧
    ∀ c, (node_find_best best_f1 64).2 = some c →
      c ∈ best_f1.free_list ∧ 64 ≤ c.size ∧
      (∀ b ∈ best_f1.free_list, 64 ≤ b.size → c.size - 64 ≤ b.size - 64) ∧
      (∀ b ∈ best_f1.free_list, 64 ≤ b.size → b.size - 64 = c.size - 64 → c.addr ≤ b.addr) ∧
      FoundAt best_f1.free_list (node_find_best best_f1 64).1 c :=
  ⟨best_f1_reachable, best_fit_minimal_leftover best_f1 [120] best_f1_reachable 64⟩

end FindClaims


section AllocateClaims

/-- C11: `smpl_alloc<T>::allocate(n)` bound to an arena either returns the
address that `custom_list_malloc` produced for `n * sizeof(T)` bytes, which is
an address and not `NULL`, or throws: `bad_alloc` when `n * sizeof(T)` does
not fit `size_t`, `runtime_error` when the size fits and no arena is set,
`bad_alloc` when `custom_list_malloc` returns `NULL`; and
`custom_list_malloc` returns `NULL` exactly for a zero-byte request or when
`node_find` finds no block. -/
theorem allocate_returns_address_or_throws (sizeof_T : Nat)
    (inst : Option custom_list_allocator_s) (n : Nat) :
    (n > SIZE_MAX / sizeof_T → smpl_alloc_allocate sizeof_T inst n = .error .bad_alloc) ∧
    (n ≤ SIZE_MAX / sizeof_T → inst = none →
      smpl_alloc_allocate sizeof_T inst n = .error .runtime_error) ∧
    (∀ a, n ≤ SIZE_MAX / sizeof_T → inst = some a →
      n * sizeof_T ≤ SIZE_MAX ∧
      ((custom_list_malloc a (n * sizeof_T)).2 = none →
        smpl_alloc_allocate sizeof_T inst n = .error .bad_alloc) ∧
      (∀ p, (custom_list_malloc a (n * sizeof_T)).2 = some p →
        smpl_alloc_allocate sizeof_T inst n = .ok ((custom_list_malloc a (n * sizeof_T)).1, p)) ∧
      ((custom_list_malloc a (n * sizeof_T)).2 = none ↔
        n * sizeof_T = 0 ∨ (node_find a (required_size (n * sizeof_T))).2 = none)) := by
  refine ⟨?_, ?_, ?_⟩
  · intro h
    unfold smpl_alloc_allocate
    rw [if_pos h]
  · intro h hi
    unfold smpl_alloc_allocate
    rw [if_neg (by omega), hi]
  · intro a h hi
    have hle : n * sizeof_T ≤ SIZE_MAX := by
      calc n * sizeof_T ≤ (SIZE_MAX / sizeof_T) * sizeof_T := Nat.mul_le_mul_right _ h
        _ ≤ SIZE_MAX := Nat.div_mul_le_self _ _
    have hmod : (n * sizeof_T) % SIZE_MOD = n * sizeof_T := by
      apply Nat.mod_eq_of_lt
      simp only [SIZE_MAX, SIZE_MOD] at hle ⊢
      omega
    refine ⟨hle, ?_, ?_, malloc_null_iff a _⟩
    · intro hnone
      unfold smpl_alloc_allocate
      rw [if_neg (by omega), hi, hmod]
      simp only
      cases hm : custom_list_malloc a (n * sizeof_T) with
      | mk a1 r =>
        rw [hm] at hnone
        simp only at hnone
        subst hnone
        rfl
    · intro p hsome
      unfold smpl_alloc_allocate
      rw [if_neg (by omega), hi, hmod]
      simp only
      cases hm : custom_list_malloc a (n * sizeof_T) with
      | mk a1 r =>
        rw [hm] at hsome
        simp only at hsome
        subst hsome
        rfl

/-- C12, evaluated at the failing input: on the freshly created heap of 1024
bytes `custom_list_malloc(alloc, SIZE_MAX)` does not return `NULL`.  The sum
`user_size + sizeof(size_t)` wraps around to 7, the required size becomes 16,
and the call hands out address 8 in a block whose recorded size is 16. -/
theorem malloc_size_overflow_hands_out_small_block :
    required_size SIZE_MAX = 16 ∧ run_overflow.2 = some 8 ∧ run_overflow.1.header 0 = 16 ∧
      run_overflow.1.used_size = 16 ∧ run_overflow.1.free_list = [⟨16, 1008⟩] := by
  decide

/-- C15 (scenario B): on the first-fit heap of 1024 bytes, after
`p1 = malloc(100)` (address 8), `p2 = malloc(100)` (address 120) and
`free(p1)`, the free list is `[(0,112), (224,800)]`; `malloc(50)` returns
address 8, which is `p1`, and the free block `(224,800)` behind the block of
`p2` keeps its address and size. -/
theorem freed_block_is_reused_first_fit :
    (custom_list_malloc run_created 100).2 = some 8 ∧
    (custom_list_malloc run_m1 100).2 = some 120 ∧
    run_f1.free_list = [⟨0, 112⟩, ⟨224, 800⟩] ∧
    run_reuse.2 = some 8 ∧
    run_reuse.1.free_list = [⟨64, 48⟩, ⟨224, 800⟩] := by
  decide

end AllocateClaims


section AllocateInstances

/-- Instance of C11: `smpl_alloc<uint32_t>::allocate(25)` on the freshly
created first-fit heap of 1024 bytes returns address 8, the address that
`custom_list_malloc(alloc, 100)` hands out. -/
theorem allocate_returns_address_or_throws_witness :
    smpl_alloc_allocate 4 (some run_created) 25 = .ok (run_m1, 8) :=
  ((allocate_returns_address_or_throws 4 (some run_created) 25).2.2 run_created
    (by decide) rfl).2.2.1 8 (by decide)

end AllocateInstances


section StepLemmas

theorem reachable_gap (a : custom_list_allocator_s) (out : List Nat) (h : Reachable a out) :
    a.free_list.Pairwise (fun x y => x.addr + x.size < y.addr) := by
  obtain ⟨L, hinv⟩ := reachable_inv a out h
  rw [hinv.free_eq]
  exact free_gap hinv.tiles hinv.no_adj

theorem malloc_null_state (a a1 : custom_list_allocator_s) (n : Nat)
    (h : custom_list_malloc a n = (a1, none)) : a1 = a := by
  rw [custom_list_malloc_eq] at h
  by_cases hn : n = 0
  · rw [if_pos hn] at h
    injection h with h1 _
    exact h1.symm
  · rw [if_neg hn] at h
    cases hfind : node_find a (required_size n) with
    | mk pv cur =>
      rw [hfind] at h
      cases cur with
      | none =>
        simp only at h
        injection h with h1 _
        exact h1.symm
      | some f =>
        simp only at h
        split at h <;>
        · injection h with _ h2
          exact absurd h2 (by simp)

end StepLemmas


section StepClaims

/-- C18: in every reachable allocator state the free list is strictly sorted
by ascending address and every free block ends strictly before each later
free block begins, so that no free block ends exactly where the next one
begins; the same holds for the state after a `custom_list_free` of an
outstanding address and for the state after any `custom_list_malloc`. -/
theorem free_list_sorted_and_coalesced (a : custom_list_allocator_s) (out : List Nat)
    (h : Reachable a out) :
    a.free_list.Pairwise (fun x y => x.addr < y.addr) ∧
    a.free_list.Pairwise (fun x y => x.addr + x.size < y.addr) ∧
    a.free_list.Chain' (fun x y => x.addr + x.size ≠ y.addr) ∧
    (∀ p ∈ out, (custom_list_free a (some p)).free_list.Pairwise
      (fun x y => x.addr + x.size < y.addr)) ∧
    (∀ n, n ≤ SIZE_MAX → (custom_list_malloc a n).1.free_list.Pairwise
      (fun x y => x.addr + x.size < y.addr)) := by
  have hgap := reachable_gap a out h
  refine ⟨?_, hgap, ?_, ?_, ?_⟩
  · exact hgap.imp (fun {x y} hxy => by omega)
  · exact List.Pairwise.chain' (hgap.imp (fun {x y} hxy => by omega))
  · intro p hp
    exact reachable_gap _ _ (Reachable.free a out p h hp)
  · intro n hn
    cases hm : custom_list_malloc a n with
    | mk a1 r =>
      cases r with
      | none =>
        rw [malloc_null_state a a1 n hm]
        exact hgap
      | some p => exact reachable_gap _ _ (Reachable.malloc a out n a1 p h hn hm)

/-- Instance of C18: the state after `malloc(100)`, `malloc(100)`, `free(p1)`
on the heap of 1024 bytes, whose free list is `[(0,112), (224,800)]`. -/
theorem free_list_sorted_and_coalesced_witness :
    Reachable run_f1 [120] ∧
    run_f1.free_list.Pairwise (fun x y => x.addr < y.addr) ∧
    run_f1.free_list.Pairwise (fun x y => x.addr + x.size < y.addr) ∧
    run_f1.free_list.Chain' (fun x y => x.addr + x.size ≠ y.addr) ∧
    (∀ p ∈ [120], (custom_list_free run_f1 (some p)).free_list.Pairwise
      (fun x y => x.addr + x.size < y.addr)) ∧
    (∀ n, n ≤ SIZE_MAX → (custom_list_malloc run_f1 n).1.free_list.Pairwise
      (fun x y => x.addr + x.size < y.addr)) :=
  ⟨run_f1_reachable, free_list_sorted_and_coalesced run_f1 [120] run_f1_reachable⟩

/-- C20: in every reachable allocator state, when `custom_list_malloc(n)`
returns an address `p`, then `n > 0` and, with
`r = max(align_size(n + sizeof(size_t)), sizeof(free_node_t))` (which is
`n + 8` rounded up to a multiple of 8, and at least 16, unless `n + 15`
overflows) and `f` the free block that `node_find` chose,
`p = f.addr + sizeof(size_t)`.  If
`f.size ≥ r + sizeof(free_node_t)` the free list is the old one with `f`
replaced in place by the block at `f.addr + r` of size `f.size - r`, the
header written at `f.addr` is `r` and `used_size` grows by `r`; otherwise `f`
is removed from the free list, the header written is `f.size` and `used_size`
grows by `f.size`.  All other free blocks stay as they were. -/
theorem malloc_splits_or_takes_whole_block (a : custom_list_allocator_s) (out : List Nat)
    (h : Reachable a out) (n : Nat) (a1 : custom_list_allocator_s) (p : Nat)
    (hm : custom_list_malloc a n = (a1, some p)) :
    0 < n ∧
    required_size n = max (align_size ((n + sizeof_size_t) % SIZE_MOD)) sizeof_free_node_t ∧
    (n + 15 < SIZE_MOD → required_size n = max ((n + 15) / 8 * 8) 16) ∧
    ∃ f l1 l2, (node_find a (required_size n)).2 = some f ∧
      a.free_list = l1 ++ f :: l2 ∧ required_size n ≤ f.size ∧
      p = f.addr + sizeof_size_t ∧
      (required_size n + sizeof_free_node_t ≤ f.size →
        a1.free_list = l1 ++ ⟨f.addr + required_size n, f.size - required_size n⟩ :: l2 ∧
        block_of a1 p = ⟨f.addr, required_size n⟩ ∧
        a1.used_size = a.used_size + required_size n) ∧
      (f.size < required_size n + sizeof_free_node_t →
        a1.free_list = l1 ++ l2 ∧
        block_of a1 p = ⟨f.addr, f.size⟩ ∧
        a1.used_size = a.used_size + f.size) := by
  obtain ⟨L, hinv⟩ := reachable_inv a out h
  obtain ⟨pv, f, l1, l2, hfind, hl, hrf, hp, _, _, hsplit, hwhole⟩ :=
    malloc_step a out L n a1 p hinv hm
  have hblock : ∀ s, a1.header = Function.update a.header f.addr s →
      block_of a1 p = ⟨f.addr, s⟩ := by
    intro s hs
    unfold block_of
    rw [hp, hs, Nat.add_sub_cancel, Function.update_same]
  refine ⟨?_, required_size_eq_max n, fun hn => (required_size_round_up n hn).1, f, l1, l2,
    by rw [hfind], hl, hrf, hp, ?_, ?_⟩
  · rcases Nat.eq_zero_or_pos n with h0 | h0
    · subst h0
      have : custom_list_malloc a 0 = (a, none) := rfl
      rw [this] at hm
      injection hm with _ h2
      exact absurd h2 (by simp)
    · exact h0
  · intro hge
    obtain ⟨g1, g2, g3⟩ := hsplit hge
    exact ⟨g1, hblock _ g2, g3⟩
  · intro hlt
    obtain ⟨g1, g2, g3⟩ := hwhole hlt
    exact ⟨g1, hblock _ g2, g3⟩

/-- Instance of C20: `malloc(50)` in the state after `malloc(100)`,
`malloc(100)`, `free(p1)` on the heap of 1024 bytes: `r` is 64 and the block
`(0,112)` is split. -/
theorem malloc_splits_or_takes_whole_block_witness :
    Reachable run_f1 [120] ∧ custom_list_malloc run_f1 50 = (run_reuse.1, some 8) ∧
    0 < 50 ∧
    required_size 50 = max (align_size ((50 + sizeof_size_t) % SIZE_MOD)) sizeof_free_node_t ∧
    (50 + 15 < SIZE_MOD → required_size 50 = max ((50 + 15) / 8 * 8) 16) ∧
    ∃ f l1 l2, (node_find run_f1 (required_size 50)).2 = some f ∧
      run_f1.free_list = l1 ++ f :: l2 ∧ required_size 50 ≤ f.size ∧
      8 = f.addr + sizeof_size_t ∧
      (required_size 50 + sizeof_free_node_t ≤ f.size →
        run_reuse.1.free_list =
          l1 ++ ⟨f.addr + required_size 50, f.size - required_size 50⟩ :: l2 ∧
        block_of run_reuse.1 8 = ⟨f.addr, required_size 50⟩ ∧
        run_reuse.1.used_size = run_f1.used_size + required_size 50) ∧
      (f.size < required_size 50 + sizeof_free_node_t →
        run_reuse.1.free_list = l1 ++ l2 ∧
        block_of run_reuse.1 8 = ⟨f.addr, f.size⟩ ∧
        run_reuse.1.used_size = run_f1.used_size + f.size) :=
  ⟨run_f1_reachable, rfl,
    malloc_splits_or_takes_whole_block run_f1 [120] run_f1_reachable 50 run_reuse.1 8 rfl⟩

end StepClaims


section RoundTripClaim

/-- C22: in every reachable allocator state (either policy), when
`custom_list_malloc(n)` returns an address `p`, an immediate
`custom_list_free(p)` gives back the free list as it was before the malloc
(the same blocks, with the same addresses and sizes, in the same order) and
the same `used_size`; `total_size` and the policy are unchanged as well. -/
theorem malloc_then_free_restores (a : custom_list_allocator_s) (out : List Nat)
    (h : Reachable a out) (n : Nat) (a1 : custom_list_allocator_s) (p : Nat)
    (hm : custom_list_malloc a n = (a1, some p)) :
    (custom_list_free a1 (some p)).free_list = a.free_list ∧
    (custom_list_free a1 (some p)).used_size = a.used_size ∧
    (custom_list_free a1 (some p)).total_size = a.total_size ∧
    (custom_list_free a1 (some p)).policy = a.policy := by
  obtain ⟨L, hinv⟩ := reachable_inv a out h
  obtain ⟨h1, h2⟩ := malloc_then_free a out L n a1 p hinv hm
  obtain ⟨_, _, _, _, _, _, _, _, ht, hp, _, _⟩ := malloc_step a out L n a1 p hinv hm
  exact ⟨h1, h2, ht, hp⟩

/-- Instance of C22: in the state with the free list `[(0,112), (224,800)]`
(after `malloc(100)`, `malloc(100)`, `free(p1)` on the heap of 1024 bytes),
`malloc(50)` splits the first block and returns address 8; freeing it merges
the two parts again. -/
theorem malloc_then_free_restores_witness :
    Reachable run_f1 [120] ∧ custom_list_malloc run_f1 50 = (run_reuse.1, some 8) ∧
    run_reuse.1.free_list = [⟨64, 48⟩, ⟨224, 800⟩] ∧
    (custom_list_free run_reuse.1 (some 8)).free_list = run_f1.free_list ∧
    (custom_list_free run_reuse.1 (some 8)).used_size = run_f1.used_size ∧
    (custom_list_free run_reuse.1 (some 8)).total_size = run_f1.total_size ∧
    (custom_list_free run_reuse.1 (some 8)).policy = run_f1.policy :=
  ⟨run_f1_reachable, rfl, by decide,
    malloc_then_free_restores run_f1 [120] run_f1_reachable 50 run_reuse.1 8 rfl⟩

end RoundTripClaim

end custom_list
namespace btree

open custom_list

section MemBasics
variable {T : Type}

theorem eraseList_eq_map (cs : List (Option (MNode T))) :
    MNode.eraseList cs = cs.map (Option.map MNode.erase) := by
  induction cs with
  | nil => rfl
  | cons c cs ih =>
    cases c with
    | none => simp [MNode.eraseList, ih]
    | some c => simp [MNode.eraseList, ih]

theorem erase_keys (m : MNode T) : m.erase.keys_ = m.keys_ := by
  cases m; rfl

theorem erase_childs (m : MNode T) : m.erase.childs_ = m.childs_.map (Option.map MNode.erase) := by
  cases m
  simp [MNode.erase, BTreeNode.childs_, MNode.childs_, eraseList_eq_map]

theorem erase_keys_count (m : MNode T) : m.erase.keys_count_ = m.keys_count_ := by
  cases m; rfl

theorem erase_leaf (m : MNode T) : m.erase.leaf_ = m.leaf_ := by
  cases m; rfl

theorem erase_mk (s : node_storage) (ks : List T) (cs : List (Option (MNode T))) (n : Nat)
    (l : Bool) :
    (MNode.mk s ks cs n l).erase = .mk ks (cs.map (Option.map MNode.erase)) n l := by
  simp [MNode.erase, eraseList_eq_map]

theorem erase_eta (m : MNode T) :
    m.erase = .mk m.keys_ (m.childs_.map (Option.map MNode.erase)) m.keys_count_ m.leaf_ := by
  cases m
  simp [MNode.erase, eraseList_eq_map, MNode.keys_, MNode.childs_, MNode.keys_count_,
    MNode.leaf_]

theorem sumBlocks_append (A B : List (Option (MNode T))) :
    MNode.sumBlocks (A ++ B) = MNode.sumBlocks A ++ MNode.sumBlocks B := by
  induction A with
  | nil => rfl
  | cons c A ih =>
    cases c with
    | none => simpa [MNode.sumBlocks] using ih
    | some c => simp [MNode.sumBlocks, ih]

theorem blocksList_eq (k : Nat) (cs : List (Option (MNode T))) :
    MNode.blocksList k cs = MNode.sumBlocks (cs.take k) := by
  induction k generalizing cs with
  | zero => simp [MNode.blocksList, MNode.sumBlocks]
  | succ k ih =>
    cases cs with
    | nil => simp [MNode.blocksList, MNode.sumBlocks]
    | cons c cs =>
      cases c with
      | none => simp [MNode.blocksList, MNode.sumBlocks, ih]
      | some c => simp [MNode.blocksList, MNode.sumBlocks, ih]

theorem blocks_eq (m : MNode T) :
    m.blocks = (if m.leaf_ then [] else MNode.sumBlocks m.liveChilds) ++ m.own := by
  cases m with
  | mk s ks cs n l =>
    simp only [MNode.blocks, blocksList_eq, MNode.liveChilds, MNode.own, MNode.leaf_,
      MNode.childs_, MNode.keys_count_, MNode.storage]

theorem deallocate_bound (a : custom_list_allocator_s) (p : Nat) :
    smpl_alloc_deallocate (some a) (some p) = some (custom_list_free a (some p)) := rfl

theorem deleteNodeM_eq (a : custom_list_allocator_s) (s : node_storage) :
    some (deleteNodeM a s) =
      ((smpl_alloc_deallocate (some a) (some s.keys)).bind
        (fun a1 => smpl_alloc_deallocate (some a1) (some s.childs))).bind
        (fun a2 => smpl_alloc_deallocate (some a2) (some s.node)) := rfl

theorem freeAll_append (a : custom_list_allocator_s) (l1 l2 : List Nat) :
    freeAll a (l1 ++ l2) = freeAll (freeAll a l1) l2 := by
  induction l1 generalizing a with
  | nil => rfl
  | cons p l1 ih => simp [freeAll, ih]

mutual
theorem clearM_eq : ∀ (m : MNode T) (a : custom_list_allocator_s),
    clearM a m = freeAll a m.blocks
  | .mk s ks c n l, a => by
    cases l with
    | true => simp [clearM, MNode.blocks, deleteNodeM, freeAll]
    | false =>
      simp only [clearM, MNode.blocks, Bool.false_eq_true, if_false, freeAll_append]
      rw [clearChilds_eq c (n + 1) a]
      rfl
theorem clearChilds_eq : ∀ (cs : List (Option (MNode T))) (k : Nat)
    (a : custom_list_allocator_s), clearChilds a k cs = freeAll a (MNode.blocksList k cs)
  | [], 0, a => by simp [clearChilds, MNode.blocksList, freeAll]
  | [], _ + 1, a => by simp [clearChilds, MNode.blocksList, freeAll]
  | _ :: _, 0, a => by simp [clearChilds, MNode.blocksList, freeAll]
  | none :: cs, k + 1, a => by
    simp only [clearChilds, MNode.blocksList]
    exact clearChilds_eq cs k a
  | some c :: cs, k + 1, a => by
    simp only [clearChilds, MNode.blocksList, freeAll_append]
    rw [clearM_eq c a]
    exact clearChilds_eq cs k _
end

theorem destroy_eq (t : MTree T) : MTree.destroy t = freeAll t.arena t.blocks := by
  unfold MTree.destroy MTree.blocks
  cases t.root_ with
  | none => rfl
  | some r => exact clearM_eq r _

end MemBasics


open custom_list

section ArenaSteps
variable {T : Type} [LinearOrder T] [Inhabited T]

theorem used_addr_nodup {L : List layout_block} {lo hi : Nat} (h : Tiles lo L hi) :
    ((used_of L).map (fun b => b.addr + sizeof_size_t)).Nodup := by
  induction L generalizing lo with
  | nil => simp [used_of_nil]
  | cons b L ih =>
    obtain ⟨h1, h2, h3⟩ := h
    rw [used_of_cons]
    cases b.free with
    | true => exact ih h3
    | false =>
      simp only [Bool.false_eq_true, if_false, List.map_cons, List.nodup_cons]
      refine ⟨?_, ih h3⟩
      intro hmem
      rw [List.mem_map] at hmem
      obtain ⟨x, hx, hxa⟩ := hmem
      have := tiles_mem h3 _ (mem_used_of hx)
      simp only at this hxa
      omega

theorem reachable_nodup (a : custom_list_allocator_s) (out : List Nat) (h : Reachable a out) :
    out.Nodup := by
  obtain ⟨L, hinv⟩ := reachable_inv a out h
  exact (List.Perm.nodup_iff hinv.used_perm).2 (used_addr_nodup hinv.tiles)

theorem malloc_total (a : custom_list_allocator_s) (n : Nat) :
    (custom_list_malloc a n).1.total_size = a.total_size := by
  rw [custom_list_malloc_eq]
  split
  · rfl
  · split
    · rfl
    · split
      · exact (remove_free_node_fields a _ _).1
      · exact (remove_free_node_fields a _ _).1

theorem freeAll_total (ps : List Nat) :
    ∀ a : custom_list_allocator_s, (freeAll a ps).total_size = a.total_size := by
  induction ps with
  | nil => intro a; rfl
  | cons p ps ih =>
    intro a
    show (freeAll (custom_list_free a (some p)) ps).total_size = _
    rw [ih]
    rfl

theorem allocate_reachable (s n : Nat) (a a1 : custom_list_allocator_s) (p : Nat)
    (out : List Nat) (h : Reachable a out)
    (ha : smpl_alloc_allocate s (some a) n = .ok (a1, p)) :
    Reachable a1 (p :: out) ∧ a1.total_size = a.total_size := by
  unfold smpl_alloc_allocate at ha
  split at ha
  · cases ha
  · simp only at ha
    cases hm : custom_list_malloc a (n * s % SIZE_MOD) with
    | mk a2 r =>
      rw [hm] at ha
      cases r with
      | none => cases ha
      | some q =>
        simp only at ha
        injection ha with ha
        injection ha with h1 h2
        subst h1 h2
        have ht := malloc_total a (n * s % SIZE_MOD)
        rw [hm] at ht
        refine ⟨Reachable.malloc a out _ a2 q h ?_ hm, ht⟩
        have : n * s % SIZE_MOD < SIZE_MOD := Nat.mod_lt _ (by decide)
        simp only [SIZE_MAX, SIZE_MOD] at this ⊢
        omega

theorem createNodeM_ok (ORDER sN sT : Nat) (a a1 : custom_list_allocator_s) (isLeaf : Bool)
    (z : MNode T) (out : List Nat) (h : Reachable a out)
    (hc : createNodeM ORDER sN sT a isLeaf = .ok (a1, z)) :
    Reachable a1 (z.storage.childs :: z.storage.keys :: z.storage.node :: out) ∧
      z.keys_ = List.replicate (2 * ORDER - 1) default ∧
      z.childs_ = List.replicate (2 * ORDER) none ∧ z.keys_count_ = 0 ∧ z.leaf_ = isLeaf ∧
      a1.total_size = a.total_size := by
  unfold createNodeM at hc
  cases h1 : smpl_alloc_allocate sN (some a) 1 with
  | error e => rw [h1] at hc; cases hc
  | ok r1 =>
    obtain ⟨b1, pn⟩ := r1
    rw [h1] at hc
    simp only at hc
    cases h2 : smpl_alloc_allocate sT (some b1) (2 * ORDER - 1) with
    | error e => rw [h2] at hc; cases hc
    | ok r2 =>
      obtain ⟨b2, pk⟩ := r2
      rw [h2] at hc
      simp only at hc
      cases h3 : smpl_alloc_allocate sizeof_ptr (some b2) (2 * ORDER) with
      | error e => rw [h3] at hc; cases hc
      | ok r3 =>
        obtain ⟨b3, pc⟩ := r3
        rw [h3] at hc
        simp only at hc
        injection hc with hc
        injection hc with hc1 hc2
        subst hc1 hc2
        obtain ⟨r1, t1⟩ := allocate_reachable _ _ _ _ _ _ h h1
        obtain ⟨r2, t2⟩ := allocate_reachable _ _ _ _ _ _ r1 h2
        obtain ⟨r3, t3⟩ := allocate_reachable _ _ _ _ _ _ r2 h3
        exact ⟨r3, rfl, rfl, rfl, rfl, by rw [t3, t2, t1]⟩

theorem createNodeM_not_stuck (ORDER sN sT : Nat) (a : custom_list_allocator_s)
    (isLeaf : Bool) : (createNodeM ORDER sN sT a isLeaf : Run (_ × MNode T)) ≠ .stuck := by
  unfold createNodeM
  intro h
  split at h
  · cases h
  · split at h
    · cases h
    · split at h <;> cases h

theorem freeAll_reachable (ps : List Nat) :
    ∀ (a : custom_list_allocator_s) (out out0 : List Nat), Reachable a out →
      out.Perm (ps ++ out0) → ∃ out', Reachable (freeAll a ps) out' ∧ out'.Perm out0 := by
  induction ps with
  | nil => intro a out out0 h hp; exact ⟨out, h, hp⟩
  | cons p ps ih =>
    intro a out out0 h hp
    have hmem : p ∈ out := hp.symm.subset (List.mem_cons_self _ _)
    have h1 := Reachable.free a out p h hmem
    have hp1 : (out.erase p).Perm (ps ++ out0) := by
      have := hp.erase p
      simpa using this
    exact ih _ _ out0 h1 hp1

end ArenaSteps


open custom_list

section Simulation
variable {T : Type} [LinearOrder T] [Inhabited T]

theorem getD_map_apply {α β : Type} (f : α → β) (l : List α) (i : Nat) (d : α) :
    (l.map f).getD i (f d) = f (l.getD i d) := by
  rw [List.getD_eq_getElem?_getD, List.getD_eq_getElem?_getD, List.getElem?_map]
  cases l[i]? <;> rfl

theorem map_shiftRight {α β : Type} (f : α → β) (d : α) (lo : Nat) :
    ∀ (k : Nat) (l : List α), (shiftRight d lo k l).map f = shiftRight (f d) lo k (l.map f) := by
  intro k
  induction k with
  | zero => intro l; rfl
  | succ j ih =>
    intro l
    unfold shiftRight
    by_cases h : lo < j + 1
    · rw [if_pos h, if_pos h, ih, List.map_set, getD_map_apply]
    · rw [if_neg h, if_neg h]

theorem map_copyFrom {α β : Type} (f : α → β) (d : α) (src : List α) (off : Nat) :
    ∀ (n : Nat) (dst : List α),
      (copyFrom d src off n dst).map f = copyFrom (f d) (src.map f) off n (dst.map f) := by
  intro n
  induction n with
  | zero => intro dst; rfl
  | succ n ih =>
    intro dst
    unfold copyFrom
    rw [List.map_set, ih, getD_map_apply]

theorem getD_erase (cs : List (Option (MNode T))) (i : Nat) :
    (cs.map (Option.map MNode.erase)).getD i none = (cs.getD i none).map MNode.erase :=
  getD_map_apply (Option.map MNode.erase) cs i none

theorem createNodeM_fresh (ORDER sN sT : Nat) (a a1 : custom_list_allocator_s) (isLeaf : Bool)
    (z : MNode T) (hc : createNodeM ORDER sN sT a isLeaf = .ok (a1, z)) :
    z.keys_ = List.replicate (2 * ORDER - 1) default ∧
      z.childs_ = List.replicate (2 * ORDER) none ∧ z.keys_count_ = 0 ∧ z.leaf_ = isLeaf := by
  unfold createNodeM at hc
  split at hc
  · cases hc
  · split at hc
    · cases hc
    · split at hc
      · cases hc
      · injection hc with hc
        injection hc with hc1 hc2
        subst hc2
        exact ⟨rfl, rfl, rfl, rfl⟩

theorem createNodeM_erase (ORDER sN sT : Nat) (a a1 : custom_list_allocator_s) (isLeaf : Bool)
    (z : MNode T) (hc : createNodeM ORDER sN sT a isLeaf = .ok (a1, z)) :
    z.erase = createNode ORDER isLeaf := by
  obtain ⟨h1, h2, h3, h4⟩ := createNodeM_fresh ORDER sN sT a a1 isLeaf z hc
  rw [erase_eta, h1, h2, h3, h4]
  simp [createNode]

theorem erase_splitChildWith (ORDER : Nat) (z0 node y : MNode T) (i : Nat)
    (hz : z0.erase = createNode ORDER y.leaf_) :
    (splitChildWith ORDER z0 node i y).erase = splitChild ORDER node.erase i y.erase := by
  have hzk : z0.keys_ = (createNode ORDER y.leaf_ : BTreeNode T).keys_ := by
    rw [← hz, erase_keys]
  have hzc : z0.childs_.map (Option.map MNode.erase) =
      (createNode ORDER y.leaf_ : BTreeNode T).childs_ := by
    rw [← hz, erase_childs]
  have hzl : z0.leaf_ = y.leaf_ := by
    have := erase_leaf z0
    rw [hz] at this
    exact this.symm
  unfold splitChildWith splitChild
  simp only [erase_mk, erase_keys, erase_childs, erase_keys_count, erase_leaf, List.map_set,
    map_shiftRight, Option.map_some', Option.map_none', hzk, hzl]
  congr 2
  congr 2
  cases hyl : y.leaf_ with
  | true =>
    rw [hyl] at hzc
    simp only [if_true, hzc]
  | false =>
    rw [hyl] at hzc
    simp only [Bool.false_eq_true, if_false]
    rw [map_copyFrom, hzc]
    rfl

end Simulation


open custom_list

section Simulation2
variable {T : Type} [LinearOrder T] [Inhabited T]

theorem splitChildM_ok (ORDER sN sT : Nat) (a a1 : custom_list_allocator_s)
    (node y n1 : MNode T) (i : Nat)
    (h : splitChildM ORDER sN sT a node i y = .ok (a1, n1)) :
    ∃ z0, createNodeM ORDER sN sT a y.leaf_ = .ok (a1, z0) ∧
      n1 = splitChildWith ORDER z0 node i y := by
  unfold splitChildM at h
  cases hc : (createNodeM ORDER sN sT a y.leaf_ : Run (_ × MNode T)) with
  | ok r =>
    obtain ⟨b, z0⟩ := r
    rw [hc] at h
    simp only at h
    injection h with h
    injection h with h1 h2
    subst h1
    exact ⟨z0, rfl, h2.symm⟩
  | thrown e => rw [hc] at h; cases h
  | stuck => rw [hc] at h; cases h

theorem splitChildM_not_stuck (ORDER sN sT : Nat) (a : custom_list_allocator_s)
    (node y : MNode T) (i : Nat) : splitChildM ORDER sN sT a node i y ≠ .stuck := by
  unfold splitChildM
  intro h
  cases hc : (createNodeM ORDER sN sT a y.leaf_ : Run (_ × MNode T)) with
  | ok r => rw [hc] at h; cases h
  | thrown e => rw [hc] at h; cases h
  | stuck => exact createNodeM_not_stuck ORDER sN sT a y.leaf_ hc

theorem splitChildM_erase (ORDER sN sT : Nat) (a a1 : custom_list_allocator_s)
    (node y n1 : MNode T) (i : Nat)
    (h : splitChildM ORDER sN sT a node i y = .ok (a1, n1)) :
    n1.erase = splitChild ORDER node.erase i y.erase := by
  obtain ⟨z0, hc, hn⟩ := splitChildM_ok ORDER sN sT a a1 node y n1 i h
  rw [hn]
  exact erase_splitChildWith ORDER z0 node y i (createNodeM_erase ORDER sN sT a a1 _ z0 hc)

theorem insertNonFullM_sim (ORDER sN sT : Nat) :
    ∀ (fuel : Nat) (a : custom_list_allocator_s) (node : MNode T) (key : T),
      (∀ a1 n1, insertNonFullM ORDER sN sT fuel a node key = .ok (a1, n1) →
        insertNonFull ORDER fuel node.erase key = some n1.erase) ∧
      (insertNonFullM ORDER sN sT fuel a node key = .stuck →
        insertNonFull ORDER fuel node.erase key = none) := by
  intro fuel
  induction fuel with
  | zero =>
    intro a node key
    refine ⟨?_, fun _ => rfl⟩
    intro a1 n1 h
    unfold insertNonFullM at h
    cases h
  | succ fuel ih =>
    intro a node key
    unfold insertNonFullM insertNonFull
    simp only [erase_leaf, erase_keys, erase_keys_count]
    cases hl : node.leaf_ with
    | true =>
      simp only [if_true]
      refine ⟨?_, ?_⟩
      · intro a1 n1 h
        injection h with h
        injection h with h1 h2
        subst h2
        rw [erase_mk, erase_childs]
      · intro h
        cases h
    | false =>
      simp only [Bool.false_eq_true, if_false]
      rw [erase_childs, getD_erase]
      cases hc : node.childs_.getD (scanDown key node.keys_ node.keys_count_) none with
      | none =>
        simp only [Option.map_none']
        exact ⟨fun _ _ h => (by cases h), fun _ => trivial⟩
      | some c =>
        simp only [Option.map_some', erase_keys_count]
        generalize hX : (if c.keys_count_ = 2 * ORDER - 1 then
            splitChildM ORDER sN sT a node (scanDown key node.keys_ node.keys_count_) c
          else Run.ok (a, node)) = X
        cases X with
        | thrown e => exact ⟨fun _ _ h => (by cases h), fun h => (by cases h)⟩
        | stuck =>
          exfalso
          by_cases hfull : c.keys_count_ = 2 * ORDER - 1
          · rw [if_pos hfull] at hX
            exact splitChildM_not_stuck _ _ _ _ _ _ _ hX
          · rw [if_neg hfull] at hX
            cases hX
        | ok r =>
          obtain ⟨a1, node1⟩ := r
          have hnode1 : (if c.keys_count_ = 2 * ORDER - 1 then
              splitChild ORDER node.erase (scanDown key node.keys_ node.keys_count_) c.erase
            else node.erase) = node1.erase := by
            by_cases hfull : c.keys_count_ = 2 * ORDER - 1
            · rw [if_pos hfull] at hX ⊢
              exact (splitChildM_erase _ _ _ _ _ _ _ _ _ hX).symm
            · rw [if_neg hfull] at hX ⊢
              injection hX with hX
              injection hX with h1 h2
              rw [h2]
          simp only [hnode1, erase_keys, erase_keys_count, erase_leaf]
          generalize (if c.keys_count_ = 2 * ORDER - 1 then
              (if readKey node1.keys_ (scanDown key node.keys_ node.keys_count_) < key then
                scanDown key node.keys_ node.keys_count_ + 1
              else scanDown key node.keys_ node.keys_count_)
            else scanDown key node.keys_ node.keys_count_) = p1
          rw [erase_childs, getD_erase]
          cases hc1 : node1.childs_.getD p1 none with
          | none =>
            simp only [Option.map_none']
            exact ⟨fun _ _ h => (by cases h), fun _ => trivial⟩
          | some c1 =>
            simp only [Option.map_some']
            obtain ⟨ih1, ih2⟩ := ih a1 c1 key
            cases hr : insertNonFullM ORDER sN sT fuel a1 c1 key with
            | thrown e => exact ⟨fun _ _ h => (by cases h), fun h => (by cases h)⟩
            | stuck =>
              rw [ih2 hr]
              exact ⟨fun _ _ h => (by cases h), fun _ => rfl⟩
            | ok r2 =>
              obtain ⟨a2, c2⟩ := r2
              rw [ih1 a2 c2 hr]
              refine ⟨?_, fun h => (by cases h)⟩
              intro a3 n3 h
              injection h with h
              injection h with h1 h2
              subst h2
              simp only [erase_mk, List.map_set, Option.map_some']

end Simulation2


open custom_list

section Accounting
variable {T : Type} [LinearOrder T] [Inhabited T]

theorem mk_storage (s : node_storage) (ks : List T) (cs : List (Option (MNode T))) (n : Nat)
    (l : Bool) : (MNode.mk s ks cs n l).storage = s := rfl

theorem mk_keys (s : node_storage) (ks : List T) (cs : List (Option (MNode T))) (n : Nat)
    (l : Bool) : (MNode.mk s ks cs n l).keys_ = ks := rfl

theorem mk_childs (s : node_storage) (ks : List T) (cs : List (Option (MNode T))) (n : Nat)
    (l : Bool) : (MNode.mk s ks cs n l).childs_ = cs := rfl

theorem mk_keys_count (s : node_storage) (ks : List T) (cs : List (Option (MNode T))) (n : Nat)
    (l : Bool) : (MNode.mk s ks cs n l).keys_count_ = n := rfl

theorem mk_leaf (s : node_storage) (ks : List T) (cs : List (Option (MNode T))) (n : Nat)
    (l : Bool) : (MNode.mk s ks cs n l).leaf_ = l := rfl

theorem blocks_leaf (m : MNode T) (hl : m.leaf_ = true) : m.blocks = m.own := by
  rw [blocks_eq, hl]
  rfl

theorem blocks_internal (m : MNode T) (hl : m.leaf_ = false) :
    m.blocks = MNode.sumBlocks m.liveChilds ++ m.own := by
  rw [blocks_eq, hl]
  rfl

theorem getElem?_of_getD {α : Type} (l : List (Option α)) (j : Nat) (x : α)
    (h : l.getD j none = some x) : l[j]? = some (some x) := by
  rw [List.getD_eq_getElem?_getD] at h
  cases hj : l[j]? with
  | none => rw [hj] at h; cases h
  | some v =>
    rw [hj] at h
    simp only [Option.getD_some] at h
    rw [h]

theorem liveChildsM_at (node : MNode T) (p : Nat) (hp : p ≤ node.keys_count_) (c : MNode T)
    (hc : node.childs_[p]? = some (some c)) :
    node.liveChilds = node.childs_.take p ++ some c ::
      (node.childs_.take (node.keys_count_ + 1)).drop (p + 1) := by
  have h1 : node.liveChilds[p]? = some (some c) := by
    unfold MNode.liveChilds
    rw [List.getElem?_take, if_pos (by omega), hc]
  have := list_split_at _ _ _ h1
  unfold MNode.liveChilds at this ⊢
  rw [List.take_take, Nat.min_eq_left (by omega)] at this
  exact this

theorem blocks_replace_child (node c1 c2 : MNode T) (p : Nat) (news : List Nat)
    (hl : node.leaf_ = false) (hp : p ≤ node.keys_count_)
    (hc : node.childs_[p]? = some (some c1)) (hb : c2.blocks.Perm (news ++ c1.blocks)) :
    (MNode.mk node.storage node.keys_ (node.childs_.set p (some c2)) node.keys_count_
      node.leaf_).blocks.Perm (news ++ node.blocks) := by
  have hlen : p < node.childs_.length := by
    by_contra hcon
    rw [List.getElem?_eq_none (by omega)] at hc
    cases hc
  have hc' : (node.childs_.set p (some c2))[p]? = some (some c2) := by
    rw [List.getElem?_set_self hlen]
  have h1 := liveChildsM_at node p hp c1 hc
  have h2 := liveChildsM_at (MNode.mk node.storage node.keys_ (node.childs_.set p (some c2))
    node.keys_count_ node.leaf_) p hp c2 hc'
  have e1 : (node.childs_.set p (some c2)).take p = node.childs_.take p := by
    rw [List.set_take, List.set_eq_of_length_le (by simp)]
  have e2 : ((node.childs_.set p (some c2)).take (node.keys_count_ + 1)).drop (p + 1) =
      (node.childs_.take (node.keys_count_ + 1)).drop (p + 1) := by
    rw [List.set_take, List.drop_set, if_pos (Nat.lt_succ_self p)]
  simp only [mk_childs, mk_keys_count] at h2
  rw [e1, e2] at h2
  rw [blocks_internal _ hl, blocks_internal _ (by exact hl), h1, h2]
  simp only [sumBlocks_append, MNode.sumBlocks, MNode.own, mk_storage]
  generalize MNode.sumBlocks (List.take p node.childs_) = X
  generalize MNode.sumBlocks (List.drop (p + 1) (List.take (node.keys_count_ + 1)
    node.childs_)) = Y
  have hb' := hb
  generalize c2.blocks = B2 at hb' ⊢
  generalize c1.blocks = B1 at hb' ⊢
  have : (X ++ (B2 ++ Y) ++ [node.storage.keys, node.storage.childs, node.storage.node]).Perm
      (X ++ ((news ++ B1) ++ Y) ++
        [node.storage.keys, node.storage.childs, node.storage.node]) :=
    ((hb'.append_right Y).append_left X).append_right _
  refine this.trans ?_
  have h3 : (X ++ ((news ++ B1) ++ Y)).Perm (news ++ (X ++ (B1 ++ Y))) := by
    simp only [List.append_assoc]
    exact List.perm_append_comm_assoc X news (B1 ++ Y)
  have := h3.append_right [node.storage.keys, node.storage.childs, node.storage.node]
  simpa only [List.append_assoc] using this

end Accounting


open custom_list

section Accounting2
variable {T : Type} [LinearOrder T] [Inhabited T]

theorem blocks_split_halves (ORDER : Nat) (hO : 1 ≤ ORDER) (z0 y : MNode T)
    (hfull : y.keys_count_ = 2 * ORDER - 1) (hyc : y.childs_.length = 2 * ORDER)
    (hzc : z0.childs_.length = 2 * ORDER) (hzl : z0.leaf_ = y.leaf_) :
    ((MNode.mk y.storage y.keys_ y.childs_ (ORDER - 1) y.leaf_).blocks ++
      (MNode.mk z0.storage (copyFrom default y.keys_ ORDER (ORDER - 1) z0.keys_)
        (if y.leaf_ then z0.childs_ else copyFrom none y.childs_ ORDER ORDER z0.childs_)
        (ORDER - 1) z0.leaf_).blocks).Perm (z0.own ++ y.blocks) := by
  cases hyl : y.leaf_ with
  | true =>
    rw [hyl] at hzl
    rw [blocks_leaf _ (by rw [mk_leaf]), blocks_leaf _ (by rw [mk_leaf, hzl]),
      blocks_leaf y hyl]
    exact List.perm_append_comm
  | false =>
    rw [hyl] at hzl
    rw [blocks_internal _ (by rw [mk_leaf]), blocks_internal _ (by rw [mk_leaf, hzl]),
      blocks_internal y hyl]
    unfold MNode.liveChilds
    simp only [mk_childs, mk_keys_count, Bool.false_eq_true, if_false, hfull]
    have e1 : ORDER - 1 + 1 = ORDER := by omega
    have e2 : 2 * ORDER - 1 + 1 = ORDER + ORDER := by omega
    rw [e1, e2, take_copyFrom _ _ _ _ _ (by omega) (by omega)]
    have e3 : (y.childs_.drop ORDER).take ORDER = y.childs_.drop ORDER := by
      apply List.take_of_length_le
      rw [List.length_drop]
      omega
    have e4 : y.childs_.take (ORDER + ORDER) = y.childs_.take ORDER ++ y.childs_.drop ORDER := by
      rw [List.take_of_length_le (by omega), List.take_append_drop]
    rw [e3, e4, sumBlocks_append]
    rw [List.perm_iff_count]
    intro x
    simp only [List.count_append, MNode.own, mk_storage]
    omega

theorem blocks_splitChildWith (ORDER : Nat) (hO : 1 ≤ ORDER) (z0 node y : MNode T) (i : Nat)
    (hl : node.leaf_ = false) (hi : i ≤ node.keys_count_)
    (hlt : node.keys_count_ + 1 < node.childs_.length)
    (hy : node.childs_[i]? = some (some y)) (hfull : y.keys_count_ = 2 * ORDER - 1)
    (hyc : y.childs_.length = 2 * ORDER) (hzc : z0.childs_.length = 2 * ORDER)
    (hzl : z0.leaf_ = y.leaf_) :
    (splitChildWith ORDER z0 node i y).blocks.Perm (z0.own ++ node.blocks) := by
  have hkey := blocks_split_halves ORDER hO z0 y hfull hyc hzc hzl
  have hlive := liveChildsM_at node i hi y hy
  unfold splitChildWith
  simp only
  generalize (MNode.mk y.storage y.keys_ y.childs_ (ORDER - 1) y.leaf_) = y1 at hkey ⊢
  generalize (MNode.mk z0.storage (copyFrom default y.keys_ ORDER (ORDER - 1) z0.keys_)
        (if y.leaf_ then z0.childs_ else copyFrom none y.childs_ ORDER ORDER z0.childs_)
        (ORDER - 1) z0.leaf_) = z at hkey ⊢
  rw [blocks_internal _ (by rw [mk_leaf]; exact hl), blocks_internal node hl, hlive]
  unfold MNode.liveChilds
  simp only [mk_childs, mk_keys_count]
  rw [take_set_shiftRight _ _ _ _ _ (by omega) (by simpa using hlt)]
  have h1 : List.take (i + 1) (node.childs_.set i (some y1)) =
      List.take i node.childs_ ++ [some y1] := by
    rw [List.take_succ, List.getElem?_set_self (by omega), List.set_take,
      List.set_eq_of_length_le (by simp)]
    rfl
  have h2 : List.drop (i + 1) (List.take (node.keys_count_ + 1)
      (node.childs_.set i (some y1))) =
      List.drop (i + 1) (List.take (node.keys_count_ + 1) node.childs_) := by
    rw [List.set_take, List.drop_set, if_pos (Nat.lt_succ_self i)]
  rw [h1, h2]
  simp only [sumBlocks_append, MNode.sumBlocks, MNode.own, mk_storage, List.append_assoc]
  have hcount := fun x => hkey.count_eq x
  rw [List.perm_iff_count]
  intro x
  have := hcount x
  simp only [List.count_append, MNode.own, List.append_nil] at this ⊢
  omega

end Accounting2


open custom_list

section Accounting3
variable {T : Type} [LinearOrder T] [Inhabited T]

theorem erase_child_at (m c : MNode T) (p : Nat) (hc : m.childs_[p]? = some (some c)) :
    m.erase.childs_[p]? = some (some c.erase) := by
  rw [erase_childs, List.getElem?_map, hc]
  rfl

theorem child_shape {ORDER d : Nat} {b : Bool} (m c : MNode T) (p : Nat)
    (hw : WellShaped ORDER (d + 1) b m.erase) (hl : m.leaf_ = false)
    (hp : p ≤ m.keys_count_) (hc : m.childs_[p]? = some (some c)) :
    WellShaped ORDER d false c.erase := by
  obtain ⟨c', hc', hwc⟩ := hw.child (by rw [erase_leaf]; exact hl) p
    (by rw [erase_keys_count]; exact hp)
  rw [erase_child_at m c p hc] at hc'
  injection hc' with hc'
  injection hc' with hc'
  rw [hc']
  exact hwc

theorem descendM_blocks (ORDER sN sT : Nat) (fuel : Nat)
    (ih : ∀ (d : Nat) (b : Bool) (a : custom_list_allocator_s) (node : MNode T) (key : T)
      (out : List Nat) (a' : custom_list_allocator_s) (n' : MNode T),
      WellShaped ORDER d b node.erase → node.keys_count_ < 2 * ORDER - 1 → Reachable a out →
      insertNonFullM ORDER sN sT fuel a node key = .ok (a', n') →
      ∃ news, Reachable a' (news ++ out) ∧ n'.blocks.Perm (news ++ node.blocks) ∧
        a'.total_size = a.total_size)
    {d : Nat} {b : Bool} (node1 c1 c2 : MNode T) (p1 : Nat) (key : T)
    (a1 a2 : custom_list_allocator_s) (out1 : List Nat)
    (hw : WellShaped ORDER (d + 1) b node1.erase) (hl : node1.leaf_ = false)
    (hp1 : p1 ≤ node1.keys_count_) (hc1 : node1.childs_.getD p1 none = some c1)
    (hnf : c1.keys_count_ < 2 * ORDER - 1) (hr : Reachable a1 out1)
    (hrun : insertNonFullM ORDER sN sT fuel a1 c1 key = .ok (a2, c2)) :
    ∃ news, Reachable a2 (news ++ out1) ∧
      (MNode.mk node1.storage node1.keys_ (node1.childs_.set p1 (some c2)) node1.keys_count_
        node1.leaf_).blocks.Perm (news ++ node1.blocks) ∧
      a2.total_size = a1.total_size := by
  have hc := getElem?_of_getD _ _ _ hc1
  have hwc := child_shape node1 c1 p1 hw hl hp1 hc
  obtain ⟨news, hr2, hb, ht⟩ := ih d false a1 c1 key out1 a2 c2 hwc hnf hr hrun
  exact ⟨news, hr2, blocks_replace_child node1 c1 c2 p1 news hl hp1 hc hb, ht⟩

theorem splitDescendM_blocks (ORDER sN sT : Nat) (hO : 1 ≤ ORDER) (fuel : Nat)
    (ih : ∀ (d : Nat) (b : Bool) (a : custom_list_allocator_s) (node : MNode T) (key : T)
      (out : List Nat) (a' : custom_list_allocator_s) (n' : MNode T),
      WellShaped ORDER d b node.erase → node.keys_count_ < 2 * ORDER - 1 → Reachable a out →
      insertNonFullM ORDER sN sT fuel a node key = .ok (a', n') →
      ∃ news, Reachable a' (news ++ out) ∧ n'.blocks.Perm (news ++ node.blocks) ∧
        a'.total_size = a.total_size)
    {d : Nat} {b : Bool} (node c node1 c1 c2 : MNode T) (p p1 : Nat) (key : T)
    (a a1 a2 : custom_list_allocator_s) (out : List Nat)
    (hw : WellShaped ORDER (d + 1) b node.erase) (hl : node.leaf_ = false)
    (hnf : node.keys_count_ < 2 * ORDER - 1) (hp : p ≤ node.keys_count_)
    (hcy : node.childs_[p]? = some (some c)) (hfull : c.keys_count_ = 2 * ORDER - 1)
    (hr : Reachable a out) (hs : splitChildM ORDER sN sT a node p c = .ok (a1, node1))
    (hp1 : (if readKey node1.keys_ p < key then p + 1 else p) = p1)
    (hc1 : node1.childs_.getD p1 none = some c1)
    (hrun : insertNonFullM ORDER sN sT fuel a1 c1 key = .ok (a2, c2)) :
    ∃ news, Reachable a2 (news ++ out) ∧
      (MNode.mk node1.storage node1.keys_ (node1.childs_.set p1 (some c2)) node1.keys_count_
        node1.leaf_).blocks.Perm (news ++ node.blocks) ∧
      WellShaped ORDER (d + 1) b node1.erase ∧ a2.total_size = a.total_size := by
  have hwc := child_shape node c p hw hl hp hcy
  have hcl : node.childs_.length = 2 * ORDER := by
    have := hw.childs_length
    rw [erase_childs, List.length_map] at this
    exact this
  obtain ⟨z0, hz, hn1⟩ := splitChildM_ok ORDER sN sT a a1 node c node1 p hs
  obtain ⟨hr1, _, hzc, _, hzl, htz⟩ := createNodeM_ok ORDER sN sT a a1 c.leaf_ z0 out hr hz
  have hyc : c.childs_.length = 2 * ORDER := by
    have := hwc.childs_length
    rw [erase_childs, List.length_map] at this
    exact this
  have hb1 := blocks_splitChildWith ORDER hO z0 node c p hl hp (by omega) hcy hfull hyc
    (by rw [hzc, List.length_replicate]) hzl
  rw [← hn1] at hb1
  have he := splitChildM_erase ORDER sN sT a a1 node c node1 p hs
  have hspec := splitChild_spec hO hw (by rw [erase_leaf]; exact hl)
    (by rw [erase_keys_count]; exact hnf) (by rw [erase_keys_count]; exact hp)
    (erase_child_at node c p hcy) (by rw [erase_keys_count]; exact hfull)
  rw [← he] at hspec
  have hw1 := hspec.1
  have hl1 : node1.leaf_ = false := by rw [hn1]; exact hl
  have hcnt1 : node1.keys_count_ = node.keys_count_ + 1 := by rw [hn1]; rfl
  have hecl : node.erase.keys_count_ + 1 < node.erase.childs_.length := by
    rw [erase_keys_count, erase_childs, List.length_map]
    omega
  have hleft := splitChild_child_left ORDER node.erase c.erase p
    (by rw [erase_keys_count]; exact hp) hecl
  have hright := splitChild_child_right ORDER node.erase c.erase p
    (by rw [erase_keys_count]; exact hp) hecl
  rw [← he] at hleft hright
  have hp1le : p1 ≤ node1.keys_count_ := by
    rw [← hp1, hcnt1]
    split <;> omega
  have hc1' := erase_child_at node1 c1 p1 (getElem?_of_getD _ _ _ hc1)
  have hnf1 : c1.keys_count_ < 2 * ORDER - 1 := by
    rw [← erase_keys_count]
    by_cases hk : readKey node1.keys_ p < key
    · rw [if_pos hk] at hp1
      subst hp1
      rw [hright] at hc1'
      injection hc1' with hc1'
      injection hc1' with hc1'
      rw [← hc1']
      show ORDER - 1 < 2 * ORDER - 1
      omega
    · rw [if_neg hk] at hp1
      subst hp1
      rw [hleft] at hc1'
      injection hc1' with hc1'
      injection hc1' with hc1'
      rw [← hc1']
      show ORDER - 1 < 2 * ORDER - 1
      omega
  obtain ⟨news, hr2, hb2, ht2⟩ := descendM_blocks ORDER sN sT fuel ih node1 c1 c2 p1 key
    a1 a2 _ hw1 hl1 hp1le hc1 hnf1 hr1 hrun
  refine ⟨news ++ [z0.storage.childs, z0.storage.keys, z0.storage.node], ?_, ?_, hw1,
    by rw [ht2, htz]⟩
  · simpa only [List.append_assoc, List.cons_append, List.nil_append] using hr2
  · rw [List.perm_iff_count]
    intro x
    have e1 := hb2.count_eq x
    have e2 := hb1.count_eq x
    simp only [List.count_append, MNode.own, List.count_cons, List.count_nil]
      at e1 e2 ⊢
    omega

theorem insertNonFullM_blocks (ORDER sN sT : Nat) (hO : 1 ≤ ORDER) :
    ∀ (fuel d : Nat) (b : Bool) (a : custom_list_allocator_s) (node : MNode T) (key : T)
      (out : List Nat) (a' : custom_list_allocator_s) (n' : MNode T),
      WellShaped ORDER d b node.erase → node.keys_count_ < 2 * ORDER - 1 → Reachable a out →
      insertNonFullM ORDER sN sT fuel a node key = .ok (a', n') →
      ∃ news, Reachable a' (news ++ out) ∧ n'.blocks.Perm (news ++ node.blocks) ∧
        a'.total_size = a.total_size := by
  intro fuel
  induction fuel with
  | zero =>
    intro d b a node key out a' n' _ _ _ h
    unfold insertNonFullM at h
    cases h
  | succ fuel ih =>
    intro d b a node key out a' n' hw hnf hr h
    cases d with
    | zero => exact absurd hw (by simp [WellShaped])
    | succ d =>
    unfold insertNonFullM at h
    cases hl : node.leaf_ with
    | true =>
      rw [hl] at h
      simp only [if_true] at h
      injection h with h
      injection h with h1 h2
      subst h1 h2
      refine ⟨[], hr, ?_, rfl⟩
      rw [blocks_leaf _ (by rw [mk_leaf]), blocks_leaf node hl]
      exact List.Perm.refl _
    | false =>
      rw [hl] at h
      simp only [Bool.false_eq_true, if_false] at h
      have hp := scanDown_le key node.keys_ node.keys_count_
      generalize scanDown key node.keys_ node.keys_count_ = p at h hp
      cases hc : node.childs_.getD p none with
      | none => rw [hc] at h; cases h
      | some c =>
        rw [hc] at h
        simp only at h
        have hcy := getElem?_of_getD _ _ _ hc
        have hwc := child_shape node c p hw hl hp hcy
        by_cases hfull : c.keys_count_ = 2 * ORDER - 1
        · rw [if_pos hfull] at h
          simp only [if_pos hfull] at h
          cases hs : splitChildM ORDER sN sT a node p c with
          | thrown e => rw [hs] at h; cases h
          | stuck => rw [hs] at h; cases h
          | ok r =>
            obtain ⟨a1, node1⟩ := r
            rw [hs] at h
            simp only at h
            generalize hp1 : (if readKey node1.keys_ p < key then p + 1 else p) = p1 at h
            cases hc1 : node1.childs_.getD p1 none with
            | none => rw [hc1] at h; cases h
            | some c1 =>
              rw [hc1] at h
              simp only at h
              cases hrun : insertNonFullM ORDER sN sT fuel a1 c1 key with
              | thrown e => rw [hrun] at h; cases h
              | stuck => rw [hrun] at h; cases h
              | ok r2 =>
                obtain ⟨a2, c2⟩ := r2
                rw [hrun] at h
                simp only at h
                injection h with h
                injection h with h1 h2
                subst h1 h2
                obtain ⟨news, h1, h2, _, h4⟩ := splitDescendM_blocks ORDER sN sT hO fuel ih node c
                  node1 c1 c2 p p1 key a a1 a2 out hw hl hnf hp hcy hfull hr hs hp1 hc1 hrun
                exact ⟨news, h1, h2, h4⟩
        · rw [if_neg hfull] at h
          simp only [if_neg hfull] at h
          cases hc1 : node.childs_.getD p none with
          | none => rw [hc1] at hc; cases hc
          | some c1 =>
            rw [hc1] at h
            simp only at h
            rw [hc] at hc1
            injection hc1 with hc1
            subst hc1
            cases hrun : insertNonFullM ORDER sN sT fuel a c key with
            | thrown e => rw [hrun] at h; cases h
            | stuck => rw [hrun] at h; cases h
            | ok r2 =>
              obtain ⟨a2, c2⟩ := r2
              rw [hrun] at h
              simp only at h
              injection h with h
              injection h with h1 h2
              subst h1 h2
              have hcle := hwc.count_le
              rw [erase_keys_count] at hcle
              exact descendM_blocks ORDER sN sT fuel ih node c c2 p key a a2 out hw hl hp hc
                (by omega) hr hrun

end Accounting3


open custom_list

section TreeSimulation
variable {T : Type} [LinearOrder T] [Inhabited T]

theorem newRootM_erase (ORDER sN sT : Nat) (a a1 : custom_list_allocator_s) (s0 root : MNode T)
    (hc : createNodeM ORDER sN sT a false = .ok (a1, s0)) :
    (MNode.mk s0.storage s0.keys_ (s0.childs_.set 0 (some root)) s0.keys_count_
      s0.leaf_).erase =
      .mk (createNode ORDER false : BTreeNode T).keys_
        ((createNode ORDER false : BTreeNode T).childs_.set 0 (some root.erase))
        (createNode ORDER false : BTreeNode T).keys_count_
        (createNode ORDER false : BTreeNode T).leaf_ := by
  have he := createNodeM_erase ORDER sN sT a a1 false s0 hc
  rw [erase_mk, List.map_set, ← he, erase_keys, erase_childs, erase_keys_count, erase_leaf]
  rfl

theorem MTree_insert_sim (ORDER sN sT : Nat) (t : MTree T) (key : T) :
    (∀ t', MTree.insert ORDER sN sT t key = .ok t' →
      BTree.insert ORDER t.erase key = some t'.erase) ∧
    (MTree.insert ORDER sN sT t key = .stuck → BTree.insert ORDER t.erase key = none) := by
  unfold MTree.insert BTree.insert MTree.erase
  cases hroot : t.root_ with
  | none =>
    simp only [Option.map_none']
    cases hc : (createNodeM ORDER sN sT t.arena true : Run (_ × MNode T)) with
    | thrown e => exact ⟨fun _ h => (by cases h), fun h => (by cases h)⟩
    | stuck => exact absurd hc (createNodeM_not_stuck ORDER sN sT t.arena true)
    | ok r =>
      obtain ⟨a1, r⟩ := r
      simp only
      refine ⟨?_, fun h => (by cases h)⟩
      intro t' h
      injection h with h
      subst h
      have he := createNodeM_erase ORDER sN sT t.arena a1 true r hc
      simp only [Option.map_some', erase_mk]
      rw [← he, erase_keys, erase_childs, erase_leaf]
  | some root =>
    simp only [Option.map_some', erase_keys_count]
    by_cases hfull : root.keys_count_ = 2 * ORDER - 1
    · simp only [if_pos hfull]
      cases hc : (createNodeM ORDER sN sT t.arena false : Run (_ × MNode T)) with
      | thrown e => exact ⟨fun _ h => (by cases h), fun h => (by cases h)⟩
      | stuck => exact absurd hc (createNodeM_not_stuck ORDER sN sT t.arena false)
      | ok r =>
        obtain ⟨a1, s0⟩ := r
        simp only
        have hs1 := newRootM_erase ORDER sN sT t.arena a1 s0 root hc
        generalize (MNode.mk s0.storage s0.keys_ (s0.childs_.set 0 (some root)) s0.keys_count_
          s0.leaf_) = s1 at hs1 ⊢
        rw [← hs1]
        cases hs : splitChildM ORDER sN sT a1 s1 0 root with
        | thrown e => exact ⟨fun _ h => (by cases h), fun h => (by cases h)⟩
        | stuck => exact absurd hs (splitChildM_not_stuck ORDER sN sT a1 s1 root 0)
        | ok r2 =>
          obtain ⟨a2, s2⟩ := r2
          simp only
          rw [← splitChildM_erase ORDER sN sT a1 a2 s1 root s2 0 hs]
          simp only [erase_keys, erase_keys_count, erase_leaf]
          generalize (if readKey s2.keys_ 0 < key then 1 else 0) = i
          rw [erase_childs, getD_erase]
          cases hc1 : s2.childs_.getD i none with
          | none =>
            simp only [Option.map_none']
            exact ⟨fun _ h => (by cases h), fun _ => trivial⟩
          | some c =>
            simp only [Option.map_some']
            obtain ⟨ih1, ih2⟩ := insertNonFullM_sim ORDER sN sT root.erase.height a2 c key
            cases hr : insertNonFullM ORDER sN sT root.erase.height a2 c key with
            | thrown e => exact ⟨fun _ h => (by cases h), fun h => (by cases h)⟩
            | stuck =>
              rw [ih2 hr]
              exact ⟨fun _ h => (by cases h), fun _ => rfl⟩
            | ok r3 =>
              obtain ⟨a3, c1⟩ := r3
              rw [ih1 a3 c1 hr]
              refine ⟨?_, fun h => (by cases h)⟩
              intro t' h
              injection h with h
              subst h
              simp only [Option.map_some', erase_mk, List.map_set]
    · simp only [if_neg hfull]
      obtain ⟨ih1, ih2⟩ := insertNonFullM_sim ORDER sN sT root.erase.height t.arena root key
      cases hr : insertNonFullM ORDER sN sT root.erase.height t.arena root key with
      | thrown e => exact ⟨fun _ h => (by cases h), fun h => (by cases h)⟩
      | stuck =>
        rw [ih2 hr]
        exact ⟨fun _ h => (by cases h), fun _ => rfl⟩
      | ok r3 =>
        obtain ⟨a3, c1⟩ := r3
        rw [ih1 a3 c1 hr]
        refine ⟨?_, fun h => (by cases h)⟩
        intro t' h
        injection h with h
        subst h
        rfl

end TreeSimulation


open custom_list

section TreeAccounting
variable {T : Type} [LinearOrder T] [Inhabited T]

theorem MTree_new_ok (ORDER sN sT : Nat) (a : custom_list_allocator_s) (out0 : List Nat)
    (hr : Reachable a out0) (t : MTree T) (h : MTree.new ORDER sN sT a = .ok t) :
    ∃ r, t.root_ = some r ∧ r.erase = createNode ORDER true ∧
      ∃ out, Reachable t.arena out ∧ out.Perm (t.blocks ++ out0) ∧
        t.arena.total_size = a.total_size := by
  unfold MTree.new at h
  cases hc : (createNodeM ORDER sN sT a true : Run (_ × MNode T)) with
  | thrown e => rw [hc] at h; cases h
  | stuck => rw [hc] at h; cases h
  | ok r =>
    obtain ⟨a1, r⟩ := r
    rw [hc] at h
    simp only at h
    injection h with h
    subst h
    obtain ⟨hr1, _, _, _, hlf, ht⟩ := createNodeM_ok ORDER sN sT a a1 true r out0 hr hc
    refine ⟨r, rfl, createNodeM_erase ORDER sN sT a a1 true r hc, _, hr1, ?_, ht⟩
    show List.Perm _ (r.blocks ++ out0)
    rw [blocks_leaf r hlf, List.perm_iff_count]
    intro x
    simp only [List.count_append, MNode.own, List.count_cons, List.count_nil]
    omega

theorem MTree_insert_blocks (ORDER sN sT : Nat) (hO : 1 ≤ ORDER) (t t' : MTree T) (key : T)
    (r : MNode T) (d : Nat) (out : List Nat) (hroot : t.root_ = some r)
    (hw : WellShaped ORDER d true r.erase) (hr : Reachable t.arena out)
    (h : MTree.insert ORDER sN sT t key = .ok t') :
    ∃ news, Reachable t'.arena (news ++ out) ∧ t'.blocks.Perm (news ++ t.blocks) ∧
      t'.arena.total_size = t.arena.total_size := by
  have htb : t.blocks = r.blocks := by
    unfold MTree.blocks
    rw [hroot]
  unfold MTree.insert at h
  rw [hroot] at h
  simp only at h
  cases d with
  | zero => exact absurd hw (by simp [WellShaped])
  | succ d =>
  by_cases hfull : r.keys_count_ = 2 * ORDER - 1
  · rw [if_pos hfull] at h
    cases hc : (createNodeM ORDER sN sT t.arena false : Run (_ × MNode T)) with
    | thrown e => rw [hc] at h; cases h
    | stuck => rw [hc] at h; cases h
    | ok r0 =>
      obtain ⟨a1, s0⟩ := r0
      rw [hc] at h
      simp only at h
      obtain ⟨hr1, _, hcs, hcnt, hlf, ht1⟩ :=
        createNodeM_ok ORDER sN sT t.arena a1 false s0 out hr hc
      have hs1e := newRootM_erase ORDER sN sT t.arena a1 s0 r hc
      have hshape := (newRoot_shaped hO hw (by rw [erase_keys_count]; exact hfull)).1
      rw [← hs1e] at hshape
      have hs1b : (MNode.mk s0.storage s0.keys_ (s0.childs_.set 0 (some r)) s0.keys_count_
          s0.leaf_).blocks = r.blocks ++ s0.own := by
        rw [blocks_internal _ (by rw [mk_leaf]; exact hlf)]
        unfold MNode.liveChilds
        rw [mk_childs, mk_keys_count, hcnt, hcs]
        have : ((List.replicate (2 * ORDER) (none : Option (MNode T))).set 0 (some r)).take
            (0 + 1) = [some r] := by
          obtain ⟨k, hk⟩ : ∃ k, 2 * ORDER = k + 1 := ⟨2 * ORDER - 1, by omega⟩
          rw [hk]
          rfl
        rw [this]
        simp [MNode.sumBlocks, MNode.own, mk_storage]
      have hs1c : (MNode.mk s0.storage s0.keys_ (s0.childs_.set 0 (some r)) s0.keys_count_
          s0.leaf_).childs_[0]? = some (some r) := by
        rw [mk_childs, List.getElem?_set_self (by rw [hcs, List.length_replicate]; omega)]
      have hs1l : (MNode.mk s0.storage s0.keys_ (s0.childs_.set 0 (some r)) s0.keys_count_
          s0.leaf_).leaf_ = false := by rw [mk_leaf]; exact hlf
      have hs1n : (MNode.mk s0.storage s0.keys_ (s0.childs_.set 0 (some r)) s0.keys_count_
          s0.leaf_).keys_count_ = 0 := by rw [mk_keys_count]; exact hcnt
      generalize (MNode.mk s0.storage s0.keys_ (s0.childs_.set 0 (some r)) s0.keys_count_
          s0.leaf_) = s1 at h hshape hs1b hs1c hs1l hs1n
      cases hs : splitChildM ORDER sN sT a1 s1 0 r with
      | thrown e => rw [hs] at h; cases h
      | stuck => rw [hs] at h; cases h
      | ok r2 =>
        obtain ⟨a2, s2⟩ := r2
        rw [hs] at h
        simp only at h
        generalize hp1 : (if readKey s2.keys_ 0 < key then 1 else 0) = i at h
        cases hc1 : s2.childs_.getD i none with
        | none => rw [hc1] at h; cases h
        | some c =>
          rw [hc1] at h
          simp only at h
          cases hrun : insertNonFullM ORDER sN sT r.erase.height a2 c key with
          | thrown e => rw [hrun] at h; cases h
          | stuck => rw [hrun] at h; cases h
          | ok r3 =>
            obtain ⟨a3, c1⟩ := r3
            rw [hrun] at h
            simp only at h
            injection h with h
            subst h
            obtain ⟨news, h1, h2, _, h4⟩ := splitDescendM_blocks ORDER sN sT hO r.erase.height
              (insertNonFullM_blocks ORDER sN sT hO r.erase.height) s1 r s2 c c1 0 i key a1 a2
              a3 _ hshape hs1l (by omega) (by omega) hs1c hfull hr1 hs hp1 hc1 hrun
            refine ⟨news ++ [s0.storage.childs, s0.storage.keys, s0.storage.node], ?_, ?_,
              by rw [← ht1]; exact h4⟩
            · simpa only [List.append_assoc, List.cons_append, List.nil_append] using h1
            · show List.Perm (MNode.blocks _) _
              rw [htb, List.perm_iff_count]
              intro x
              have e1 := h2.count_eq x
              rw [hs1b] at e1
              simp only [List.count_append, MNode.own, List.count_cons, List.count_nil]
                at e1 ⊢
              omega
  · rw [if_neg hfull] at h
    cases hrun : insertNonFullM ORDER sN sT r.erase.height t.arena r key with
    | thrown e => rw [hrun] at h; cases h
    | stuck => rw [hrun] at h; cases h
    | ok r3 =>
      obtain ⟨a3, r1⟩ := r3
      rw [hrun] at h
      simp only at h
      injection h with h
      subst h
      have hcle := hw.count_le
      rw [erase_keys_count] at hcle
      obtain ⟨news, h1, h2, h3⟩ := insertNonFullM_blocks ORDER sN sT hO r.erase.height _ true
        t.arena r key out a3 r1 hw (by omega) hr hrun
      exact ⟨news, h1, by rw [htb]; exact h2, h3⟩

theorem MTree_insertAll_inv (ORDER sN sT : Nat) (hO : 1 ≤ ORDER) (out0 : List Nat)
    (keys : List T) :
    ∀ (t : MTree T) (r : MNode T) (d : Nat) (out : List Nat), t.root_ = some r →
      WellShaped ORDER d true r.erase → (inorder d r.erase).Sorted (· ≤ ·) →
      Reachable t.arena out → out.Perm (t.blocks ++ out0) →
      MTree.insertAll ORDER sN sT t keys ≠ .stuck ∧
      ∀ t', MTree.insertAll ORDER sN sT t keys = .ok t' →
        BTree.insertAll ORDER t.erase keys = some t'.erase ∧
        t'.arena.total_size = t.arena.total_size ∧
        ∃ out', Reachable t'.arena out' ∧ out'.Perm (t'.blocks ++ out0) := by
  induction keys with
  | nil =>
    intro t r d out _ _ _ hr hp
    refine ⟨fun h => (by cases h), ?_⟩
    intro t' h
    injection h with h
    subst h
    exact ⟨rfl, rfl, out, hr, hp⟩
  | cons k ks ih =>
    intro t r d out hroot hw hs hr hp
    have hroot' : t.erase.root_ = some r.erase := by
      unfold MTree.erase
      rw [hroot]
      rfl
    obtain ⟨t2, r2, d2, hins, hr2, hw2, _, hs2⟩ := insert_spec ORDER hO t.erase k r.erase d hroot'
      hw hs
    obtain ⟨sim1, sim2⟩ := MTree_insert_sim ORDER sN sT t k
    unfold MTree.insertAll BTree.insertAll
    cases hi : MTree.insert ORDER sN sT t k with
    | thrown e => exact ⟨fun h => (by cases h), fun _ h => (by cases h)⟩
    | stuck =>
      rw [sim2 hi] at hins
      cases hins
    | ok t1 =>
      simp only
      have he := sim1 t1 hi
      rw [he] at hins
      injection hins with hins
      rw [he]
      simp only
      have hroot1 : ∃ r1, t1.root_ = some r1 ∧ r1.erase = r2 := by
        rw [← hins] at hr2
        unfold MTree.erase at hr2
        simp only at hr2
        cases hq : t1.root_ with
        | none => rw [hq] at hr2; cases hr2
        | some r1 =>
          rw [hq] at hr2
          injection hr2 with hr2
          exact ⟨r1, rfl, hr2⟩
      obtain ⟨r1, hr1, hr1e⟩ := hroot1
      obtain ⟨news, hrn, hbn, htn⟩ := MTree_insert_blocks ORDER sN sT hO t t1 k r d out hroot hw
        hr hi
      have hp1 : (news ++ out).Perm (t1.blocks ++ out0) := by
        rw [List.perm_iff_count]
        intro x
        have e1 := hbn.count_eq x
        have e2 := hp.count_eq x
        simp only [List.count_append] at e1 e2 ⊢
        omega
      obtain ⟨g1, g2⟩ := ih t1 r1 d2 (news ++ out) hr1 (by rw [hr1e]; exact hw2)
        (by rw [hr1e]; exact hs2) hrn hp1
      refine ⟨g1, ?_⟩
      intro t' ht'
      obtain ⟨q1, q2, q3⟩ := g2 t' ht'
      exact ⟨q1, by rw [q2, htn], q3⟩

theorem reachable_nil_single (a : custom_list_allocator_s) (h : Reachable a []) :
    a.free_list = [⟨0, a.total_size⟩] ∧ a.used_size = 0 := by
  obtain ⟨L, hinv⟩ := reachable_inv a [] h
  have hu : used_of L = [] := by
    have := hinv.used_perm
    have h2 := List.Perm.nil_eq this
    exact List.map_eq_nil_iff.1 h2.symm
  have hL := all_free_single hinv.tiles hinv.pos hu hinv.no_adj
  constructor
  · rw [hinv.free_eq, hL]
    rfl
  · rw [hinv.used_sum, hu]
    rfl

end TreeAccounting

end btree

namespace btree

open custom_list

section DestroyClaim
variable {T : Type} [LinearOrder T] [Inhabited T]

/-- C13: let a `BTree` with `ORDER ≥ 1` be constructed with allocators bound
to an arena that has no outstanding allocation (its heap is entirely free),
and let any sequence of `insert` calls follow.  The run never dereferences an
invalid pointer; it can only end early by an exception of `allocate`.  If all
calls return, the tree is the one the tree algorithms build, the storage
blocks of its nodes (node record, key array and child array of every node)
are exactly the outstanding allocations of the arena, each once, and the
destructor (`clear(root_)`) passes every one of them to `custom_list_free`
exactly once; afterwards `used_size` is 0 and the free list is the single
block that spans the whole heap. -/
theorem destroy_releases_every_block (ORDER sizeof_BNode sizeof_T : Nat) (hO : 1 ≤ ORDER)
    (a0 : custom_list_allocator_s) (h0 : Reachable a0 []) (t0 : MTree T)
    (hnew : MTree.new ORDER sizeof_BNode sizeof_T a0 = .ok t0) (keys : List T) :
    MTree.insertAll ORDER sizeof_BNode sizeof_T t0 keys ≠ .stuck ∧
    ∀ t, MTree.insertAll ORDER sizeof_BNode sizeof_T t0 keys = .ok t →
      BTree.insertAll ORDER (BTree.new ORDER) keys = some t.erase ∧
      (∃ out, Reachable t.arena out ∧ out.Perm t.blocks) ∧ t.blocks.Nodup ∧
      MTree.destroy t = freeAll t.arena t.blocks ∧
      (MTree.destroy t).used_size = 0 ∧
      (MTree.destroy t).free_list = [⟨0, a0.total_size⟩] := by
  obtain ⟨r, hroot, he, out, hr, hp, ht⟩ := MTree_new_ok ORDER sizeof_BNode sizeof_T a0 [] h0 t0 hnew
  have hw : WellShaped ORDER 1 true r.erase := by
    rw [he]
    exact createNode_leaf_shaped ORDER
  have hs : (inorder 1 r.erase).Sorted (· ≤ ·) := by
    rw [he, createNode_leaf_inorder]
    exact List.sorted_nil
  have hte : t0.erase = BTree.new ORDER := by
    unfold MTree.erase BTree.new
    rw [hroot]
    simp only [Option.map_some', he]
  obtain ⟨g1, g2⟩ := MTree_insertAll_inv ORDER sizeof_BNode sizeof_T hO [] keys t0 r 1 out hroot hw
    hs hr hp
  refine ⟨g1, ?_⟩
  intro t hrun
  obtain ⟨q1, q2, out1, q3, q4⟩ := g2 t hrun
  rw [List.append_nil] at q4
  rw [hte] at q1
  have hnd : t.blocks.Nodup := (List.Perm.nodup_iff q4).1 (reachable_nodup _ _ q3)
  obtain ⟨out2, f1, f2⟩ := freeAll_reachable t.blocks t.arena out1 [] q3
    (by rw [List.append_nil]; exact q4)
  have hnil : out2 = [] := List.Perm.eq_nil f2
  subst hnil
  obtain ⟨s1, s2⟩ := reachable_nil_single _ f1
  rw [freeAll_total, q2, ht] at s1
  refine ⟨q1, ⟨out1, q3, q4⟩, hnd, destroy_eq t, ?_, ?_⟩
  · rw [destroy_eq]
    exact s2
  · rw [destroy_eq]
    exact s1

/-- Instance of C13: `BTree<uint32_t, 2>` on the fresh first-fit heap of 1024
bytes with the keys 1, 2, 3, 4 inserted: three nodes, nine blocks, all
released by the destructor. -/
theorem destroy_releases_every_block_witness :
    Reachable run_created [] ∧ MTree.new 2 32 4 run_created = .ok memTree0 ∧
    MTree.insertAll 2 32 4 memTree0 [1, 2, 3, 4] = .ok memTree4 ∧
    memTree4.blocks = [48, 72, 8, 256, 280, 216, 152, 176, 112] ∧
    memTree4.blocks.Nodup ∧
    MTree.destroy memTree4 = freeAll memTree4.arena memTree4.blocks ∧
    (MTree.destroy memTree4).used_size = 0 ∧
    (MTree.destroy memTree4).free_list = [⟨0, run_created.total_size⟩] :=
  ⟨run_created_reachable, rfl, rfl, by decide!,
    ((destroy_releases_every_block 2 32 4 (by decide) run_created run_created_reachable memTree0
      rfl [1, 2, 3, 4]).2 memTree4 rfl).2.2⟩

end DestroyClaim

end btree
